import Mathlib

/-!
# Somfy RTS decoder: shallow embedding of `decoders/decode_somfy.c`

The C program keeps its decoder in global variables (`state`, `data_len`,
`data`) and prints with `printf`.  Here the globals become an explicit record
that is passed through `level_change_cb`, and every `printf` becomes one element
of a list of output events.  Unsigned 64-bit values are natural numbers; the
only operation of the decoder that can leave the 64-bit range, the left shift
of `data`, is reduced modulo `2 ^ 64`.  The `int` counter `data_len` is a
natural number, exact while it stays below `2 ^ 31`; `level_change_cb_wrap`
keeps its 32-bit pattern for runs that overflow it.  Pulse lengths are computed
as `off_t` and reach `level_change_cb` as `unsigned int` (`to_unsigned`).
-/

namespace Somfy

/-! ## Protocol state machine -/

/-- The C type `enum state_t { idle, preamble, data0, data1 }`. -/
inductive state_t where
  | idle
  | preamble
  | data0
  | data1
  deriving DecidableEq

/-- The `switch (state)` at the head of `level_change_cb`: the value assigned
to `new_state` from the current state, the new level and the pulse length. -/
def next_state (state : state_t) (new_level len : Nat) : state_t :=
  match state with
  | .idle =>
    if new_level = 0 ∧ len ≥ 64 ∧ len ≤ 72 then .preamble
    else .idle
  | .preamble =>
    if new_level = 0 ∧ len ≥ 127 ∧ len ≤ 133 then .data0
    else if len ≥ 64 ∧ len ≤ 72 then .preamble
    else .idle
  | .data0 =>
    if len ≥ 30 ∧ len ≤ 40 then .data0
    else if len ≥ 10 ∧ len ≤ 25 then .data1
    else .idle
  | .data1 =>
    if len ≥ 10 ∧ len ≤ 25 then .data0
    else .idle

/-! ## Frame accessors -/

/-- C: `(frame >> (6*8)) & 0xFF`, returned as `uint8_t`. -/
def somfy_frame_get_encryption_key (frame : Nat) : Nat :=
  ((frame >>> (6 * 8)) &&& 0xFF) % 2 ^ 8

/-- C: `(frame >> (5*8 + 4)) & 0xF`, returned as `uint8_t`. -/
def somfy_frame_get_control (frame : Nat) : Nat :=
  ((frame >>> (5 * 8 + 4)) &&& 0xF) % 2 ^ 8

/-- C: `(frame >> (5*8)) & 0xF`, returned as `uint8_t`. -/
def somfy_frame_get_chksum (frame : Nat) : Nat :=
  ((frame >>> (5 * 8)) &&& 0xF) % 2 ^ 8

/-- C: `(frame >> (3*8)) & 0xFFFF`, returned as `uint16_t`. -/
def somfy_frame_get_rolling_code (frame : Nat) : Nat :=
  ((frame >>> (3 * 8)) &&& 0xFFFF) % 2 ^ 16

/-- C: `((frame & 0xFF) << 16) | (frame & 0xFF00) | ((frame & 0xFF0000) >> 16)`,
returned as `uint32_t`. -/
def somfy_frame_get_addr (frame : Nat) : Nat :=
  ((((frame &&& 0xFF) <<< 16) ||| (frame &&& 0xFF00)) |||
    ((frame &&& 0xFF0000) >>> 16)) % 2 ^ 32

/-- The `for` loop of `somfy_calc_checksum`: `n` rounds still to run on the
running `checksum` and the shifted `frame`. -/
def somfy_calc_checksum_loop : Nat → Nat → Nat → Nat
  | 0, checksum, _ => checksum
  | n + 1, checksum, frame =>
    somfy_calc_checksum_loop n (checksum ^^^ (frame &&& 0xf)) (frame >>> 4)

/-- C: `somfy_calc_checksum`: fourteen rounds from `checksum = 0`, the `int`
result returned as `uint8_t`. -/
def somfy_calc_checksum (frame : Nat) : Nat :=
  somfy_calc_checksum_loop 14 0 frame % 2 ^ 8

/-- The table `names[16]` of `somfy_frame_get_control_name`. -/
def control_names : List String :=
  ["c0", "MY", "UP", "MY+UP", "DOWN", "MY+DOWN", "UP+DOWN", "c7",
   "PROG", "SUN+FLAG", "FLAG", "c11", "c12", "c13", "c14", "c15"]

/-- C: `names[somfy_frame_get_control(frame)]`. -/
def somfy_frame_get_control_name (frame : Nat) : String :=
  control_names.getD (somfy_frame_get_control frame) ""

/-! ## Address resolving -/

/-- One node of the linked list `somfy_hosts_cache`; the list itself is a Lean
list with the head of the C list first.  `name` is the string made by
`strdup`, as its characters (`strdup` is taken to succeed, so no node has a
null name and the test `entry->name != NULL` never stops the walk). -/
structure somfy_host_cache_entry where
  addr : Nat
  name : List Char
  deriving DecidableEq

/-- C: `somfy_addr_to_name(addr, dst, len)`.  Walks the list from its head;
at the first entry with this address copies the name with `strncpy` and
terminates it at `dst[len-1]`, which keeps at most `len - 1` characters, and
returns 0 (here `some` of what `dst` holds); `none` is `ESAN_NONAME`. -/
def somfy_addr_to_name (cache : List somfy_host_cache_entry) (addr len : Nat) :
    Option (List Char) :=
  match cache with
  | [] => none
  | entry :: next =>
    if entry.addr = addr then some (entry.name.take (len - 1))
    else somfy_addr_to_name next addr len

/-! ## Reporting -/

/-- What `print_frame_long` and `print_frame_oneline` print after the
14-digit hexadecimal frame: the fields when the checksum is zero, with the
control name and the address name when they are printed, or the failure with
the checksum value. -/
inductive frame_report where
  | checksum_ok (key control : Nat) (control_name : Option String)
      (rolling_code addr : Nat) (addr_name : Option (List Char))
  | checksum_failed (checksum : Nat)
  deriving DecidableEq

/-- The body shared by `print_frame_long` and `print_frame_oneline` (the two
differ in layout only): compute the checksum, and on zero read the fields;
names are added unless `numeric` is set.  `addr_str` has 1024 bytes. -/
def print_frame_body (numeric : Bool) (cache : List somfy_host_cache_entry)
    (frame : Nat) : frame_report :=
  let checksum := somfy_calc_checksum frame
  if checksum = 0 then
    let addr := somfy_frame_get_addr frame
    .checksum_ok (somfy_frame_get_encryption_key frame)
      (somfy_frame_get_control frame)
      (if numeric then none else some (somfy_frame_get_control_name frame))
      (somfy_frame_get_rolling_code frame) addr
      (if numeric then none else somfy_addr_to_name cache addr 1024)
  else
    .checksum_failed checksum

/-- One `printf`/`putchar` group of `level_change_cb`. -/
inductive output where
  /-- The verbose line `printf(", len=%u, dat=%jx\n", data_len, data)`. -/
  | len_dat (data_len data : Nat)
  /-- The call `print_frame_long(frame)`. -/
  | frame_long (frame : Nat) (report : frame_report)
  /-- The call `print_frame_oneline(frame)`. -/
  | frame_oneline (frame : Nat) (report : frame_report)
  /-- The verbose newline printed for a run that ends with no bit. -/
  | blank
  /-- The verbose text `start: `. -/
  | start
  /-- The verbose digit of `new_level`, followed by a space when `data_len % 8 == 0`. -/
  | bit (new_level : Nat) (space : Bool)
  deriving DecidableEq

/-- C: `print_frame_long(frame)`. -/
def print_frame_long (numeric : Bool) (cache : List somfy_host_cache_entry)
    (frame : Nat) : output :=
  .frame_long frame (print_frame_body numeric cache frame)

/-- C: `print_frame_oneline(frame)`. -/
def print_frame_oneline (numeric : Bool) (cache : List somfy_host_cache_entry)
    (frame : Nat) : output :=
  .frame_oneline frame (print_frame_body numeric cache frame)

/-! ## De-obfuscation -/

/-- The loop `for (j=0; j<6; j++) { data = data ^ ((data2 & m) >> 8); m = m >> 8; }`
with `n` rounds still to run. -/
def deobfuscate_loop : Nat → Nat → Nat → Nat → Nat
  | 0, data, _, _ => data
  | n + 1, data, data2, m =>
    deobfuscate_loop n (data ^^^ ((data2 &&& m) >>> 8)) data2 (m >>> 8)

/-- The de-obfuscation block of `level_change_cb`: `m = 0xff000000000000`,
`data2 = data`, six rounds. -/
def deobfuscate (data : Nat) : Nat :=
  deobfuscate_loop 6 data data 0xff000000000000

/-! ## The edge callback -/

/-- The global options `verbose`, `one_line`, `numeric` and the loaded address
table `somfy_hosts_cache`. -/
structure config where
  verbose : Nat
  one_line : Bool
  numeric : Bool
  cache : List somfy_host_cache_entry

/-- The globals `state`, `data_len` and `data`.  (`new_state` and `data2` are
assigned before they are read in every call, so they carry nothing from one
call to the next.)  `data_len` is a C `int`; it is a natural number here,
which is exact while the counter stays below `2 ^ 31`;
`level_change_cb_wrap` keeps the 32-bit pattern of the counter beyond that. -/
structure decoder where
  state : state_t
  data_len : Nat
  data : Nat
  deriving DecidableEq

/-- True for `data0` and `data1`: the C test `state == data0 || state == data1`. -/
def in_data (s : state_t) : Bool :=
  s = .data0 || s = .data1

/-- First `if` of `level_change_cb` after the switch: a run of data bits
ends.  Returns the new value of `data` and what is printed. -/
def frame_end (cfg : config) (d : decoder) (new_state : state_t) :
    Nat × List output :=
  if in_data d.state ∧ ¬ in_data new_state then
    if d.data_len ≠ 0 then
      let o := if cfg.verbose > 0 then [output.len_dat d.data_len d.data] else []
      if d.data_len = 56 then
        let data := deobfuscate d.data
        (data, o ++ [if cfg.one_line then print_frame_oneline cfg.numeric cfg.cache data
                     else print_frame_long cfg.numeric cfg.cache data])
      else (d.data, o)
    else (d.data, if cfg.verbose > 0 then [output.blank] else [])
  else (d.data, [])

/-- C: `level_change_cb(new_level, len)`, the three `if` blocks in source
order followed by `state = new_state`. -/
def level_change_cb (cfg : config) (d : decoder) (new_level len : Nat) :
    decoder × List output :=
  let new_state := next_state d.state new_level len
  let r1 := frame_end cfg d new_state
  let d1 : decoder := { d with data := r1.1 }
  let r2 : decoder × List output :=
    if d1.state = .preamble ∧ new_state = .data0 then
      ({ d1 with data_len := 0, data := 0 },
        if cfg.verbose > 0 then [output.start] else [])
    else (d1, [])
  let d2 := r2.1
  let r3 : decoder × List output :=
    if in_data d2.state ∧ new_state = .data0 then
      let data := ((d2.data <<< 1) ||| new_level) % 2 ^ 64
      let data_len := d2.data_len + 1
      ({ d2 with data := data, data_len := data_len },
        if cfg.verbose > 0 then [output.bit new_level (data_len % 8 = 0)] else [])
    else (d2, [])
  ({ r3.1 with state := new_state }, r1.2 ++ r2.2 ++ r3.2)

/-- Successive calls of `level_change_cb`, one for each edge `(new_level, len)`
of the list, in order; the outputs are concatenated. -/
def run (cfg : config) (d : decoder) : List (Nat × Nat) → decoder × List output
  | [] => (d, [])
  | e :: es =>
    let r := level_change_cb cfg d e.1 e.2
    let r' := run cfg r.1 es
    (r'.1, r.2 ++ r'.2)

/-- The decoder after a list of edges. -/
def run_state (cfg : config) (d : decoder) (es : List (Nat × Nat)) : decoder :=
  (run cfg d es).1

/-! ## Vocabulary of the specification -/

/-- Nibble `i` of a frame, nibble 0 being bits 0-3. -/
def nibble (f i : Nat) : Nat :=
  f / 16 ^ i % 16

/-- The XOR of the fourteen 4-bit nibbles of a 56-bit value, as the
specification words the checksum. -/
def nibble_xor (f : Nat) : Nat :=
  ((List.range 14).map (nibble f)).foldl (· ^^^ ·) 0

/-- Byte `i` of a value, byte 0 being bits 0-7 and byte 6 bits 48-55. -/
def byte_at (x i : Nat) : Nat :=
  x / 256 ^ i % 256

/-- A 24-bit value with its three bytes in reversed order: byte 0 becomes
byte 2, byte 1 stays, byte 2 becomes byte 0. -/
def byte_reverse24 (a : Nat) : Nat :=
  byte_at a 0 * 2 ^ 16 + byte_at a 1 * 2 ^ 8 + byte_at a 2

/-- True for the two outputs that are a decoded frame report. -/
def is_frame : output → Bool
  | .frame_long _ _ => true
  | .frame_oneline _ _ => true
  | _ => false

/-- Every edge of the list has a pulse length in a data window that the
transition table allows for the state it arrives in: the machine, started in
`s`, is in `data0` or `data1` after each edge. -/
def data_timed : state_t → List (Nat × Nat) → Bool
  | _, [] => true
  | s, e :: es =>
    in_data (next_state s e.1 e.2) && data_timed (next_state s e.1 e.2) es

/-- The number of edges of the list that take the machine, started in `s`,
into `data0`. -/
def entered_data0 : state_t → List (Nat × Nat) → Nat
  | _, [] => 0
  | s, e :: es =>
    (if next_state s e.1 e.2 = .data0 then 1 else 0) +
      entered_data0 (next_state s e.1 e.2) es

/-- The edge sequence of the acceptance example: seven pulses of 68 samples
with alternating level, then the 130-sample sync pulse at level 0. -/
def acceptance_edges : List (Nat × Nat) :=
  [(0, 68), (1, 68), (0, 68), (1, 68), (0, 68), (1, 68), (0, 68), (0, 130)]

/-- Fifty-six data-timed edges of 17 samples each, levels alternating. -/
def short_pulse_edges : List (Nat × Nat) :=
  (List.replicate 28 [(1, 17), (0, 17)]).flatten

/-- Options all off, empty address table. -/
def quiet : config :=
  ⟨0, false, false, []⟩

/-- The value of a list of bits read MSB-first: for `b1, ..., bk` the sum of
`b_i * 2 ^ (k - i)`. -/
def msb_first_value : List Nat → Nat
  | [] => 0
  | b :: bs => b * 2 ^ bs.length + msb_first_value bs

/-- The globals at program start: `state = idle`, `data_len = 0`, `data = 0`. -/
def initial : decoder :=
  ⟨.idle, 0, 0⟩

/-- Fifty-seven data-timed edges of 34 samples each, levels alternating from 1. -/
def long_pulse_edges : List (Nat × Nat) :=
  (List.replicate 28 [(1, 34), (0, 34)]).flatten ++ [(1, 34)]

/-- The bounds that hold for the accumulator in every state the decoder
reaches: `data` fits 64 bits, and fits `data_len` bits while `data_len ≤ 64`. -/
def acc_inv (d : decoder) : Prop :=
  d.data < 2 ^ 64 ∧ (d.data_len ≤ 64 → d.data < 2 ^ d.data_len)

/-! ## The edge detector of `main` -/

/-- The C macro `FILTER_DEPTH`. -/
def FILTER_DEPTH : Nat := 8

/-- The C macro `FILTER_TRESHOLD`. -/
def FILTER_TRESHOLD : Nat := 2

/-- The locals of `main` that live from one sample to the next: `sample`,
`level`, `last_change`, and with `WITH_LPF` also `one_cnt` and `filter_bits`.
`sample` and `last_change` are `off_t` counters, natural numbers here;
`last_change ≤ sample` always holds, so `sample - last_change` is exact.
`filter_bits` is a C `int`, kept as its 32-bit pattern. -/
structure detector where
  sample : Nat
  level : Nat
  last_change : Nat
  one_cnt : Int
  filter_bits : Nat
  deriving DecidableEq

/-- The initial values of the locals of `main`: all zero. -/
def detector_init : detector :=
  ⟨0, 0, 0, 0, 0⟩

/-- The `WITH_LPF` update of `one_cnt` and `filter_bits` for one raw sample:
`if (filter_bits & (1 << FILTER_DEPTH)) one_cnt--; filter_bits <<= 1;
if (raw) { filter_bits |= 0x01; one_cnt++; }`. -/
def lpf_update (st : detector) (raw : Bool) : detector :=
  let one_cnt := if st.filter_bits &&& (1 <<< FILTER_DEPTH) ≠ 0 then st.one_cnt - 1
    else st.one_cnt
  let filter_bits := (st.filter_bits <<< 1) % 2 ^ 32
  if raw then { st with filter_bits := filter_bits ||| 0x01, one_cnt := one_cnt + 1 }
  else { st with filter_bits := filter_bits, one_cnt := one_cnt }

/-- The `WITH_LPF` choice of `new_level` from `level` and the updated `one_cnt`. -/
def lpf_level (st : detector) : Nat :=
  if st.level ≠ 0 ∧ st.one_cnt ≤ (FILTER_TRESHOLD : Int) then 0
  else if st.level = 0 ∧ st.one_cnt ≥ ((FILTER_DEPTH : Int) - (FILTER_TRESHOLD : Int)) then 1
  else st.level

/-- The tail of the inner loop body, from `if (new_level != level)` to
`sample++`: on a level change the call `level_change_cb(new_level, len)` with
`len = sample - last_change` is recorded as the pair `(new_level, len)`. -/
def detect (st : detector) (new_level : Nat) : detector × List (Nat × Nat) :=
  if new_level ≠ st.level then
    ({ st with level := new_level, last_change := st.sample, sample := st.sample + 1 },
      [(new_level, st.sample - st.last_change)])
  else ({ st with sample := st.sample + 1 }, [])

/-- One pass of the inner loop body for the sample `(byte & mask) != 0`;
`with_lpf` says whether the program was built with `WITH_LPF`. -/
def sample_step (with_lpf : Bool) (st : detector) (byte mask : Nat) :
    detector × List (Nat × Nat) :=
  let raw : Bool := decide (byte &&& mask ≠ 0)
  if with_lpf then
    let st1 := lpf_update st raw
    detect st1 (lpf_level st1)
  else detect st (if raw then 1 else 0)

/-- The inner loop `for (j=0; j < 8; j++)` with `n` passes still to run; `mask`
is shifted right once per pass. -/
def byte_loop (with_lpf : Bool) : Nat → detector → Nat → Nat → detector × List (Nat × Nat)
  | 0, st, _, _ => (st, [])
  | n + 1, st, byte, mask =>
    let r := sample_step with_lpf st byte mask
    let r' := byte_loop with_lpf n r.1 byte (mask >>> 1)
    (r'.1, r.2 ++ r'.2)

/-- The reading loops of `main` over all input bytes (the chunks of `fread`
joined): for each byte `mask = 0x80` and eight passes.  The result is the
locals at end of input and the recorded calls of `level_change_cb`. -/
def main_loop (with_lpf : Bool) (st : detector) : List Nat → detector × List (Nat × Nat)
  | [] => (st, [])
  | byte :: bytes =>
    let r := byte_loop with_lpf 8 st byte 0x80
    let r' := main_loop with_lpf r.1 bytes
    (r'.1, r.2 ++ r'.2)

/-- The arguments of the closing call `level_change_cb(!level, sample - last_change)`. -/
def main_final_edge (st : detector) : Nat × Nat :=
  (if st.level = 0 then 1 else 0, st.sample - st.last_change)

/-- The conversion of the `off_t` length to the `unsigned int` parameter `len`
of `level_change_cb`. -/
def to_unsigned (e : Nat × Nat) : Nat × Nat :=
  (e.1, e.2 % 2 ^ 32)

/-- The edges `main` hands to `level_change_cb` while it reads the input. -/
def loop_edges (with_lpf : Bool) (bytes : List Nat) : List (Nat × Nat) :=
  (main_loop with_lpf detector_init bytes).2

/-- The decoder when the input is exhausted, before the closing call. -/
def decoder_at_eof (with_lpf : Bool) (cfg : config) (bytes : List Nat) : decoder :=
  run_state cfg initial ((loop_edges with_lpf bytes).map to_unsigned)

/-- The program `main` from the first `fread` to the closing call of
`level_change_cb`: every recorded call is made in order, starting from the
initial globals.  (`level_change_cb` touches none of the locals of `main`, so
collecting the calls first changes nothing.)  The result is the final globals
and all output of the calls. -/
def main (with_lpf : Bool) (cfg : config) (bytes : List Nat) : decoder × List output :=
  let r := main_loop with_lpf detector_init bytes
  run cfg initial ((r.2 ++ [main_final_edge r.1]).map to_unsigned)

/-- Sample `j` (0 first) of a byte whose samples are packed MSB-first. -/
def byte_sample (byte j : Nat) : Nat :=
  byte / 2 ^ (7 - j) % 2

/-- The sample stream of an input: eight samples per byte, MSB first. -/
def msb_first_samples (bytes : List Nat) : List Nat :=
  bytes.flatMap (fun byte => (List.range 8).map (byte_sample byte))

/-- The level in force after the samples `hist` (most recent first): the last
sample, or 0 before any sample. -/
def current_level (hist : List Nat) : Nat :=
  hist.head?.getD 0

/-- The length of the maximal run of samples equal to `c` that ends the
samples seen so far (`hist`, most recent first). -/
def trailing_run (hist : List Nat) (c : Nat) : Nat :=
  (hist.takeWhile (· == c)).length

/-- The edge events the specification expects for the samples `rest` that
follow the samples `hist` (most recent first): one event at each sample that
differs from the current level, carrying that sample and the length of the
run of the previous level that just ended. -/
def expected_edges : List Nat → List Nat → List (Nat × Nat)
  | _, [] => []
  | hist, x :: rest =>
    (if x ≠ current_level hist then [(x, trailing_run hist (current_level hist))] else []) ++
      expected_edges (x :: hist) rest

/-- State of the counter-based reference detector of the specification. -/
structure counter_state where
  current_level : Nat
  samples_since_change : Nat
  deriving DecidableEq

/-- The counter-based reference: on each bit, if it differs from
`current_level` emit `(bit, samples_since_change)`, set `samples_since_change`
to `restart` and `current_level` to the bit; otherwise increment
`samples_since_change`.  The specification has `restart = 0`. -/
def counter_reference (restart : Nat) : counter_state → List Nat → List (Nat × Nat)
  | _, [] => []
  | st, bit :: bits =>
    if bit ≠ st.current_level then
      (bit, st.samples_since_change) :: counter_reference restart ⟨bit, restart⟩ bits
    else counter_reference restart ⟨st.current_level, st.samples_since_change + 1⟩ bits

/-- A 35-byte input: 68 samples high, 68 low, 130 high, 14 low. -/
def cut_short_stream : List Nat :=
  List.replicate 8 0xFF ++ [0xF0] ++ List.replicate 8 0x00 ++ List.replicate 16 0xFF ++
    [0xC0, 0x00]

/-- The tail of the inner loop body applied to a list of levels in turn. -/
def detect_all : detector → List Nat → detector × List (Nat × Nat)
  | st, [] => (st, [])
  | st, x :: xs =>
    let r := detect st x
    let r' := detect_all r.1 xs
    (r'.1, r.2 ++ r'.2)

/-- The low `n` bits of a byte as samples, bit `n - 1` first. -/
def bits_from (byte : Nat) : Nat → List Nat
  | 0 => []
  | n + 1 => byte / 2 ^ n % 2 :: bits_from byte n

/-- The arguments of the closing call as `level_change_cb` receives them. -/
def final_edge (with_lpf : Bool) (bytes : List Nat) : Nat × Nat :=
  to_unsigned (main_final_edge (main_loop with_lpf detector_init bytes).1)

/-- A 273-byte input: 68 samples high, 68 low, 130 high (the preamble of the
acceptance example), then 56 pulses of 34 samples with alternating level, the
last of them followed by only 14 more samples at its level. -/
def full_frame_stream : List Nat :=
  [
   0xFF, 0xFF, 0xFF, 0xFF, 0xFF, 0xFF, 0xFF, 0xFF, 0xF0, 0x00, 0x00, 0x00, 0x00, 0x00, 0x00,
   0x00, 0x00, 0xFF, 0xFF, 0xFF, 0xFF, 0xFF, 0xFF, 0xFF, 0xFF, 0xFF, 0xFF, 0xFF, 0xFF, 0xFF,
   0xFF, 0xFF, 0xFF, 0xC0, 0x00, 0x00, 0x00, 0x0F, 0xFF, 0xFF, 0xFF, 0xFC, 0x00, 0x00, 0x00,
   0x00, 0xFF, 0xFF, 0xFF, 0xFF, 0xC0, 0x00, 0x00, 0x00, 0x0F, 0xFF, 0xFF, 0xFF, 0xFC, 0x00,
   0x00, 0x00, 0x00, 0xFF, 0xFF, 0xFF, 0xFF, 0xC0, 0x00, 0x00, 0x00, 0x0F, 0xFF, 0xFF, 0xFF,
   0xFC, 0x00, 0x00, 0x00, 0x00, 0xFF, 0xFF, 0xFF, 0xFF, 0xC0, 0x00, 0x00, 0x00, 0x0F, 0xFF,
   0xFF, 0xFF, 0xFC, 0x00, 0x00, 0x00, 0x00, 0xFF, 0xFF, 0xFF, 0xFF, 0xC0, 0x00, 0x00, 0x00,
   0x0F, 0xFF, 0xFF, 0xFF, 0xFC, 0x00, 0x00, 0x00, 0x00, 0xFF, 0xFF, 0xFF, 0xFF, 0xC0, 0x00,
   0x00, 0x00, 0x0F, 0xFF, 0xFF, 0xFF, 0xFC, 0x00, 0x00, 0x00, 0x00, 0xFF, 0xFF, 0xFF, 0xFF,
   0xC0, 0x00, 0x00, 0x00, 0x0F, 0xFF, 0xFF, 0xFF, 0xFC, 0x00, 0x00, 0x00, 0x00, 0xFF, 0xFF,
   0xFF, 0xFF, 0xC0, 0x00, 0x00, 0x00, 0x0F, 0xFF, 0xFF, 0xFF, 0xFC, 0x00, 0x00, 0x00, 0x00,
   0xFF, 0xFF, 0xFF, 0xFF, 0xC0, 0x00, 0x00, 0x00, 0x0F, 0xFF, 0xFF, 0xFF, 0xFC, 0x00, 0x00,
   0x00, 0x00, 0xFF, 0xFF, 0xFF, 0xFF, 0xC0, 0x00, 0x00, 0x00, 0x0F, 0xFF, 0xFF, 0xFF, 0xFC,
   0x00, 0x00, 0x00, 0x00, 0xFF, 0xFF, 0xFF, 0xFF, 0xC0, 0x00, 0x00, 0x00, 0x0F, 0xFF, 0xFF,
   0xFF, 0xFC, 0x00, 0x00, 0x00, 0x00, 0xFF, 0xFF, 0xFF, 0xFF, 0xC0, 0x00, 0x00, 0x00, 0x0F,
   0xFF, 0xFF, 0xFF, 0xFC, 0x00, 0x00, 0x00, 0x00, 0xFF, 0xFF, 0xFF, 0xFF, 0xC0, 0x00, 0x00,
   0x00, 0x0F, 0xFF, 0xFF, 0xFF, 0xFC, 0x00, 0x00, 0x00, 0x00, 0xFF, 0xFF, 0xFF, 0xFF, 0xC0,
   0x00, 0x00, 0x00, 0x0F, 0xFF, 0xFF, 0xFF, 0xFC, 0x00, 0x00, 0x00, 0x00, 0xFF, 0xFF, 0xFF,
   0xFF, 0xC0, 0x00
  ]

/-! ## Loading the address table -/

/-- C `isspace` in the C locale: space, and `\t \n \v \f \r` (codes 9 to 13). -/
def isspace (c : Char) : Bool :=
  c.toNat = 32 || (9 ≤ c.toNat && c.toNat ≤ 13)

/-- The value of a character as a base-16 digit as `strtol` reads it:
`0-9`, `a-f`, `A-F`. -/
def hex_digit (c : Char) : Option Nat :=
  if 48 ≤ c.toNat ∧ c.toNat ≤ 57 then some (c.toNat - 48)
  else if 97 ≤ c.toNat ∧ c.toNat ≤ 102 then some (c.toNat - 87)
  else if 65 ≤ c.toNat ∧ c.toNat ≤ 70 then some (c.toNat - 55)
  else none

/-- The digit loop of `strtol` in base 16: the value read so far and the
number of digits consumed, continued over the longest run of hex digits. -/
def strtol_digits : List Char → Nat → Nat → Nat × Nat
  | [], acc, n => (acc, n)
  | c :: cs, acc, n =>
    match hex_digit c with
    | some v => strtol_digits cs (16 * acc + v) (n + 1)
    | none => (acc, n)

/-- The sign read by `strtol`: `-` (code 45) or `+` (code 43), one character. -/
def strtol_sign (s : List Char) : Bool × Nat :=
  match s with
  | c :: _ => if c.toNat = 45 then (true, 1) else if c.toNat = 43 then (false, 1) else (false, 0)
  | [] => (false, 0)

/-- The length of the prefix `0x` or `0X` that `strtol` skips in base 16; it
is part of the number only when a hex digit follows, otherwise the `0` alone
is the number. -/
def strtol_hex_mark (s : List Char) : Nat :=
  match s with
  | z :: x :: h :: _ =>
    if z.toNat = 48 ∧ (x.toNat = 120 ∨ x.toNat = 88) ∧ (hex_digit h).isSome then 2 else 0
  | _ => 0

/-- C `strtol(s, &end, 16)` on a 64-bit `long`: leading white space, an
optional sign, an optional `0x`, then hex digits.  The result is the value
(clamped to the range of `long`) and `end - s`; with no digit the value is 0
and `end = s`. -/
def strtol16 (s : List Char) : Int × Nat :=
  let ws := (s.takeWhile isspace).length
  let s1 := s.drop ws
  let sg := strtol_sign s1
  let s2 := s1.drop sg.2
  let px := strtol_hex_mark s2
  let r := strtol_digits (s2.drop px) 0 0
  if r.2 = 0 then (0, 0)
  else
    let v : Int := if sg.1 then max (-(r.1 : Int)) (-(2 ^ 63)) else min (r.1 : Int) (2 ^ 63 - 1)
    (v, ws + sg.2 + px + r.2)

/-- The body of the `while (getline ...)` loop of `somfy_hosts_cache_init` for
one line as `getline` returns it: `none` for `continue`, else the new entry.
The line is a C string, so what follows a NUL character (code 0) is not seen
by `strlen` and `strdup`. -/
def parse_line (line : List Char) : Option somfy_host_cache_entry :=
  let t := (line.reverse.dropWhile isspace).reverse
  if t.length < 8 then none
  else
    let r := strtol16 t
    if r.2 ≠ 6 ∨ isspace (t.getD 6 (Char.ofNat 0)) = false then none
    else
      let sp := (t.drop 6).dropWhile isspace
      let name := sp.takeWhile (fun c => c.toNat ≠ 0)
      if name.length = 0 then none
      else some ⟨(r.1 % 2 ^ 32).toNat, name⟩

/-- C: `somfy_hosts_cache_init(cache_file)`.  `file` is `none` when `fopen`
fails, else the lines of the file as `getline` returns them; every entry is
put in front of the list `somfy_hosts_cache`. -/
def somfy_hosts_cache_init (cache : List somfy_host_cache_entry)
    (file : Option (List (List Char))) : List somfy_host_cache_entry :=
  match file with
  | none => cache
  | some lines =>
    lines.foldl (fun c line =>
      match parse_line line with
      | some entry => entry :: c
      | none => c) cache

/-- The entries a file defines, in the order of its lines. -/
def loaded_entries (lines : List (List Char)) : List somfy_host_cache_entry :=
  lines.filterMap parse_line

/-- Among entries in load order, the one with address `a` that was loaded
last, if any. -/
def last_loaded (a : Nat) (entries : List somfy_host_cache_entry) :
    Option somfy_host_cache_entry :=
  entries.foldl (fun acc e => if e.addr = a then some e else acc) none

/-- The value of a list of hex digits, most significant first. -/
def hex_value (digits : List Char) : Nat :=
  digits.foldl (fun acc c => 16 * acc + (hex_digit c).getD 0) 0

/-- The entry the specification expects from a line: after the trailing white
space is trimmed, exactly 6 hex digits, then one or more white space
characters, then a non-empty name; the address is the value of the digits and
the name is the text after the white space.  `none` for any other line. -/
def expected_entry (line : List Char) : Option somfy_host_cache_entry :=
  let t := (line.reverse.dropWhile isspace).reverse
  let digits := t.take 6
  let rest := t.drop 6
  let name := rest.dropWhile isspace
  if digits.length = 6 ∧ digits.all (fun c => (hex_digit c).isSome) = true ∧
      1 ≤ (rest.takeWhile isspace).length ∧ name ≠ [] then
    some ⟨hex_value digits, name⟩
  else none

/-- A line of the address table whose name is 1024 times the letter `x`. -/
def long_name_line : List Char :=
  "1a2b3c ".toList ++ List.replicate 1024 (Char.ofNat 120)

/-! ## The obfuscation that de-obfuscation undoes -/

/-- Byte `6 - k` of the chained obfuscation of `p`: the top byte is kept, and
each lower byte is the plain byte XORed with the obfuscated byte above it. -/
def obfuscate_byte (p : Nat) : Nat → Nat
  | 0 => byte_at p 6
  | k + 1 => byte_at p (6 - (k + 1)) ^^^ obfuscate_byte p k

/-- The chained obfuscation `e` of a 56-bit value: `e6 = p6` and
`e_i = p_i XOR e_(i+1)` for `i = 5` down to 0, assembled from its bytes. -/
def obfuscate (p : Nat) : Nat :=
  obfuscate_byte p 6 + obfuscate_byte p 5 * 256 + obfuscate_byte p 4 * 256 ^ 2 +
    obfuscate_byte p 3 * 256 ^ 3 + obfuscate_byte p 2 * 256 ^ 4 +
    obfuscate_byte p 1 * 256 ^ 5 + obfuscate_byte p 0 * 256 ^ 6

/-! ## The low-pass filter mode -/

/-- The inner loop body with `WITH_LPF` for one raw sample `x`. -/
def lpf_detect (st : detector) (x : Nat) : detector × List (Nat × Nat) :=
  detect (lpf_update st (decide (x ≠ 0))) (lpf_level (lpf_update st (decide (x ≠ 0))))

/-- The inner loop body with `WITH_LPF` applied to a list of raw samples. -/
def lpf_all : detector → List Nat → detector × List (Nat × Nat)
  | st, [] => (st, [])
  | st, x :: xs =>
    let r := lpf_detect st x
    let r' := lpf_all r.1 xs
    (r'.1, r.2 ++ r'.2)

/-- The number of set samples among the last `n` raw samples; `hist` holds the
samples seen so far, most recent first. -/
def ones_in_last (n : Nat) (hist : List Nat) : Nat :=
  ((hist.take n).filter (fun x => decide (x ≠ 0))).length

/-! ## The checksum nibble -/

/-- The XOR of the thirteen nibbles of a frame other than the checksum
nibble (nibble 10, bits 40-43). -/
def other_nibbles_xor (f : Nat) : Nat :=
  (((List.range 14).filter (fun i => decide (i ≠ 10))).map (nibble f)).foldl (· ^^^ ·) 0

/-- The frame `f` with its checksum nibble (bits 40-43) replaced by `v` and
the other 52 bits kept. -/
def with_chksum (f v : Nat) : Nat :=
  f / 2 ^ 44 * 2 ^ 44 + v * 2 ^ 40 + f % 2 ^ 40

/-- The frame value a frame report prints (with `%.14jx`), if the output is a
frame report. -/
def frame_of : output → Option Nat
  | .frame_long frame _ => some frame
  | .frame_oneline frame _ => some frame
  | _ => none

/-! ## The bit-stream packer (`converters/pack_bit_stream.c`) -/

namespace pack_bit_stream

/-- The locals of `main` that live across the loops: `j`, the number of samples
collected in the current byte, and `b`, the byte being filled (`uint8_t`). -/
structure packer where
  j : Nat
  b : Nat
  deriving DecidableEq, Repr

/-- The body of the `for` loop for the input byte `byte` (`buf[i]`): shift `b`
left by one (kept to 8 bits), OR in the low bit of the input byte, and when
`++j == 8` write `b` and reset `j` and `b`.  The result is the new locals and
the bytes written. -/
def pack_sample (s : packer) (byte : Nat) : packer × List Nat :=
  let b := (s.b <<< 1) % 256
  let b := b ||| (byte &&& 0x01)
  if s.j + 1 = 8 then (⟨0, 0⟩, [b]) else (⟨s.j + 1, b⟩, [])

/-- The `for` loop over one buffer filled by `fread`. -/
def pack_buf : packer → List Nat → packer × List Nat
  | s, [] => (s, [])
  | s, byte :: buf =>
    let r := pack_sample s byte
    let r2 := pack_buf r.1 buf
    (r2.1, r.2 ++ r2.2)

/-- The `while ((len = fread(...)) > 0)` loop; `reads` lists the buffer contents
that the successive `fread` calls return, and the loop ends at the first read
of length 0 (or when the list is exhausted, the end of the input). -/
def read_loop : packer → List (List Nat) → packer × List Nat
  | s, [] => (s, [])
  | s, buf :: reads =>
    if 0 < buf.length then
      let r := pack_buf s buf
      let r2 := read_loop r.1 reads
      (r2.1, r.2 ++ r2.2)
    else (s, [])

/-- The code after the loop: `if (j < 8) { b <<= (8-j); fputc(b, stdout); }`. -/
def pack_tail (s : packer) : List Nat :=
  if s.j < 8 then [(s.b <<< (8 - s.j)) % 256] else []

/-- The program: `j = 0; b = 0;`, the read loop, then the tail.  The result is
the bytes written to standard output, in order. -/
def main (reads : List (List Nat)) : List Nat :=
  let r := read_loop ⟨0, 0⟩ reads
  r.2 ++ pack_tail r.1

end pack_bit_stream

/-- The input bytes the packer consumes: the contents of the reads before the
first empty one, in order. -/
def bytes_read (reads : List (List Nat)) : List Nat :=
  (reads.takeWhile (fun buf => decide (0 < buf.length))).flatten

/-- The sample carried by an input byte: its least significant bit. -/
def sample_of (byte : Nat) : Nat :=
  byte % 2

/-! ## The `int` counter beyond its range -/

/-- The callback with `data_len` kept as the 32-bit pattern of the C `int`:
`data_len++` at `INT_MAX` is undefined in C, and on two's-complement targets
the counter wraps.  Every use of `data_len` in `level_change_cb` reads the
pattern the same way as the value: the tests `data_len` and `data_len == 56`,
`%u` in the verbose line, and `data_len % 8 == 0` (8 divides `2 ^ 32`). -/
def level_change_cb_wrap (cfg : config) (d : decoder) (new_level len : Nat) :
    decoder × List output :=
  let r := level_change_cb cfg d new_level len
  ({ r.1 with data_len := r.1.data_len % 2 ^ 32 }, r.2)

/-- Successive calls of `level_change_cb_wrap`, one for each edge of the list. -/
def run_wrap (cfg : config) (d : decoder) : List (Nat × Nat) → decoder × List output
  | [] => (d, [])
  | e :: es =>
    let r := level_change_cb_wrap cfg d e.1 e.2
    let r' := run_wrap cfg r.1 es
    (r'.1, r.2 ++ r'.2)

/-- The decoder after a list of edges, with the wrapping counter. -/
def run_state_wrap (cfg : config) (d : decoder) (es : List (Nat × Nat)) : decoder :=
  (run_wrap cfg d es).1

/-- True when the counter `data_len` stays below `2 ^ 31` in every state the
decoder passes through from `d` along the edges of the list, so that no
`data_len++` overflows the C `int`. -/
def counter_in_range (cfg : config) : decoder → List (Nat × Nat) → Bool
  | d, [] => decide (d.data_len < 2 ^ 31)
  | d, e :: es =>
    decide (d.data_len < 2 ^ 31) && counter_in_range cfg (level_change_cb cfg d e.1 e.2).1 es

/-- The preamble of the acceptance example followed by `2 ^ 32 + 56` data
edges of 34 samples with alternating levels. -/
def overflow_edges : List (Nat × Nat) :=
  acceptance_edges ++ (List.replicate 32 [(1, 34), (0, 34)]).flatten ++
    (List.replicate (2 ^ 31 - 4) [(1, 34), (0, 34)]).flatten

/-- An input of `2 ^ 29 + 9` bytes: `2 ^ 32 + 68` samples high, then 4 low. -/
def long_run_stream : List Nat :=
  List.replicate (2 ^ 29 + 8) 0xFF ++ [0xF0]

/-- An input of `2 ^ 29 + 1` bytes: `2 ^ 32` samples low, then 1 high and 7
low. -/
def wrapped_run_stream : List Nat :=
  List.replicate (2 ^ 29) 0x00 ++ [0x80]

/-! ## Basic facts about the callback -/

theorem level_change_cb_state (cfg : config) (d : decoder) (new_level len : Nat) :
    (level_change_cb cfg d new_level len).1.state = next_state d.state new_level len := by
  simp [level_change_cb]

theorem run_state_nil (cfg : config) (d : decoder) : run_state cfg d [] = d := rfl

theorem run_state_cons (cfg : config) (d : decoder) (e : Nat × Nat) (es : List (Nat × Nat)) :
    run_state cfg d (e :: es) = run_state cfg (level_change_cb cfg d e.1 e.2).1 es := rfl

theorem run_state_append (cfg : config) (es fs : List (Nat × Nat)) :
    ∀ d, run_state cfg d (es ++ fs) = run_state cfg (run_state cfg d es) fs := by
  induction es with
  | nil => intro d; rfl
  | cons e es ih => intro d; simp only [List.cons_append, run_state_cons, ih]

/-- An edge with a preamble-length pulse, seen in `preamble`, changes nothing. -/
theorem level_change_cb_preamble_stay (cfg : config) (data_len data new_level len : Nat)
    (h : 64 ≤ len ∧ len ≤ 72) :
    (level_change_cb cfg ⟨.preamble, data_len, data⟩ new_level len).1 =
      ⟨.preamble, data_len, data⟩ := by
  have h1 : ¬ (127 ≤ len ∧ len ≤ 133) := by omega
  simp [level_change_cb, frame_end, next_state, in_data, h, h1]

theorem run_state_preamble_stay (cfg : config) (data_len data : Nat)
    (mid : List (Nat × Nat)) (h : ∀ e ∈ mid, 64 ≤ e.2 ∧ e.2 ≤ 72) :
    run_state cfg ⟨.preamble, data_len, data⟩ mid = ⟨.preamble, data_len, data⟩ := by
  induction mid with
  | nil => rfl
  | cons e es ih =>
    rw [run_state_cons, level_change_cb_preamble_stay cfg data_len data e.1 e.2
      (h e (List.mem_cons_self _ _))]
    exact ih (fun x hx => h x (List.mem_cons_of_mem _ hx))

/-- One edge that keeps the machine in `data0`/`data1`: a bit is appended
exactly when the new state is `data0`. -/
theorem level_change_cb_data_step (cfg : config) (d : decoder) (new_level len : Nat)
    (hd : in_data d.state = true) (hn : in_data (next_state d.state new_level len) = true) :
    (level_change_cb cfg d new_level len).1 =
      if next_state d.state new_level len = .data0 then
        ⟨.data0, d.data_len + 1, ((d.data <<< 1) ||| new_level) % 2 ^ 64⟩
      else ⟨.data1, d.data_len, d.data⟩ := by
  obtain ⟨st, dl, dat⟩ := d
  generalize hns : next_state st new_level len = ns at hn
  simp only [level_change_cb, frame_end, hns]
  cases st <;> cases ns <;> simp_all [in_data]

theorem run_state_data_len (cfg : config) (es : List (Nat × Nat)) :
    ∀ d, in_data d.state = true → data_timed d.state es = true →
      (run_state cfg d es).data_len = d.data_len + entered_data0 d.state es ∧
      in_data (run_state cfg d es).state = true := by
  induction es with
  | nil => intro d hd _; exact ⟨rfl, hd⟩
  | cons e es ih =>
    intro d hd ht
    simp only [data_timed, Bool.and_eq_true] at ht
    have hstep := level_change_cb_data_step cfg d e.1 e.2 hd ht.1
    have hst := level_change_cb_state cfg d e.1 e.2
    have := ih (level_change_cb cfg d e.1 e.2).1 (by rw [hst]; exact ht.1)
      (by rw [hst]; exact ht.2)
    rw [run_state_cons, this.1, hst]
    refine ⟨?_, this.2⟩
    simp only [entered_data0]
    rw [hstep]
    split_ifs
    · simp only []; omega
    · simp

/-! ## Bit-level lemmas -/

theorem and_15_eq_mod (x : Nat) : x &&& 0xf = x % 16 :=
  Nat.and_pow_two_sub_one_eq_mod x 4

theorem nibble_lt (f i : Nat) : nibble f i < 2 ^ 4 := by
  unfold nibble; omega

theorem somfy_calc_checksum_loop_eq (n : Nat) : ∀ (k cs f : Nat),
    somfy_calc_checksum_loop n cs (f / 16 ^ k) =
      ((List.range' k n).map (nibble f)).foldl (· ^^^ ·) cs := by
  induction n with
  | zero => intro k cs f; simp [somfy_calc_checksum_loop]
  | succ n ih =>
    intro k cs f
    have h : (f / 16 ^ k) >>> 4 = f / 16 ^ (k + 1) := by
      rw [Nat.shiftRight_eq_div_pow, Nat.div_div_eq_div_mul, Nat.pow_succ 16 k]
    simp only [somfy_calc_checksum_loop, h, ih, and_15_eq_mod, List.range'_succ,
      List.map_cons, List.foldl_cons, nibble]

theorem foldl_xor_lt (l : List Nat) (h : ∀ x ∈ l, x < 2 ^ 4) :
    ∀ a, a < 2 ^ 4 → l.foldl (· ^^^ ·) a < 2 ^ 4 := by
  induction l with
  | nil => intro a ha; simpa using ha
  | cons x xs ih =>
    intro a ha
    simp only [List.foldl_cons]
    exact ih (fun y hy => h y (List.mem_cons_of_mem _ hy)) _
      (Nat.xor_lt_two_pow ha (h x (List.mem_cons_self _ _)))

theorem nibble_xor_lt (f : Nat) : nibble_xor f < 16 := by
  have := foldl_xor_lt ((List.range 14).map (nibble f)) (by
    intro x hx
    simp only [List.mem_map] at hx
    obtain ⟨i, _, rfl⟩ := hx
    exact nibble_lt f i) 0 (by norm_num)
  simpa [nibble_xor] using this

theorem somfy_calc_checksum_eq (f : Nat) : somfy_calc_checksum f = nibble_xor f := by
  have h := somfy_calc_checksum_loop_eq 14 0 0 f
  simp only [pow_zero, Nat.div_one] at h
  rw [somfy_calc_checksum, h, ← List.range_eq_range']
  have := nibble_xor_lt f
  unfold nibble_xor at this ⊢
  omega

theorem byte_mask_testBit (k i : Nat) :
    ((2 ^ 8 - 1) <<< k).testBit i = (decide (k ≤ i) && decide (i < k + 8)) := by
  rw [Nat.testBit_shiftLeft, Nat.testBit_two_pow_sub_one]
  by_cases h : k ≤ i
  · simp [h]
    omega
  · simp [h]

theorem testBit_eq_false_of_lt {x n i : Nat} (hx : x < 2 ^ n) (hi : n ≤ i) :
    x.testBit i = false :=
  Nat.testBit_lt_two_pow (lt_of_lt_of_le hx (Nat.pow_le_pow_right (by norm_num) hi))

theorem byte_at_testBit (x k j : Nat) :
    (byte_at x k).testBit j = (decide (j < 8) && x.testBit (8 * k + j)) := by
  have h : x / 256 ^ k % 256 = (x >>> (8 * k)) % 2 ^ 8 := by
    rw [Nat.shiftRight_eq_div_pow, pow_mul]
    norm_num
  rw [byte_at, h, Nat.testBit_mod_two_pow, Nat.testBit_shiftRight]

theorem deobfuscate_unfold (c : Nat) : deobfuscate c =
    c ^^^ ((c &&& (2 ^ 8 - 1) <<< 48) >>> 8) ^^^ ((c &&& (2 ^ 8 - 1) <<< 40) >>> 8)
      ^^^ ((c &&& (2 ^ 8 - 1) <<< 32) >>> 8) ^^^ ((c &&& (2 ^ 8 - 1) <<< 24) >>> 8)
      ^^^ ((c &&& (2 ^ 8 - 1) <<< 16) >>> 8) ^^^ ((c &&& (2 ^ 8 - 1) <<< 8) >>> 8) := rfl

/-- Bit `i` of the de-obfuscated value: bit `i` of the raw value, XORed below
bit 48 with bit `i + 8` of the raw value. -/
theorem deobfuscate_testBit (c i : Nat) :
    (deobfuscate c).testBit i = (c.testBit i ^^ (decide (i < 48) && c.testBit (i + 8))) := by
  rw [deobfuscate_unfold]
  simp only [Nat.testBit_xor, Nat.testBit_shiftRight, Nat.testBit_and, byte_mask_testBit]
  have h : i < 8 ∨ (8 ≤ i ∧ i < 16) ∨ (16 ≤ i ∧ i < 24) ∨ (24 ≤ i ∧ i < 32) ∨
      (32 ≤ i ∧ i < 40) ∨ (40 ≤ i ∧ i < 48) ∨ 48 ≤ i := by omega
  rw [Nat.add_comm 8 i]
  generalize c.testBit i = a
  generalize c.testBit (i + 8) = b
  rcases h with h | h | h | h | h | h | h <;>
    simp (disch := omega) only [decide_eq_true, decide_eq_false] <;>
    cases a <;> cases b <;> rfl

theorem deobfuscate_eq_xor_shift (c : Nat) (hc : c < 2 ^ 56) :
    deobfuscate c = c ^^^ (c >>> 8) := by
  apply Nat.eq_of_testBit_eq
  intro i
  rw [deobfuscate_testBit, Nat.testBit_xor, Nat.testBit_shiftRight, Nat.add_comm 8 i]
  by_cases h : i < 48
  · simp [h]
  · have : c.testBit (i + 8) = false := testBit_eq_false_of_lt hc (by omega)
    simp [this]

theorem deobfuscate_byte_low (c i : Nat) (hi : i < 6) :
    byte_at (deobfuscate c) i = byte_at c i ^^^ byte_at c (i + 1) := by
  apply Nat.eq_of_testBit_eq
  intro j
  simp only [byte_at_testBit, Nat.testBit_xor, deobfuscate_testBit]
  have e : 8 * (i + 1) + j = 8 * i + j + 8 := by ring
  rw [e]
  by_cases hj : j < 8
  · have h48 : 8 * i + j < 48 := by omega
    simp [hj, h48]
  · simp [hj]

theorem deobfuscate_byte_top (c i : Nat) (hi : 6 ≤ i) :
    byte_at (deobfuscate c) i = byte_at c i := by
  apply Nat.eq_of_testBit_eq
  intro j
  simp only [byte_at_testBit, deobfuscate_testBit]
  have h48 : ¬ 8 * i + j < 48 := by omega
  simp [h48]

theorem deobfuscate_lt (c : Nat) (hc : c < 2 ^ 56) : deobfuscate c < 2 ^ 56 := by
  apply Nat.lt_pow_two_of_testBit
  intro i hi
  rw [deobfuscate_testBit, testBit_eq_false_of_lt hc hi]
  have h48 : ¬ i < 48 := by omega
  simp [h48]

/-- Bit `i` of the field `((f >> k) & (2^n - 1))` truncated to `w` bits. -/
theorem field_testBit (f k n w i : Nat) :
    (((f >>> k) &&& (2 ^ n - 1)) % 2 ^ w).testBit i =
      (decide (i < w) && (decide (i < n) && f.testBit (k + i))) := by
  rw [Nat.testBit_mod_two_pow, Nat.testBit_and, Nat.testBit_shiftRight,
    Nat.testBit_two_pow_sub_one, Bool.and_comm (f.testBit (k + i))]

theorem field_eq_div_mod (f k n w : Nat) (h : n ≤ w) :
    ((f >>> k) &&& (2 ^ n - 1)) % 2 ^ w = f / 2 ^ k % 2 ^ n := by
  rw [Nat.and_pow_two_sub_one_eq_mod, Nat.shiftRight_eq_div_pow]
  exact Nat.mod_eq_of_lt (lt_of_lt_of_le (Nat.mod_lt _ (by positivity))
    (Nat.pow_le_pow_right (by norm_num) h))

theorem byte_at_lt (x i : Nat) : byte_at x i < 2 ^ 8 := by
  unfold byte_at; omega

theorem byte_reverse24_testBit (a i : Nat) :
    (byte_reverse24 a).testBit i =
      if i < 8 then a.testBit (i + 16)
      else if i < 16 then a.testBit i
      else if i < 24 then a.testBit (i - 16)
      else false := by
  have e : byte_reverse24 a = 2 ^ 8 * (2 ^ 8 * byte_at a 0 + byte_at a 1) + byte_at a 2 := by
    unfold byte_reverse24; ring
  rw [e, Nat.testBit_mul_pow_two_add _ (byte_at_lt a 2)]
  split_ifs with h1 h2 h3 <;> try omega
  · rw [byte_at_testBit]; simp [h1]; congr 1; omega
  · rw [Nat.testBit_mul_pow_two_add _ (byte_at_lt a 1)]
    have : i - 8 < 8 := by omega
    simp only [this, if_true, byte_at_testBit]
    have e2 : 8 * 1 + (i - 8) = i := by omega
    simp [e2]
  · rw [Nat.testBit_mul_pow_two_add _ (byte_at_lt a 1)]
    have : ¬ i - 8 < 8 := by omega
    simp only [this, if_false, byte_at_testBit]
    have e2 : i - 8 - 8 = i - 16 := by omega
    have h8 : i - 16 < 8 := by omega
    rw [e2]
    simp [h8]
  · rw [Nat.testBit_mul_pow_two_add _ (byte_at_lt a 1)]
    have : ¬ i - 8 < 8 := by omega
    simp only [this, if_false, byte_at_testBit]
    have : ¬ i - 8 - 8 < 8 := by omega
    simp [this]

theorem somfy_frame_get_addr_unfold (f : Nat) : somfy_frame_get_addr f =
    ((((f &&& (2 ^ 8 - 1)) <<< 16) ||| (f &&& (2 ^ 8 - 1) <<< 8)) |||
      ((f &&& (2 ^ 8 - 1) <<< 16) >>> 16)) % 2 ^ 32 := rfl

theorem somfy_frame_get_addr_testBit (f i : Nat) :
    (somfy_frame_get_addr f).testBit i =
      if i < 8 then f.testBit (i + 16)
      else if i < 16 then f.testBit i
      else if i < 24 then f.testBit (i - 16)
      else false := by
  rw [somfy_frame_get_addr_unfold]
  simp only [Nat.testBit_mod_two_pow, Nat.testBit_or, Nat.testBit_shiftLeft,
    Nat.testBit_shiftRight, Nat.testBit_and, byte_mask_testBit, Nat.testBit_two_pow_sub_one]
  have h : i < 8 ∨ (8 ≤ i ∧ i < 16) ∨ (16 ≤ i ∧ i < 24) ∨ (24 ≤ i ∧ i < 32) ∨ 32 ≤ i := by
    omega
  rw [Nat.add_comm 16 i]
  rcases h with h | h | h | h | h <;>
    simp (disch := omega) only [decide_eq_true, decide_eq_false, if_pos, if_neg, ge_iff_le] <;>
    simp

theorem somfy_frame_get_encryption_key_unfold (f : Nat) : somfy_frame_get_encryption_key f =
    ((f >>> 48) &&& (2 ^ 8 - 1)) % 2 ^ 8 := rfl
theorem somfy_frame_get_control_unfold (f : Nat) : somfy_frame_get_control f =
    ((f >>> 44) &&& (2 ^ 4 - 1)) % 2 ^ 8 := rfl
theorem somfy_frame_get_chksum_unfold (f : Nat) : somfy_frame_get_chksum f =
    ((f >>> 40) &&& (2 ^ 4 - 1)) % 2 ^ 8 := rfl
theorem somfy_frame_get_rolling_code_unfold (f : Nat) : somfy_frame_get_rolling_code f =
    ((f >>> 24) &&& (2 ^ 16 - 1)) % 2 ^ 16 := rfl

theorem somfy_frame_get_addr_eq_reverse (f : Nat) : somfy_frame_get_addr f = byte_reverse24 (f % 2 ^ 24) := by
  apply Nat.eq_of_testBit_eq
  intro i
  rw [somfy_frame_get_addr_testBit, byte_reverse24_testBit]
  simp only [Nat.testBit_mod_two_pow]
  split_ifs with h1 h2 h3 <;> simp (disch := omega) [decide_eq_true]

theorem somfy_frame_get_addr_lt (f : Nat) : somfy_frame_get_addr f < 2 ^ 24 := by
  apply Nat.lt_pow_two_of_testBit
  intro i hi
  rw [somfy_frame_get_addr_testBit]
  simp (disch := omega) only [if_neg]

theorem frame_partition (f : Nat) (hf : f < 2 ^ 56) :
    f = somfy_frame_get_encryption_key f <<< 48 ||| somfy_frame_get_control f <<< 44 |||
        somfy_frame_get_chksum f <<< 40 ||| somfy_frame_get_rolling_code f <<< 24 |||
        byte_reverse24 (somfy_frame_get_addr f) := by
  apply Nat.eq_of_testBit_eq
  intro i
  rw [somfy_frame_get_encryption_key_unfold, somfy_frame_get_control_unfold,
    somfy_frame_get_chksum_unfold, somfy_frame_get_rolling_code_unfold]
  simp only [Nat.testBit_or, Nat.testBit_shiftLeft, field_testBit, byte_reverse24_testBit,
    somfy_frame_get_addr_testBit]
  have h : i < 8 ∨ (8 ≤ i ∧ i < 16) ∨ (16 ≤ i ∧ i < 24) ∨ (24 ≤ i ∧ i < 40) ∨
      (40 ≤ i ∧ i < 44) ∨ (44 ≤ i ∧ i < 48) ∨ (48 ≤ i ∧ i < 56) ∨ 56 ≤ i := by omega
  rcases h with h | h | h | h | h | h | h | h
  all_goals try rw [testBit_eq_false_of_lt hf (show 56 ≤ i by omega)]
  all_goals
    simp (disch := omega) only [decide_eq_true, decide_eq_false, if_pos, if_neg, ge_iff_le,
      Nat.add_sub_of_le, Nat.sub_add_cancel, Nat.add_sub_cancel]
  all_goals simp

theorem shiftLeft_one_or_bit (x b : Nat) (hb : b ≤ 1) : (x <<< 1) ||| b = 2 * x + b := by
  apply Nat.eq_of_testBit_eq
  intro j
  have hb2 : b < 2 ^ 1 := by omega
  rw [show 2 * x + b = 2 ^ 1 * x + b by ring, Nat.testBit_mul_pow_two_add x hb2,
    Nat.testBit_or, Nat.testBit_shiftLeft]
  by_cases hj : j < 1
  · have : j = 0 := by omega
    subst this
    simp
  · have : b.testBit j = false := testBit_eq_false_of_lt hb2 (by omega)
    simp [hj, this]
    omega

/-- The decoder after one call, in closed form. -/
theorem level_change_cb_effect (cfg : config) (d : decoder) (new_level len : Nat) :
    (level_change_cb cfg d new_level len).1 =
      if in_data d.state = true ∧ next_state d.state new_level len = .data0 then
        ⟨.data0, d.data_len + 1, ((d.data <<< 1) ||| new_level) % 2 ^ 64⟩
      else if d.state = .preamble ∧ next_state d.state new_level len = .data0 then
        ⟨.data0, 0, 0⟩
      else if in_data d.state = true ∧ in_data (next_state d.state new_level len) = false ∧
          d.data_len = 56 then
        ⟨next_state d.state new_level len, d.data_len, deobfuscate d.data⟩
      else ⟨next_state d.state new_level len, d.data_len, d.data⟩ := by
  obtain ⟨st, dl, dat⟩ := d
  generalize hns : next_state st new_level len = ns
  simp only [level_change_cb, frame_end, hns]
  cases st <;> cases ns <;> simp [in_data] <;> split_ifs <;> simp_all

theorem level_change_cb_acc_inv (cfg : config) (d : decoder) (new_level len : Nat)
    (hl : new_level ≤ 1) (h : acc_inv d) : acc_inv (level_change_cb cfg d new_level len).1 := by
  obtain ⟨h64, hlen⟩ := h
  rw [level_change_cb_effect]
  split_ifs with h1 h2 h3
  · refine ⟨Nat.mod_lt _ (by norm_num), fun hk => ?_⟩
    have hd := hlen (by simp only at hk; omega)
    rw [shiftLeft_one_or_bit d.data new_level hl]
    have : 2 * d.data + new_level < 2 ^ (d.data_len + 1) := by rw [pow_succ]; omega
    exact lt_of_le_of_lt (Nat.mod_le _ _) this
  · exact ⟨by norm_num, fun _ => by norm_num⟩
  · have h56 : d.data_len = 56 := h3.2.2
    have := deobfuscate_lt d.data (by simpa [h56] using hlen (by omega))
    refine ⟨lt_trans this (by norm_num), fun _ => ?_⟩
    simp only [h56]
    exact this
  · exact ⟨h64, hlen⟩

theorem run_state_acc_inv (cfg : config) (es : List (Nat × Nat)) :
    ∀ d, (∀ e ∈ es, e.1 ≤ 1) → acc_inv d → acc_inv (run_state cfg d es) := by
  induction es with
  | nil => intro d _ h; exact h
  | cons e es ih =>
    intro d hl h
    rw [run_state_cons]
    exact ih _ (fun x hx => hl x (List.mem_cons_of_mem _ hx))
      (level_change_cb_acc_inv cfg d e.1 e.2 (hl e (List.mem_cons_self _ _)) h)

theorem data_timed_replicate_long (n : Nat) (l : Nat) :
    data_timed .data0 (List.replicate n (l, 34)) = true ∧
    entered_data0 .data0 (List.replicate n (l, 34)) = n := by
  induction n with
  | zero => exact ⟨rfl, rfl⟩
  | succ n ih =>
    have hns : next_state .data0 l 34 = .data0 := by simp [next_state]
    constructor
    · simp [List.replicate_succ, data_timed, hns, in_data, ih.1]
    · simp only [List.replicate_succ, entered_data0, hns, ih.2, if_true]
      omega

theorem run_state_acceptance_edges (cfg : config) (data_len data : Nat) :
    run_state cfg ⟨.idle, data_len, data⟩ acceptance_edges = ⟨.data0, 0, 0⟩ := by
  simp [acceptance_edges, run_state_cons, run_state_nil, level_change_cb_effect, next_state,
    in_data]

/-! ## The edge detector -/

theorem mask_bit_eq_byte_sample (byte k : Nat) :
    (if decide (byte &&& 2 ^ k ≠ 0) = true then 1 else 0) = byte / 2 ^ k % 2 := by
  rw [Nat.and_two_pow, ← Nat.toNat_testBit]
  cases byte.testBit k <;> simp

theorem byte_loop_raw_bits (byte : Nat) :
    ∀ n st, byte_loop false n st byte (2 ^ n >>> 1) = detect_all st (bits_from byte n) := by
  intro n
  induction n with
  | zero => intro st; rfl
  | succ n ih =>
    intro st
    have hm : 2 ^ (n + 1) >>> 1 = 2 ^ n := by
      rw [Nat.shiftRight_eq_div_pow, pow_succ]
      simp
    simp only [byte_loop, hm, sample_step, Bool.false_eq_true, if_false, bits_from, detect_all,
      mask_bit_eq_byte_sample, ih]

theorem byte_loop_raw (st : detector) (byte : Nat) :
    byte_loop false 8 st byte 0x80 = detect_all st ((List.range 8).map (byte_sample byte)) :=
  byte_loop_raw_bits byte 8 st

theorem detect_all_append (xs ys : List Nat) :
    ∀ st, detect_all st (xs ++ ys) =
      ((detect_all (detect_all st xs).1 ys).1,
        (detect_all st xs).2 ++ (detect_all (detect_all st xs).1 ys).2) := by
  induction xs with
  | nil => intro st; simp [detect_all]
  | cons x xs ih => intro st; simp [detect_all, ih, List.append_assoc]

theorem main_loop_raw (bytes : List Nat) :
    ∀ st, main_loop false st bytes = detect_all st (msb_first_samples bytes) := by
  induction bytes with
  | nil => intro st; rfl
  | cons b bs ih =>
    intro st
    simp only [main_loop, msb_first_samples, List.flatMap_cons, byte_loop_raw, ih,
      detect_all_append]

theorem msb_first_samples_length (bytes : List Nat) :
    (msb_first_samples bytes).length = 8 * bytes.length := by
  induction bytes with
  | nil => rfl
  | cons b bs ih =>
    simp only [msb_first_samples, List.flatMap_cons, List.length_append, List.length_map,
      List.length_range, List.length_cons] at ih ⊢
    omega

theorem detect_all_expected (rest : List Nat) :
    ∀ (hist : List Nat) (st : detector), st.level = current_level hist →
      st.last_change ≤ st.sample →
      st.sample - st.last_change = trailing_run hist (current_level hist) →
      (detect_all st rest).2 = expected_edges hist rest := by
  induction rest with
  | nil => intro hist st _ _ _; rfl
  | cons x rest ih =>
    intro hist st hlev hle hrun
    simp only [detect_all, expected_edges]
    by_cases hx : x = st.level
    · have hd : detect st x = ({ st with sample := st.sample + 1 }, []) := by
        simp [detect, hx]
      have hc : current_level (x :: hist) = x := rfl
      rw [hd, if_neg (by rw [← hlev]; exact fun h => h hx)]
      simp only [List.nil_append]
      apply ih (x :: hist) _ (by rw [hc]; exact hx.symm) (by simp only []; omega)
      rw [hc]
      simp only [trailing_run, List.takeWhile_cons, beq_self_eq_true, if_true,
        List.length_cons]
      have : trailing_run hist (current_level hist) = (hist.takeWhile (· == x)).length := by
        rw [← hlev, ← hx]; rfl
      omega
    · have hd : detect st x =
          ({ st with level := x, last_change := st.sample, sample := st.sample + 1 },
            [(x, st.sample - st.last_change)]) := by
        simp [detect, hx]
      have hc : current_level (x :: hist) = x := rfl
      rw [hd, if_pos (by rw [← hlev]; exact hx), hrun]
      simp only [List.singleton_append, List.cons.injEq, true_and]
      apply ih (x :: hist) _ (by rw [hc]) (by simp only []; omega)
      rw [hc]
      have hnil : hist.takeWhile (· == x) = [] := by
        cases hist with
        | nil => rfl
        | cons h t =>
          have hh : h = st.level := by rw [hlev]; rfl
          have : (h == x) = false := by
            rw [beq_eq_false_iff_ne, hh]; exact fun h' => hx h'.symm
          simp [List.takeWhile_cons, this]
      simp only [trailing_run, List.takeWhile_cons, beq_self_eq_true, if_true,
        List.length_cons, hnil, List.length_nil]
      omega

theorem detect_all_counter (xs : List Nat) :
    ∀ (st : detector) (cs : counter_state), cs.current_level = st.level →
      cs.samples_since_change = st.sample - st.last_change → st.last_change ≤ st.sample →
      (detect_all st xs).2 = counter_reference 1 cs xs := by
  induction xs with
  | nil => intro st cs _ _ _; rfl
  | cons x xs ih =>
    intro st cs hlev hcnt hle
    simp only [detect_all, counter_reference]
    by_cases hx : x = st.level
    · have hd : detect st x = ({ st with sample := st.sample + 1 }, []) := by
        simp [detect, hx]
      rw [hd, if_neg (by rw [hlev]; exact fun h => h hx)]
      simp only [List.nil_append]
      exact ih _ _ hlev (by simp only []; omega) (by simp only []; omega)
    · have hd : detect st x =
          ({ st with level := x, last_change := st.sample, sample := st.sample + 1 },
            [(x, st.sample - st.last_change)]) := by
        simp [detect, hx]
      rw [hd, if_pos (by rw [hlev]; exact hx), hcnt]
      simp only [List.singleton_append, List.cons.injEq, true_and]
      exact ih _ _ rfl (by simp only []; omega) (by simp only []; omega)

/-- Counters and pulse lengths along `detect_all`. -/
theorem detect_all_bounds (xs : List Nat) :
    ∀ st : detector, st.last_change ≤ st.sample →
      (detect_all st xs).1.sample = st.sample + xs.length ∧
      (detect_all st xs).1.last_change ≤ (detect_all st xs).1.sample ∧
      (st.last_change < st.sample →
        (detect_all st xs).1.last_change < (detect_all st xs).1.sample) ∧
      (∀ e ∈ (detect_all st xs).2, e.2 < st.sample + xs.length) ∧
      (st.last_change < st.sample → ∀ e ∈ (detect_all st xs).2, 0 < e.2) := by
  induction xs with
  | nil => intro st hle; simp [detect_all, hle]
  | cons x xs ih =>
    intro st hle
    simp only [detect_all, List.length_cons]
    by_cases hx : x = st.level
    · have hd : detect st x = ({ st with sample := st.sample + 1 }, []) := by
        simp [detect, hx]
      rw [hd]
      obtain ⟨h1, h2, h3, h4, h5⟩ := ih { st with sample := st.sample + 1 }
        (by simp only []; omega)
      simp only [List.nil_append] at *
      refine ⟨by omega, h2, fun _ => h3 (by omega), fun e he => ?_, fun _ => h5 (by omega)⟩
      have := h4 e he
      omega
    · have hd : detect st x =
          ({ st with level := x, last_change := st.sample, sample := st.sample + 1 },
            [(x, st.sample - st.last_change)]) := by
        simp [detect, hx]
      rw [hd]
      obtain ⟨h1, h2, h3, h4, h5⟩ := ih
        { st with level := x, last_change := st.sample, sample := st.sample + 1 }
        (by simp only []; omega)
      simp only [List.singleton_append, List.mem_cons] at *
      refine ⟨by omega, h2, fun _ => h3 (by omega), fun e he => ?_, fun hlt e he => ?_⟩
      · rcases he with rfl | he
        · simp only []; omega
        · have := h4 e he
          omega
      · rcases he with rfl | he
        · simp only []; omega
        · exact h5 (by omega) e he

theorem detect_length_le_one (st : detector) (x : Nat) : (detect st x).2.length ≤ 1 := by
  unfold detect
  split_ifs <;> simp

theorem run_append (cfg : config) (es fs : List (Nat × Nat)) :
    ∀ d, run cfg d (es ++ fs) =
      ((run cfg (run cfg d es).1 fs).1, (run cfg d es).2 ++ (run cfg (run cfg d es).1 fs).2) := by
  induction es with
  | nil => intro d; simp [run]
  | cons e es ih => intro d; simp [run, ih, List.append_assoc]

/-- The frame reports printed by one call, in closed form. -/
theorem level_change_cb_frames (cfg : config) (d : decoder) (new_level len : Nat) :
    (level_change_cb cfg d new_level len).2.filter is_frame =
      if in_data d.state = true ∧ in_data (next_state d.state new_level len) = false ∧
          d.data_len = 56 then
        [if cfg.one_line then print_frame_oneline cfg.numeric cfg.cache (deobfuscate d.data)
         else print_frame_long cfg.numeric cfg.cache (deobfuscate d.data)]
      else [] := by
  obtain ⟨st, dl, dat⟩ := d
  generalize hns : next_state st new_level len = ns
  simp only [level_change_cb, frame_end, hns]
  cases st <;> cases ns <;>
    simp [in_data, is_frame, print_frame_oneline, print_frame_long] <;>
    split_ifs <;> simp_all [is_frame]

/-- From `data0` or `data1` the machine stays in the two data states exactly
on a pulse length in a data window of the current state. -/
theorem next_state_in_data_iff (s : state_t) (new_level len : Nat) (hs : in_data s = true) :
    in_data (next_state s new_level len) = true ↔
      ((10 ≤ len ∧ len ≤ 25) ∨ (s = .data0 ∧ 30 ≤ len ∧ len ≤ 40)) := by
  cases s <;> simp [in_data] at hs <;> simp only [next_state] <;> split_ifs <;>
    simp [in_data] <;> omega

theorem next_state_not_in_data (s : state_t) (new_level len : Nat) (hs : in_data s = true)
    (hn : in_data (next_state s new_level len) = false) :
    next_state s new_level len = .idle := by
  cases s <;> simp [in_data] at hs <;> simp only [next_state] at hn ⊢ <;> split_ifs at hn ⊢ <;>
    simp_all [in_data]

theorem detect_all_length_le (xs : List Nat) :
    ∀ st : detector, (detect_all st xs).2.length ≤ xs.length := by
  induction xs with
  | nil => intro st; simp [detect_all]
  | cons x xs ih =>
    intro st
    have h1 := detect_length_le_one st x
    have h2 := ih (detect st x).1
    simp only [detect_all, List.length_append, List.length_cons]
    omega

/-! ## The address table -/

theorem somfy_hosts_cache_init_lookup (a len : Nat) (lines : List (List Char)) :
    ∀ (cache : List somfy_host_cache_entry) (acc : Option somfy_host_cache_entry),
      somfy_addr_to_name cache a len = acc.map (fun e => e.name.take (len - 1)) →
      somfy_addr_to_name (somfy_hosts_cache_init cache (some lines)) a len =
        ((lines.filterMap parse_line).foldl
          (fun acc e => if e.addr = a then some e else acc) acc).map
          (fun e => e.name.take (len - 1)) := by
  induction lines with
  | nil => intro cache acc h; simpa [somfy_hosts_cache_init] using h
  | cons l ls ih =>
    intro cache acc h
    simp only [somfy_hosts_cache_init, List.foldl_cons] at ih ⊢
    cases hp : parse_line l with
    | none =>
      simp only [List.filterMap_cons, hp]
      exact ih cache acc h
    | some e =>
      simp only [List.filterMap_cons, hp, List.foldl_cons]
      apply ih
      by_cases he : e.addr = a
      · simp [somfy_addr_to_name, he]
      · simp [somfy_addr_to_name, he, h]

theorem last_loaded_eq_none (a : Nat) (entries : List somfy_host_cache_entry) :
    ∀ acc : Option somfy_host_cache_entry,
      entries.foldl (fun acc e => if e.addr = a then some e else acc) acc = none ↔
        (acc = none ∧ ∀ e ∈ entries, e.addr ≠ a) := by
  induction entries with
  | nil => intro acc; simp
  | cons x xs ih =>
    intro acc
    simp only [List.foldl_cons, ih, List.mem_cons, forall_eq_or_imp]
    by_cases hx : x.addr = a
    · simp [hx]
    · simp [hx]

/-! ## Reversibility of the de-obfuscation -/

theorem obfuscate_byte_lt (p : Nat) : ∀ k, obfuscate_byte p k < 2 ^ 8 := by
  intro k
  induction k with
  | zero => exact byte_at_lt p 6
  | succ k ih => exact Nat.xor_lt_two_pow (byte_at_lt p _) ih

theorem byte_at_obfuscate (p i : Nat) (hi : i ≤ 6) :
    byte_at (obfuscate p) i = obfuscate_byte p (6 - i) := by
  have h0 := obfuscate_byte_lt p 0
  have h1 := obfuscate_byte_lt p 1
  have h2 := obfuscate_byte_lt p 2
  have h3 := obfuscate_byte_lt p 3
  have h4 := obfuscate_byte_lt p 4
  have h5 := obfuscate_byte_lt p 5
  have h6 := obfuscate_byte_lt p 6
  simp only [obfuscate, byte_at]
  norm_num at h0 h1 h2 h3 h4 h5 h6 ⊢
  interval_cases i <;> norm_num <;> omega

theorem obfuscate_lt (p : Nat) : obfuscate p < 2 ^ 56 := by
  have h0 := obfuscate_byte_lt p 0
  have h1 := obfuscate_byte_lt p 1
  have h2 := obfuscate_byte_lt p 2
  have h3 := obfuscate_byte_lt p 3
  have h4 := obfuscate_byte_lt p 4
  have h5 := obfuscate_byte_lt p 5
  have h6 := obfuscate_byte_lt p 6
  simp only [obfuscate]
  norm_num at h0 h1 h2 h3 h4 h5 h6 ⊢
  omega

theorem eq_of_byte_at_eq (x y : Nat) (hx : x < 2 ^ 56) (hy : y < 2 ^ 56)
    (h : ∀ i, i ≤ 6 → byte_at x i = byte_at y i) : x = y := by
  apply Nat.eq_of_testBit_eq
  intro j
  by_cases hj : j < 56
  · have hb := congrArg (fun b => Nat.testBit b (j % 8)) (h (j / 8) (by omega))
    simp only [byte_at_testBit] at hb
    have h8 : j % 8 < 8 := Nat.mod_lt _ (by norm_num)
    have e : 8 * (j / 8) + j % 8 = j := Nat.div_add_mod j 8
    simpa [h8, e] using hb
  · rw [testBit_eq_false_of_lt hx (by omega), testBit_eq_false_of_lt hy (by omega)]

theorem deobfuscate_obfuscate (p : Nat) (hp : p < 2 ^ 56) : deobfuscate (obfuscate p) = p := by
  apply eq_of_byte_at_eq _ _ (deobfuscate_lt _ (obfuscate_lt p)) hp
  intro i hi
  by_cases h6 : i = 6
  · subst h6
    rw [deobfuscate_byte_top _ 6 (le_refl 6), byte_at_obfuscate p 6 (le_refl 6)]
    rfl
  · have hlt : i < 6 := by omega
    rw [deobfuscate_byte_low _ i hlt, byte_at_obfuscate p i hi,
      byte_at_obfuscate p (i + 1) (by omega)]
    have e1 : 6 - i = (6 - (i + 1)) + 1 := by omega
    rw [e1, obfuscate_byte]
    have e2 : 6 - (6 - (i + 1) + 1) = i := by omega
    rw [e2, Nat.xor_assoc, Nat.xor_self, Nat.xor_zero]

theorem obfuscate_byte_deobfuscate (c : Nat) :
    ∀ k, k ≤ 6 → obfuscate_byte (deobfuscate c) k = byte_at c (6 - k) := by
  intro k
  induction k with
  | zero => intro _; exact deobfuscate_byte_top c 6 (le_refl 6)
  | succ k ih =>
    intro hk
    rw [obfuscate_byte, ih (by omega), deobfuscate_byte_low c _ (by omega)]
    have e : 6 - (k + 1) + 1 = 6 - k := by omega
    rw [e, Nat.xor_assoc, Nat.xor_self, Nat.xor_zero]

theorem obfuscate_deobfuscate (c : Nat) (hc : c < 2 ^ 56) : obfuscate (deobfuscate c) = c := by
  apply eq_of_byte_at_eq _ _ (obfuscate_lt _) hc
  intro i hi
  rw [byte_at_obfuscate _ i hi, obfuscate_byte_deobfuscate c (6 - i) (by omega)]
  congr 1
  omega

/-! ## The low-pass filter -/

theorem mask_bit_decide (byte k : Nat) :
    decide (byte &&& 2 ^ k ≠ 0) = decide (byte / 2 ^ k % 2 ≠ 0) := by
  rw [Nat.and_two_pow, ← Nat.toNat_testBit]
  cases byte.testBit k <;> simp

theorem byte_loop_lpf_bits (byte : Nat) :
    ∀ n st, byte_loop true n st byte (2 ^ n >>> 1) = lpf_all st (bits_from byte n) := by
  intro n
  induction n with
  | zero => intro st; rfl
  | succ n ih =>
    intro st
    have hm : 2 ^ (n + 1) >>> 1 = 2 ^ n := by
      rw [Nat.shiftRight_eq_div_pow, pow_succ]
      simp
    simp only [byte_loop, hm, sample_step, if_true, bits_from, lpf_all, lpf_detect,
      mask_bit_decide, ih]

theorem lpf_all_append (xs ys : List Nat) :
    ∀ st, lpf_all st (xs ++ ys) =
      ((lpf_all (lpf_all st xs).1 ys).1,
        (lpf_all st xs).2 ++ (lpf_all (lpf_all st xs).1 ys).2) := by
  induction xs with
  | nil => intro st; simp [lpf_all]
  | cons x xs ih => intro st; simp [lpf_all, ih, List.append_assoc]

theorem main_loop_lpf (bytes : List Nat) :
    ∀ st, main_loop true st bytes = lpf_all st (msb_first_samples bytes) := by
  induction bytes with
  | nil => intro st; rfl
  | cons b bs ih =>
    intro st
    have h8 : byte_loop true 8 st b 0x80 =
        lpf_all st ((List.range 8).map (byte_sample b)) := byte_loop_lpf_bits b 8 st
    simp only [main_loop, msb_first_samples, List.flatMap_cons, h8, ih, lpf_all_append]

theorem ones_in_last_succ (n : Nat) (hist : List Nat) :
    ones_in_last (n + 1) hist =
      ones_in_last n hist + (if hist.getD n 0 ≠ 0 then 1 else 0) := by
  simp only [ones_in_last, List.take_succ, List.filter_append, List.length_append,
    List.getD_eq_getElem?_getD]
  cases hist[n]? with
  | none => simp
  | some v => by_cases hv : v = 0 <;> simp [hv]

theorem ones_in_last_cons (n x : Nat) (hist : List Nat) :
    ones_in_last (n + 1) (x :: hist) = (if x ≠ 0 then 1 else 0) + ones_in_last n hist := by
  simp only [ones_in_last, List.take_succ_cons, List.filter_cons]
  by_cases hx : x = 0
  · simp [hx]
  · simp [hx]
    omega

theorem ones_in_last_le (n : Nat) (hist : List Nat) : ones_in_last n hist ≤ n := by
  unfold ones_in_last
  exact le_trans (List.length_filter_le _ _) (List.length_take_le _ _)

/-- What `one_cnt` and `filter_bits` hold after the samples `hist`. -/
theorem lpf_update_window (hist : List Nat) (st : detector) (x : Nat)
    (hbits : ∀ k, k ≤ 8 → st.filter_bits.testBit k = decide (hist.getD k 0 ≠ 0))
    (hcnt : st.one_cnt = (ones_in_last 9 hist : Int)) :
    (∀ k, k ≤ 8 → (lpf_update st (decide (x ≠ 0))).filter_bits.testBit k =
      decide ((x :: hist).getD k 0 ≠ 0)) ∧
    (lpf_update st (decide (x ≠ 0))).one_cnt = (ones_in_last 9 (x :: hist) : Int) ∧
    (lpf_update st (decide (x ≠ 0))).level = st.level := by
  have h8 : (st.filter_bits &&& (1 <<< FILTER_DEPTH) ≠ 0) ↔ hist.getD 8 0 ≠ 0 := by
    have e : (1 : Nat) <<< FILTER_DEPTH = 2 ^ 8 := by decide
    rw [e, Nat.and_two_pow]
    have hb := hbits 8 (le_refl 8)
    by_cases hh : hist.getD 8 0 = 0
    · simp [hh] at hb
      simp [hb, hh]
    · simp [hh] at hb
      simp [hb, hh]
  have hshift : ∀ k, k ≤ 8 → ((st.filter_bits <<< 1) % 2 ^ 32).testBit k =
      decide ((0 :: hist).getD k 0 ≠ 0) := by
    intro k hk
    rw [Nat.testBit_mod_two_pow, Nat.testBit_shiftLeft]
    cases k with
    | zero => simp
    | succ k =>
      have := hbits k (by omega)
      have h32 : k + 1 < 32 := by omega
      simp [this, h32]
  have hcount : (ones_in_last 9 (x :: hist) : Int) =
      (if x ≠ 0 then 1 else 0) + (ones_in_last 9 hist : Int) -
        (if hist.getD 8 0 ≠ 0 then 1 else 0) := by
    rw [ones_in_last_cons 8 x hist, ones_in_last_succ 8 hist]
    split_ifs <;> push_cast <;> ring
  generalize hist.getD 8 0 = g at h8 hcount
  by_cases hx : x = 0
  · subst hx
    refine ⟨?_, ?_, ?_⟩
    · intro k hk
      simp only [lpf_update, ne_eq, not_true_eq_false, decide_False, Bool.false_eq_true,
        if_false]
      exact hshift k hk
    · rw [hcount]
      simp only [lpf_update, ne_eq, not_true_eq_false, decide_False, Bool.false_eq_true,
        if_false, hcnt]
      by_cases hh : g = 0
      · have : ¬ (st.filter_bits &&& (1 <<< FILTER_DEPTH) ≠ 0) := fun h => (h8.1 h) hh
        simp only [ne_eq] at this
        simp [this, hh]
      · have : st.filter_bits &&& (1 <<< FILTER_DEPTH) ≠ 0 := h8.2 hh
        simp only [ne_eq] at this
        simp [this, hh]
    · simp [lpf_update]
  · refine ⟨?_, ?_, ?_⟩
    · intro k hk
      simp only [lpf_update, ne_eq, hx, not_false_eq_true, decide_True, if_true,
        Nat.testBit_or]
      rw [hshift k hk]
      cases k with
      | zero => simp [hx]
      | succ k =>
        have h1 : Nat.testBit 1 (k + 1) = false :=
          testBit_eq_false_of_lt (show 1 < 2 ^ 1 by norm_num) (by omega)
        simp [h1]
    · rw [hcount]
      simp only [lpf_update, ne_eq, hx, not_false_eq_true, decide_True, if_true, hcnt]
      by_cases hh : g = 0
      · have : ¬ (st.filter_bits &&& (1 <<< FILTER_DEPTH) ≠ 0) := fun h => (h8.1 h) hh
        simp only [ne_eq] at this
        simp [this, hh]
        ring
      · have : st.filter_bits &&& (1 <<< FILTER_DEPTH) ≠ 0 := h8.2 hh
        simp only [ne_eq] at this
        simp [this, hh]
    · simp [lpf_update, hx]

theorem detect_keeps_filter (st : detector) (x : Nat) :
    (detect st x).1.filter_bits = st.filter_bits ∧ (detect st x).1.one_cnt = st.one_cnt := by
  unfold detect
  split_ifs <;> exact ⟨rfl, rfl⟩

theorem lpf_all_window (xs : List Nat) :
    ∀ (hist : List Nat) (st : detector),
      (∀ k, k ≤ 8 → st.filter_bits.testBit k = decide (hist.getD k 0 ≠ 0)) →
      st.one_cnt = (ones_in_last 9 hist : Int) →
      (lpf_all st xs).1.one_cnt = (ones_in_last 9 (xs.reverse ++ hist) : Int) := by
  induction xs with
  | nil => intro hist st _ hcnt; simpa [lpf_all] using hcnt
  | cons x xs ih =>
    intro hist st hbits hcnt
    have hw := lpf_update_window hist st x hbits hcnt
    have hk := detect_keeps_filter (lpf_update st (decide (x ≠ 0)))
      (lpf_level (lpf_update st (decide (x ≠ 0))))
    have := ih (x :: hist) (lpf_detect st x).1
      (by intro k hk'; rw [lpf_detect, hk.1]; exact hw.1 k hk')
      (by rw [lpf_detect, hk.2]; exact hw.2.1)
    simp only [lpf_all, List.reverse_cons, List.append_assoc, List.singleton_append]
    exact this

/-! ## Parsing a line of the address table -/

theorem hex_digit_facts (c : Char) (v : Nat) (h : hex_digit c = some v) :
    v < 16 ∧ isspace c = false ∧ c.toNat ≠ 45 ∧ c.toNat ≠ 43 ∧ c.toNat ≠ 120 ∧ c.toNat ≠ 88 ∧
      c.toNat ≠ 0 := by
  unfold hex_digit at h
  have hs : ∀ n : Nat, (n = 32 ∨ (9 ≤ n ∧ n ≤ 13)) → ¬ (48 ≤ n) := by intro n hn; omega
  split_ifs at h with h1 h2 h3
  all_goals
    simp only [Option.some.injEq] at h
    refine ⟨by omega, ?_, by omega, by omega, by omega, by omega, by omega⟩
    simp only [isspace, Bool.or_eq_false_iff, Bool.and_eq_false_iff, decide_eq_false_iff_not]
    refine ⟨by omega, ?_⟩
    by_cases h9 : 9 ≤ c.toNat
    · right; omega
    · left; exact h9

theorem isspace_not_hex (c : Char) (h : isspace c = true) : hex_digit c = none := by
  cases hh : hex_digit c with
  | none => rfl
  | some v =>
    have := (hex_digit_facts c v hh).2.1
    rw [h] at this
    exact absurd this (by decide)

theorem take_six_cons (t : List Char) (h : (t.take 6).length = 6) :
    ∃ d0 d1 d2 d3 d4 d5 r, t = d0 :: d1 :: d2 :: d3 :: d4 :: d5 :: r := by
  rcases t with _ | ⟨d0, _ | ⟨d1, _ | ⟨d2, _ | ⟨d3, _ | ⟨d4, _ | ⟨d5, r⟩⟩⟩⟩⟩⟩ <;>
    simp at h
  exact ⟨d0, d1, d2, d3, d4, d5, r, rfl⟩

theorem strtol16_six_digits (d0 d1 d2 d3 d4 d5 w : Char) (r : List Char)
    (v0 v1 v2 v3 v4 v5 : Nat)
    (h0 : hex_digit d0 = some v0) (h1 : hex_digit d1 = some v1) (h2 : hex_digit d2 = some v2)
    (h3 : hex_digit d3 = some v3) (h4 : hex_digit d4 = some v4) (h5 : hex_digit d5 = some v5)
    (hw : isspace w = true) :
    strtol16 (d0 :: d1 :: d2 :: d3 :: d4 :: d5 :: w :: r) =
      (((hex_value [d0, d1, d2, d3, d4, d5] : Nat) : Int), 6) ∧
    hex_value [d0, d1, d2, d3, d4, d5] < 2 ^ 24 := by
  have f0 := hex_digit_facts d0 v0 h0
  have f1 := hex_digit_facts d1 v1 h1
  have f2 := hex_digit_facts d2 v2 h2
  have f3 := hex_digit_facts d3 v3 h3
  have f4 := hex_digit_facts d4 v4 h4
  have f5 := hex_digit_facts d5 v5 h5
  have hwn := isspace_not_hex w hw
  have hval : hex_value [d0, d1, d2, d3, d4, d5] =
      16 * (16 * (16 * (16 * (16 * (16 * 0 + v0) + v1) + v2) + v3) + v4) + v5 := by
    simp [hex_value, h0, h1, h2, h3, h4, h5]
  have hlt : hex_value [d0, d1, d2, d3, d4, d5] < 2 ^ 24 := by
    rw [hval]; omega
  refine ⟨?_, hlt⟩
  have hdig : strtol_digits (d0 :: d1 :: d2 :: d3 :: d4 :: d5 :: w :: r) 0 0 =
      (hex_value [d0, d1, d2, d3, d4, d5], 6) := by
    simp only [strtol_digits, h0, h1, h2, h3, h4, h5, hwn, hval]
  have hsg : strtol_sign (d0 :: d1 :: d2 :: d3 :: d4 :: d5 :: w :: r) = (false, 0) := by
    simp [strtol_sign, f0.2.2.1, f0.2.2.2.1]
  have hpx : strtol_hex_mark (d0 :: d1 :: d2 :: d3 :: d4 :: d5 :: w :: r) = 0 := by
    simp [strtol_hex_mark, f1.2.2.2.2.1, f1.2.2.2.2.2.1]
  have hws : (d0 :: d1 :: d2 :: d3 :: d4 :: d5 :: w :: r).takeWhile isspace = [] := by
    simp [List.takeWhile_cons, f0.2.1]
  simp only [strtol16, hws, List.length_nil, List.drop_zero, hsg, hpx, hdig]
  have hmin : min (hex_value [d0, d1, d2, d3, d4, d5] : Int) (2 ^ 63 - 1) =
      (hex_value [d0, d1, d2, d3, d4, d5] : Int) := by
    apply min_eq_left
    have : (hex_value [d0, d1, d2, d3, d4, d5] : Int) < 2 ^ 24 := by exact_mod_cast hlt
    omega
  simp [hmin]
  norm_num at hlt
  omega

theorem mem_of_mem_trim (line : List Char) (c : Char)
    (h : c ∈ (line.reverse.dropWhile isspace).reverse) : c ∈ line := by
  rw [List.mem_reverse] at h
  exact List.mem_reverse.1 ((List.dropWhile_sublist _).subset h)

theorem takeWhile_eq_self_of_forall (l : List Char) (h : ∀ c ∈ l, c.toNat ≠ 0) :
    l.takeWhile (fun c => decide (c.toNat ≠ 0)) = l := by
  rw [List.takeWhile_eq_self_iff]
  intro c hc
  simpa using h c hc

/-- A line of the specified shape gives the expected entry. -/
theorem parse_line_of_expected (line : List Char) (e : somfy_host_cache_entry)
    (hnul : ∀ c ∈ line, c.toNat ≠ 0) (he : expected_entry line = some e) :
    parse_line line = some e := by
  have hsub := mem_of_mem_trim line
  simp only [expected_entry] at he
  simp only [parse_line]
  generalize (line.reverse.dropWhile isspace).reverse = t at he hsub ⊢
  split_ifs at he with hc
  obtain ⟨h6, hall, hws, hname⟩ := hc
  obtain ⟨d0, d1, d2, d3, d4, d5, r, rfl⟩ := take_six_cons t h6
  simp only [List.take, List.drop, List.all_cons, List.all_nil, Bool.and_true,
    Bool.and_eq_true, Option.isSome_iff_exists] at hall hws hname he
  obtain ⟨⟨v0, h0⟩, ⟨v1, h1⟩, ⟨v2, h2⟩, ⟨v3, h3⟩, ⟨v4, h4⟩, ⟨v5, h5⟩⟩ := hall
  cases r with
  | nil => simp at hws
  | cons w r' =>
    have hw : isspace w = true := by
      by_contra hcon
      simp [List.takeWhile_cons, hcon] at hws
    have hst := strtol16_six_digits d0 d1 d2 d3 d4 d5 w r' v0 v1 v2 v3 v4 v5 h0 h1 h2 h3 h4 h5 hw
    have hdrop : (w :: r').dropWhile isspace = r'.dropWhile isspace := by
      simp [List.dropWhile_cons, hw]
    rw [hdrop] at hname he
    have hnamenul : ∀ c ∈ r'.dropWhile isspace, c.toNat ≠ 0 := by
      intro c hc
      apply hnul c
      apply hsub
      have : c ∈ r' := (List.dropWhile_sublist _).subset hc
      simp [this]
    have hlen : ¬ (d0 :: d1 :: d2 :: d3 :: d4 :: d5 :: w :: r').length < 8 := by
      have : 1 ≤ (r'.dropWhile isspace).length := by
        cases hh : r'.dropWhile isspace with
        | nil => exact absurd hh hname
        | cons a b => simp
      have h2 : (r'.dropWhile isspace).length ≤ r'.length :=
        (List.dropWhile_sublist _).length_le
      simp only [List.length_cons]
      omega
    rw [if_neg hlen, hst.1]
    simp only [List.drop, hdrop, takeWhile_eq_self_of_forall _ hnamenul]
    have hne : ¬ (r'.dropWhile isspace).length = 0 := by
      intro h0'
      exact hname (List.length_eq_zero.1 h0')
    simp only [List.getD_cons_succ, List.getD_cons_zero, hw, ne_eq, not_true_eq_false,
      Bool.true_eq_false, or_self, if_false, hne]
    rw [← he]
    congr 2
    have hlt := hst.2
    have : ((hex_value [d0, d1, d2, d3, d4, d5] : Nat) : Int) % 2 ^ 32 =
        ((hex_value [d0, d1, d2, d3, d4, d5] : Nat) : Int) := by
      apply Int.emod_eq_of_lt (by positivity)
      have : (hex_value [d0, d1, d2, d3, d4, d5] : Int) < 2 ^ 24 := by exact_mod_cast hlt
      omega
    rw [this]
    simp

theorem loop_edges_lt (bytes : List Nat) :
    ∀ e ∈ loop_edges false bytes, e.2 < 8 * bytes.length := by
  intro e he
  simp only [loop_edges, main_loop_raw, detector_init] at he
  have := (detect_all_bounds (msb_first_samples bytes) ⟨0, 0, 0, 0, 0⟩ (le_refl 0)).2.2.2.1 e he
  simpa [msb_first_samples_length] using this

/-! ## The checksum nibble -/

theorem somfy_frame_get_chksum_eq_nibble (f : Nat) : somfy_frame_get_chksum f = nibble f 10 := by
  rw [somfy_frame_get_chksum_unfold, field_eq_div_mod f 40 4 8 (by norm_num), nibble]
  norm_num

theorem nibble_xor_split (f : Nat) : nibble_xor f = nibble f 10 ^^^ other_nibbles_xor f := by
  have h1 : (List.range 14).filter (fun i => decide (i ≠ 10)) =
      [0, 1, 2, 3, 4, 5, 6, 7, 8, 9, 11, 12, 13] := by decide
  have h2 : List.range 14 = [0, 1, 2, 3, 4, 5, 6, 7, 8, 9, 10, 11, 12, 13] := by decide
  rw [nibble_xor, other_nibbles_xor, h1, h2]
  simp only [List.map_cons, List.map_nil, List.foldl_cons, List.foldl_nil, Nat.zero_xor]
  ac_rfl

theorem other_nibbles_xor_lt (f : Nat) : other_nibbles_xor f < 16 := by
  have := foldl_xor_lt (((List.range 14).filter (fun i => decide (i ≠ 10))).map (nibble f)) (by
    intro x hx
    simp only [List.mem_map] at hx
    obtain ⟨i, _, rfl⟩ := hx
    exact nibble_lt f i) 0 (by norm_num)
  simpa [other_nibbles_xor] using this

theorem other_nibbles_xor_congr (f g : Nat)
    (h : ∀ i, i < 14 → i ≠ 10 → nibble g i = nibble f i) :
    other_nibbles_xor g = other_nibbles_xor f := by
  unfold other_nibbles_xor
  congr 1
  apply List.map_congr_left
  intro i hi
  simp only [List.mem_filter, List.mem_range, decide_eq_true_eq] at hi
  exact h i hi.1 hi.2

theorem nibble_with_chksum (f v i : Nat) (hv : v < 16) (hi : i < 14) :
    nibble (with_chksum f v) i = if i = 10 then v else nibble f i := by
  simp only [nibble, with_chksum]
  interval_cases i <;> norm_num <;> omega

theorem with_chksum_lt (f v : Nat) (hf : f < 2 ^ 56) (hv : v < 16) :
    with_chksum f v < 2 ^ 56 := by
  simp only [with_chksum]
  norm_num at hf ⊢
  omega

theorem with_chksum_self (f : Nat) : with_chksum f (nibble f 10) = f := by
  simp only [with_chksum, nibble]
  norm_num
  omega

/-! ## Values handed to the frame decoder -/

theorem frame_of_is_frame (o : output) (f : Nat) (h : frame_of o = some f) :
    is_frame o = true := by
  cases o <;> simp [frame_of] at h <;> rfl

theorem level_change_cb_frame_lt (cfg : config) (d : decoder) (new_level len : Nat)
    (hinv : acc_inv d) :
    ∀ o ∈ (level_change_cb cfg d new_level len).2, ∀ f, frame_of o = some f →
      f = deobfuscate d.data ∧ d.data_len = 56 ∧ d.data < 2 ^ 56 ∧ f < 2 ^ 56 := by
  intro o ho f hf
  have hmem : o ∈ (level_change_cb cfg d new_level len).2.filter is_frame :=
    List.mem_filter.2 ⟨ho, frame_of_is_frame o f hf⟩
  rw [level_change_cb_frames] at hmem
  by_cases hc : in_data d.state = true ∧ in_data (next_state d.state new_level len) = false ∧
      d.data_len = 56
  · rw [if_pos hc, List.mem_singleton] at hmem
    have h56 : d.data < 2 ^ 56 := by
      have := hinv.2 (by omega)
      rwa [hc.2.2] at this
    have hfe : f = deobfuscate d.data := by
      rw [hmem] at hf
      by_cases h1 : cfg.one_line = true
      · simp [h1, print_frame_oneline, frame_of] at hf
        exact hf.symm
      · simp [h1, print_frame_long, frame_of] at hf
        exact hf.symm
    exact ⟨hfe, hc.2.2, h56, hfe ▸ deobfuscate_lt d.data h56⟩
  · rw [if_neg hc] at hmem
    exact absurd hmem (List.not_mem_nil _)

theorem run_frame_lt (cfg : config) (es : List (Nat × Nat)) :
    ∀ d, acc_inv d → (∀ e ∈ es, e.1 ≤ 1) →
      ∀ o ∈ (run cfg d es).2, ∀ f, frame_of o = some f → f < 2 ^ 56 := by
  induction es with
  | nil => intro d _ _ o ho; simp [run] at ho
  | cons e es ih =>
    intro d hinv hb o ho f hf
    simp only [run, List.mem_append] at ho
    have he : e.1 ≤ 1 := hb e (List.mem_cons_self _ _)
    rcases ho with ho | ho
    · exact (level_change_cb_frame_lt cfg d e.1 e.2 hinv o ho f hf).2.2.2
    · exact ih _ (level_change_cb_acc_inv cfg d e.1 e.2 he hinv)
        (fun x hx => hb x (List.mem_cons_of_mem _ hx)) o ho f hf

theorem hex_digits_length_le (f : Nat) (h : f < 2 ^ 56) : (Nat.digits 16 f).length ≤ 14 := by
  by_cases h0 : f = 0
  · simp [h0]
  · have h1 := Nat.base_pow_length_digits_le 16 f (by norm_num) h0
    by_contra hcon
    have h15 : 15 ≤ (Nat.digits 16 f).length := by omega
    have h2 : 16 ^ 15 ≤ 16 ^ (Nat.digits 16 f).length :=
      Nat.pow_le_pow_right (by norm_num) h15
    norm_num at h h2 h1
    omega

/-! ## The bit-stream packer -/

theorem msb_first_value_append_one (p : List Nat) (a : Nat) :
    msb_first_value (p ++ [a]) = 2 * msb_first_value p + a := by
  induction p with
  | nil => simp [msb_first_value]
  | cons b bs ih =>
    rw [List.cons_append, msb_first_value, msb_first_value, ih, List.length_append,
      List.length_singleton, pow_succ]
    ring

theorem msb_first_value_lt (p : List Nat) (hp : ∀ a ∈ p, a < 2) :
    msb_first_value p < 2 ^ p.length := by
  induction p with
  | nil => simp [msb_first_value]
  | cons b bs ih =>
    have hb : b < 2 := hp b (List.mem_cons_self _ _)
    have h := ih (fun a ha => hp a (List.mem_cons_of_mem _ ha))
    simp only [msb_first_value, List.length_cons, pow_succ]
    have : b * 2 ^ bs.length ≤ 1 * 2 ^ bs.length := Nat.mul_le_mul_right _ (by omega)
    omega

theorem msb_first_value_append_zeros (p : List Nat) (k : Nat) :
    msb_first_value (p ++ List.replicate k 0) = msb_first_value p * 2 ^ k := by
  induction k with
  | zero => simp
  | succ k ih =>
    rw [List.replicate_succ', ← List.append_assoc, msb_first_value_append_one, ih, pow_succ]
    ring

theorem byte_samples_msb_first_value (l : List Nat) (hl : l.length = 8)
    (hb : ∀ a ∈ l, a < 2) :
    (List.range 8).map (byte_sample (msb_first_value l)) = l := by
  match l, hl with
  | [a0, a1, a2, a3, a4, a5, a6, a7], _ =>
    have h0 : a0 < 2 := hb a0 (by simp)
    have h1 : a1 < 2 := hb a1 (by simp)
    have h2 : a2 < 2 := hb a2 (by simp)
    have h3 : a3 < 2 := hb a3 (by simp)
    have h4 : a4 < 2 := hb a4 (by simp)
    have h5 : a5 < 2 := hb a5 (by simp)
    have h6 : a6 < 2 := hb a6 (by simp)
    have h7 : a7 < 2 := hb a7 (by simp)
    have hr : List.range 8 = [0, 1, 2, 3, 4, 5, 6, 7] := by decide
    rw [hr]
    simp only [List.map_cons, List.map_nil, byte_sample, msb_first_value, List.length_cons,
      List.length_nil]
    norm_num
    refine ⟨?_, ?_, ?_, ?_, ?_, ?_, ?_, ?_⟩ <;> omega

theorem pack_sample_pending (p : List Nat) (x : Nat) (hp : ∀ a ∈ p, a < 2)
    (hl : p.length < 8) :
    pack_bit_stream.pack_sample ⟨p.length, msb_first_value p⟩ x =
      if p.length + 1 = 8 then (⟨0, 0⟩, [msb_first_value (p ++ [sample_of x])])
      else (⟨p.length + 1, msb_first_value (p ++ [sample_of x])⟩, []) := by
  have hv := msb_first_value_lt p hp
  have hv7 : msb_first_value p < 2 ^ 7 :=
    lt_of_lt_of_le hv (Nat.pow_le_pow_right (by norm_num) (by omega))
  have hx : x &&& 1 = x % 2 := Nat.and_one_is_mod x
  have hsh : (msb_first_value p <<< 1) % 256 = msb_first_value p <<< 1 := by
    apply Nat.mod_eq_of_lt
    rw [Nat.shiftLeft_eq]
    norm_num at hv7 ⊢
    omega
  have hor : ((msb_first_value p <<< 1) % 256) ||| (x &&& 0x01) =
      msb_first_value (p ++ [sample_of x]) := by
    rw [hsh, hx, shiftLeft_one_or_bit _ _ (by omega), msb_first_value_append_one, sample_of]
  simp only [pack_bit_stream.pack_sample, hor]

theorem pack_buf_pending (buf : List Nat) :
    ∀ p : List Nat, (∀ a ∈ p, a < 2) → p.length < 8 →
      ∃ q : List Nat, (∀ a ∈ q, a < 2) ∧ q.length < 8 ∧
        (pack_bit_stream.pack_buf ⟨p.length, msb_first_value p⟩ buf).1 =
          ⟨q.length, msb_first_value q⟩ ∧
        msb_first_samples (pack_bit_stream.pack_buf ⟨p.length, msb_first_value p⟩ buf).2 ++ q =
          p ++ buf.map sample_of ∧
        (∀ byte ∈ (pack_bit_stream.pack_buf ⟨p.length, msb_first_value p⟩ buf).2,
          byte < 256) := by
  induction buf with
  | nil =>
    intro p hp hl
    exact ⟨p, hp, hl, rfl, by simp [pack_bit_stream.pack_buf, msb_first_samples], by
      simp [pack_bit_stream.pack_buf]⟩
  | cons x buf ih =>
    intro p hp hl
    have hp2 : ∀ a ∈ p ++ [sample_of x], a < 2 := by
      intro a ha
      rcases List.mem_append.1 ha with h | h
      · exact hp a h
      · rw [List.mem_singleton] at h
        rw [h, sample_of]
        omega
    have hlen2 : (p ++ [sample_of x]).length = p.length + 1 := by simp
    rw [pack_bit_stream.pack_buf, pack_sample_pending p x hp hl]
    by_cases h8 : p.length + 1 = 8
    · rw [if_pos h8]
      obtain ⟨q, hq, hql, hst, hun, hby⟩ := ih [] (by simp) (by simp)
      simp only [List.length_nil, msb_first_value] at hst hun hby
      refine ⟨q, hq, hql, hst, ?_, ?_⟩
      · simp only [List.nil_append] at hun
        simp only [List.singleton_append, msb_first_samples, List.flatMap_cons, List.map_cons,
          List.append_assoc] at hun ⊢
        rw [hun, byte_samples_msb_first_value _ (by omega) hp2]
        simp
      · intro byte hb
        simp only [List.singleton_append, List.mem_cons] at hb
        rcases hb with hb | hb
        · rw [hb]
          have := msb_first_value_lt _ hp2
          rw [hlen2, h8] at this
          exact this
        · exact hby byte hb
    · rw [if_neg h8]
      obtain ⟨q, hq, hql, hst, hun, hby⟩ := ih (p ++ [sample_of x]) hp2 (by omega)
      rw [hlen2] at hst hun hby
      refine ⟨q, hq, hql, hst, ?_, ?_⟩
      · simp only [List.nil_append, List.map_cons] at hun ⊢
        rw [hun]
        simp
      · intro byte hb
        simp only [List.nil_append] at hb
        exact hby byte hb

theorem pack_buf_append (a b : List Nat) :
    ∀ s, pack_bit_stream.pack_buf s (a ++ b) =
      ((pack_bit_stream.pack_buf (pack_bit_stream.pack_buf s a).1 b).1,
        (pack_bit_stream.pack_buf s a).2 ++
          (pack_bit_stream.pack_buf (pack_bit_stream.pack_buf s a).1 b).2) := by
  induction a with
  | nil => intro s; simp [pack_bit_stream.pack_buf]
  | cons x a ih =>
    intro s
    rw [List.cons_append, pack_bit_stream.pack_buf, pack_bit_stream.pack_buf]
    simp only [ih, List.append_assoc]

theorem read_loop_eq_pack_buf (reads : List (List Nat)) :
    ∀ s, pack_bit_stream.read_loop s reads = pack_bit_stream.pack_buf s (bytes_read reads) := by
  induction reads with
  | nil => intro s; simp [pack_bit_stream.read_loop, bytes_read, pack_bit_stream.pack_buf]
  | cons buf reads ih =>
    intro s
    by_cases h : 0 < buf.length
    · have hb : bytes_read (buf :: reads) = buf ++ bytes_read reads := by
        simp [bytes_read, List.takeWhile_cons, h]
      rw [pack_bit_stream.read_loop, if_pos h, hb, pack_buf_append]
      simp only [ih]
    · have hb : bytes_read (buf :: reads) = [] := by
        simp [bytes_read, List.takeWhile_cons, h]
      rw [pack_bit_stream.read_loop, if_neg h, hb, pack_bit_stream.pack_buf]

theorem pack_tail_pending (q : List Nat) (hq : ∀ a ∈ q, a < 2) (hl : q.length < 8) :
    pack_bit_stream.pack_tail ⟨q.length, msb_first_value q⟩ =
      [msb_first_value (q ++ List.replicate (8 - q.length) 0)] := by
  have hv := msb_first_value_lt q hq
  have h8 : msb_first_value q * 2 ^ (8 - q.length) < 256 := by
    have h1 : msb_first_value q * 2 ^ (8 - q.length) < 2 ^ q.length * 2 ^ (8 - q.length) :=
      Nat.mul_lt_mul_of_pos_right hv (by positivity)
    rw [← pow_add, show q.length + (8 - q.length) = 8 by omega] at h1
    exact h1
  simp only [pack_bit_stream.pack_tail, if_pos hl, Nat.shiftLeft_eq, Nat.mod_eq_of_lt h8,
    msb_first_value_append_zeros]

theorem msb_first_samples_append (a b : List Nat) :
    msb_first_samples (a ++ b) = msb_first_samples a ++ msb_first_samples b := by
  simp [msb_first_samples]

theorem main_unpacked (reads : List (List Nat)) :
    msb_first_samples (pack_bit_stream.main reads) =
      (bytes_read reads).map sample_of ++
        List.replicate (8 - (bytes_read reads).length % 8) 0 ∧
    (pack_bit_stream.main reads).length = (bytes_read reads).length / 8 + 1 ∧
    (pack_bit_stream.main reads).all (fun byte => decide (byte < 256)) = true := by
  obtain ⟨q, hq, hql, hst, hun, hby⟩ := pack_buf_pending (bytes_read reads) [] (by simp) (by simp)
  simp only [List.length_nil, msb_first_value, List.nil_append] at hst hun hby
  have hq2 : ∀ a ∈ q ++ List.replicate (8 - q.length) 0, a < 2 := by
    intro a ha
    rcases List.mem_append.1 ha with h | h
    · exact hq a h
    · rw [(List.mem_replicate.1 h).2]
      omega
  have hlen := congrArg List.length hun
  simp only [List.length_append, msb_first_samples_length, List.length_map] at hlen
  have hqlen : q.length = (bytes_read reads).length % 8 := by omega
  have hmain : pack_bit_stream.main reads =
      (pack_bit_stream.pack_buf ⟨0, 0⟩ (bytes_read reads)).2 ++
        [msb_first_value (q ++ List.replicate (8 - q.length) 0)] := by
    simp only [pack_bit_stream.main, read_loop_eq_pack_buf, hst, pack_tail_pending q hq hql]
  refine ⟨?_, ?_, ?_⟩
  · rw [hmain, msb_first_samples_append]
    have hlast : msb_first_samples [msb_first_value (q ++ List.replicate (8 - q.length) 0)] =
        q ++ List.replicate (8 - q.length) 0 := by
      simp only [msb_first_samples, List.flatMap_cons, List.flatMap_nil, List.append_nil]
      exact byte_samples_msb_first_value _ (by simp; omega) hq2
    rw [hlast, ← List.append_assoc, hun, hqlen]
  · rw [hmain, List.length_append, List.length_singleton]
    omega
  · rw [hmain, List.all_eq_true]
    intro byte hb
    rcases List.mem_append.1 hb with h | h
    · exact decide_eq_true (hby byte h)
    · rw [List.mem_singleton] at h
      have := msb_first_value_lt _ hq2
      rw [h]
      apply decide_eq_true
      have hl8 : (q ++ List.replicate (8 - q.length) 0).length = 8 := by simp; omega
      rw [hl8] at this
      exact this

/-! ## The counter within its range -/

theorem level_change_cb_data_len_le (cfg : config) (d : decoder) (new_level len : Nat) :
    (level_change_cb cfg d new_level len).1.data_len ≤ d.data_len + 1 := by
  rw [level_change_cb_effect]
  split_ifs <;> simp

theorem level_change_cb_wrap_eq (cfg : config) (d : decoder) (new_level len : Nat)
    (h : d.data_len + 1 < 2 ^ 32) :
    level_change_cb_wrap cfg d new_level len = level_change_cb cfg d new_level len := by
  have h2 := level_change_cb_data_len_le cfg d new_level len
  simp only [level_change_cb_wrap]
  rw [Nat.mod_eq_of_lt (by omega)]

theorem counter_in_range_run_wrap (cfg : config) (es : List (Nat × Nat)) :
    ∀ d, counter_in_range cfg d es = true → run_wrap cfg d es = run cfg d es := by
  induction es with
  | nil => intro d _; rfl
  | cons e es ih =>
    intro d h
    simp only [counter_in_range, Bool.and_eq_true, decide_eq_true_eq] at h
    have h31 : (2 : Nat) ^ 31 < 2 ^ 32 := by norm_num
    simp only [run_wrap, run]
    rw [level_change_cb_wrap_eq cfg d e.1 e.2 (by omega), ih _ h.2]

theorem counter_in_range_end (cfg : config) (es : List (Nat × Nat)) :
    ∀ d, counter_in_range cfg d es = true → (run_state cfg d es).data_len < 2 ^ 31 := by
  induction es with
  | nil => intro d h; simpa [counter_in_range] using h
  | cons e es ih =>
    intro d h
    simp only [counter_in_range, Bool.and_eq_true, decide_eq_true_eq] at h
    rw [run_state_cons]
    exact ih _ h.2

theorem counter_in_range_of_short (cfg : config) (es : List (Nat × Nat)) :
    ∀ d, d.data_len + es.length < 2 ^ 31 → counter_in_range cfg d es = true := by
  induction es with
  | nil => intro d h; simpa [counter_in_range] using h
  | cons e es ih =>
    intro d h
    simp only [List.length_cons] at h
    have h2 := level_change_cb_data_len_le cfg d e.1 e.2
    simp only [counter_in_range, Bool.and_eq_true, decide_eq_true_eq]
    exact ⟨by omega, ih _ (by omega)⟩

theorem counter_in_range_append (cfg : config) (es fs : List (Nat × Nat)) :
    ∀ d, counter_in_range cfg d es = true →
      counter_in_range cfg (run_state cfg d es) fs = true →
      counter_in_range cfg d (es ++ fs) = true := by
  induction es with
  | nil => intro d _ h; exact h
  | cons e es ih =>
    intro d h1 h2
    simp only [counter_in_range, Bool.and_eq_true, decide_eq_true_eq] at h1
    rw [run_state_cons] at h2
    simp only [List.cons_append, counter_in_range, Bool.and_eq_true, decide_eq_true_eq]
    exact ⟨h1.1, ih _ h1.2 h2⟩

theorem run_state_wrap_append (cfg : config) (es fs : List (Nat × Nat)) :
    ∀ d, run_state_wrap cfg d (es ++ fs) =
      run_state_wrap cfg (run_state_wrap cfg d es) fs := by
  induction es with
  | nil => intro d; rfl
  | cons e es ih =>
    intro d
    simp only [run_state_wrap, List.cons_append, run_wrap] at ih ⊢
    exact ih _

theorem level_change_cb_data0_long (cfg : config) (n x l : Nat) (hl : l ≤ 1) :
    (level_change_cb cfg ⟨.data0, n, x⟩ l 34).1 = ⟨.data0, n + 1, (2 * x + l) % 2 ^ 64⟩ := by
  rw [level_change_cb_effect, if_pos ⟨rfl, rfl⟩, shiftLeft_one_or_bit x l hl]

theorem wrap_pair_step (n : Nat) :
    run_state_wrap quiet ⟨.data0, n, 0xAAAAAAAAAAAAAAAA⟩ [(1, 34), (0, 34)] =
      ⟨.data0, (n + 2) % 2 ^ 32, 0xAAAAAAAAAAAAAAAA⟩ := by
  have h1 := level_change_cb_data0_long quiet n 0xAAAAAAAAAAAAAAAA 1 (le_refl 1)
  have h2 := level_change_cb_data0_long quiet ((n + 1) % 2 ^ 32) 0x5555555555555555 0
    (Nat.zero_le 1)
  have e1 : (2 * 0xAAAAAAAAAAAAAAAA + 1) % 2 ^ 64 = 0x5555555555555555 := by norm_num
  have e2 : (2 * 0x5555555555555555 + 0) % 2 ^ 64 = 0xAAAAAAAAAAAAAAAA := by norm_num
  rw [e1] at h1
  rw [e2] at h2
  simp only [run_state_wrap, run_wrap, level_change_cb_wrap, h1, h2]
  congr 1
  omega

theorem wrap_long_run (k : Nat) :
    ∀ n, n < 2 ^ 32 →
      run_state_wrap quiet ⟨.data0, n, 0xAAAAAAAAAAAAAAAA⟩
        (List.replicate k [(1, 34), (0, 34)]).flatten =
      ⟨.data0, (n + 2 * k) % 2 ^ 32, 0xAAAAAAAAAAAAAAAA⟩ := by
  induction k with
  | zero =>
    intro n hn
    have : (n + 2 * 0) % 2 ^ 32 = n := by rw [Nat.mul_zero, Nat.add_zero, Nat.mod_eq_of_lt hn]
    rw [this]
    rfl
  | succ k ih =>
    intro n hn
    rw [List.replicate_succ, List.flatten_cons, run_state_wrap_append, wrap_pair_step,
      ih _ (Nat.mod_lt _ (by norm_num))]
    congr 1
    omega

/-! ## Pulse lengths in the low-pass filter mode -/

/-- The bound the filter mode keeps between calls: either an edge has been
recorded (`last_change < sample`), or none has, the level is still 0 and
`one_cnt` is at most the number of samples read. -/
theorem lpf_detect_positive (st : detector) (x : Nat)
    (h : st.last_change < st.sample ∨
      (st.last_change = 0 ∧ st.level = 0 ∧ st.one_cnt ≤ (st.sample : Int))) :
    (lpf_detect st x).1.sample = st.sample + 1 ∧
    ((lpf_detect st x).1.last_change < (lpf_detect st x).1.sample ∨
      ((lpf_detect st x).1.last_change = 0 ∧ (lpf_detect st x).1.level = 0 ∧
        (lpf_detect st x).1.one_cnt ≤ ((lpf_detect st x).1.sample : Int))) ∧
    (∀ e ∈ (lpf_detect st x).2, 0 < e.2 ∧ e.2 ≤ st.sample) := by
  obtain ⟨s, l, lc, oc, fb⟩ := st
  simp only at h
  simp only [lpf_detect, lpf_update, lpf_level, detect, FILTER_DEPTH, FILTER_TRESHOLD]
  split_ifs <;> simp_all <;> omega

theorem lpf_all_positive (xs : List Nat) :
    ∀ st : detector,
      (st.last_change < st.sample ∨
        (st.last_change = 0 ∧ st.level = 0 ∧ st.one_cnt ≤ (st.sample : Int))) →
      (lpf_all st xs).1.sample = st.sample + xs.length ∧
      ((lpf_all st xs).1.last_change < (lpf_all st xs).1.sample ∨
        (lpf_all st xs).1.last_change = 0) ∧
      (∀ e ∈ (lpf_all st xs).2, 0 < e.2 ∧ e.2 < st.sample + xs.length) := by
  induction xs with
  | nil =>
    intro st h
    refine ⟨by simp [lpf_all], ?_, by simp [lpf_all]⟩
    rcases h with h | h
    · exact Or.inl h
    · exact Or.inr h.1
  | cons x xs ih =>
    intro st h
    obtain ⟨h1, h2, h3⟩ := lpf_detect_positive st x h
    obtain ⟨i1, i2, i3⟩ := ih (lpf_detect st x).1 h2
    simp only [lpf_all, List.length_cons, List.mem_append]
    refine ⟨by omega, i2, ?_⟩
    intro e he
    rcases he with he | he
    · have := h3 e he
      omega
    · have := i3 e he
      omega

/-! ## Runs longer than the `unsigned int` range -/

theorem msb_first_samples_cons (b : Nat) (bs : List Nat) :
    msb_first_samples (b :: bs) =
      (List.range 8).map (byte_sample b) ++ msb_first_samples bs := by
  simp [msb_first_samples]

theorem msb_first_samples_replicate_high (n : Nat) :
    msb_first_samples (List.replicate n 0xFF) = List.replicate (8 * n) 1 := by
  induction n with
  | zero => rfl
  | succ n ih =>
    have h8 : (List.range 8).map (byte_sample 0xFF) = List.replicate 8 1 := by decide
    rw [List.replicate_succ, msb_first_samples_cons, ih, h8, ← List.replicate_add]
    congr 1
    omega

theorem msb_first_samples_replicate_low (n : Nat) :
    msb_first_samples (List.replicate n 0x00) = List.replicate (8 * n) 0 := by
  induction n with
  | zero => rfl
  | succ n ih =>
    have h8 : (List.range 8).map (byte_sample 0x00) = List.replicate 8 0 := by decide
    rw [List.replicate_succ, msb_first_samples_cons, ih, h8, ← List.replicate_add]
    congr 1
    omega

theorem detect_all_const (k : Nat) :
    ∀ (st : detector) (c : Nat), st.level = c →
      detect_all st (List.replicate k c) = ({ st with sample := st.sample + k }, []) := by
  induction k with
  | zero => intro st c _; rfl
  | succ k ih =>
    intro st c hc
    have hd : detect st c = ({ st with sample := st.sample + 1 }, []) := by
      simp [detect, hc]
    have hi := ih { st with sample := st.sample + 1 } c hc
    rw [List.replicate_succ, detect_all, hd]
    simp only [hi, List.nil_append, Nat.add_assoc, Nat.add_comm 1 k]

theorem loop_edges_long_low (n : Nat) :
    loop_edges false (List.replicate n 0x00 ++ [0x80]) = [(1, 8 * n), (0, 1)] := by
  have h8 : msb_first_samples [0x80] = [1, 0, 0, 0, 0, 0, 0, 0] := by decide
  rw [loop_edges, main_loop_raw, msb_first_samples_append, msb_first_samples_replicate_low,
    h8, detect_all_append, detect_all_const (8 * n) detector_init 0 rfl]
  simp [detect_all, detect, detector_init]

theorem loop_edges_long_high (n : Nat) (hn : 0 < n) :
    loop_edges false (List.replicate n 0xFF ++ [0xF0]) = [(1, 0), (0, 8 * n + 4)] := by
  obtain ⟨m, rfl⟩ : ∃ m, n = m + 1 := ⟨n - 1, by omega⟩
  have h8 : msb_first_samples [0xF0] = [1, 1, 1, 1, 0, 0, 0, 0] := by decide
  have hr : List.replicate (8 * (m + 1)) 1 = 1 :: List.replicate (8 * m + 7) 1 := by
    rw [show 8 * (m + 1) = (8 * m + 7) + 1 by omega, List.replicate_succ]
  have hd : detect detector_init 1 = (⟨1, 1, 0, 0, 0⟩, [(1, 0)]) := rfl
  have hc : detect_all detector_init (1 :: List.replicate (8 * m + 7) 1) =
      ((detect_all (detect detector_init 1).1 (List.replicate (8 * m + 7) 1)).1,
        (detect detector_init 1).2 ++
          (detect_all (detect detector_init 1).1 (List.replicate (8 * m + 7) 1)).2) := rfl
  rw [loop_edges, main_loop_raw, msb_first_samples_append, msb_first_samples_replicate_high,
    h8, hr, detect_all_append, hc, hd,
    detect_all_const (8 * m + 7) ⟨1, 1, 0, 0, 0⟩ 1 rfl]
  simp [detect_all, detect]
  omega

theorem delivered_eq_of_short (bytes : List Nat) (h : 8 * bytes.length ≤ 2 ^ 32) :
    (loop_edges false bytes).map to_unsigned = loop_edges false bytes := by
  conv_rhs => rw [← List.map_id (loop_edges false bytes)]
  apply List.map_congr_left
  intro e he
  have := loop_edges_lt bytes e he
  simp only [to_unsigned, id]
  rw [Nat.mod_eq_of_lt (by omega)]

theorem to_unsigned_eq_mod : to_unsigned = fun e => (e.1, e.2 % 2 ^ 32) := rfl

/-! ## Edges handed to the callback -/

theorem loop_edges_eq_expected (bytes : List Nat) :
    loop_edges false bytes = expected_edges [] (msb_first_samples bytes) := by
  rw [loop_edges, main_loop_raw]
  exact detect_all_expected _ [] detector_init rfl (le_refl 0) rfl

theorem loop_edges_eq_counter (bytes : List Nat) :
    loop_edges false bytes = counter_reference 1 ⟨0, 0⟩ (msb_first_samples bytes) := by
  rw [loop_edges, main_loop_raw]
  exact detect_all_counter _ detector_init ⟨0, 0⟩ rfl rfl (le_refl 0)

theorem long_run_delivered :
    loop_edges false long_run_stream = [(1, 0), (0, 2 ^ 32 + 68)] ∧
    (loop_edges false long_run_stream).map to_unsigned = [(1, 0), (0, 68)] := by
  have h : loop_edges false long_run_stream = [(1, 0), (0, 2 ^ 32 + 68)] := by
    rw [long_run_stream, loop_edges_long_high (2 ^ 29 + 8) (by norm_num)]
    norm_num
  refine ⟨h, ?_⟩
  rw [h]
  simp only [List.map_cons, List.map_nil, to_unsigned]
  norm_num

set_option maxRecDepth 100000 in
theorem overflow_edges_state :
    run_state_wrap quiet initial overflow_edges = ⟨.data0, 56, 0xAAAAAAAAAAAAAAAA⟩ := by
  have h1 : run_state_wrap quiet initial
      (acceptance_edges ++ (List.replicate 32 [(1, 34), (0, 34)]).flatten) =
      ⟨.data0, 64, 0xAAAAAAAAAAAAAAAA⟩ := by decide
  rw [overflow_edges, run_state_wrap_append, h1, wrap_long_run (2 ^ 31 - 4) 64 (by norm_num)]
  norm_num

theorem raw_pulse_length (bytes : List Nat) (hlen : 8 * bytes.length < 2 ^ 32) :
    (∀ e ∈ ((loop_edges false bytes).map to_unsigned).tail, 0 < e.2) ∧
    (∀ e, ((loop_edges false bytes).map to_unsigned).head? = some e →
      (e.2 = 0 ↔ (msb_first_samples bytes).head? = some 1)) ∧
    ((msb_first_samples bytes).head? = some 1 →
      ((loop_edges false bytes).map to_unsigned).head? = some (1, 0)) ∧
    ((final_edge false bytes).2 = 0 ↔ bytes = []) ∧
    (∀ e ∈ loop_edges false bytes, to_unsigned e = e) ∧
    final_edge false bytes = main_final_edge (main_loop false detector_init bytes).1 := by
  have hb := detect_all_bounds (msb_first_samples bytes) ⟨0, 0, 0, 0, 0⟩ (le_refl 0)
  have hlen' := msb_first_samples_length bytes
  have hsame : ∀ e ∈ loop_edges false bytes, to_unsigned e = e := by
    intro e he
    simp only [loop_edges, main_loop_raw, detector_init] at he
    have := hb.2.2.2.1 e he
    simp only [Nat.zero_add, hlen'] at this
    simp only [to_unsigned]
    rw [Nat.mod_eq_of_lt (by omega)]
  have hmap : (loop_edges false bytes).map to_unsigned = loop_edges false bytes := by
    conv_rhs => rw [← List.map_id (loop_edges false bytes)]
    exact List.map_congr_left (fun e he => by rw [hsame e he]; rfl)
  have hfin : final_edge false bytes =
      main_final_edge (main_loop false detector_init bytes).1 := by
    simp only [final_edge, to_unsigned, main_final_edge, main_loop_raw, detector_init]
    have h1 := hb.1
    have h2 := hb.2.1
    simp only [Nat.zero_add, hlen'] at h1 h2
    rw [Nat.mod_eq_of_lt (by omega)]
  rw [hmap, hfin]
  refine ⟨?_, ?_, ?_, ?_, hsame, rfl⟩
  all_goals simp only [loop_edges, main_loop_raw, main_final_edge]
  all_goals cases bytes with
    | nil => simp [msb_first_samples, detect_all, detector_init]
    | cons b bs => ?_
  all_goals
    have hs : msb_first_samples (b :: bs) =
        (b / 2 ^ 7 % 2) :: ((List.range 7).map (fun j => byte_sample b (j + 1)) ++
          msb_first_samples bs) := rfl
    rw [hs]
    generalize (List.range 7).map (fun j => byte_sample b (j + 1)) ++
      msb_first_samples bs = xs
    simp only [detect_all]
    have hx01 : b / 2 ^ 7 % 2 = 0 ∨ b / 2 ^ 7 % 2 = 1 := by omega
  · rcases hx01 with hx | hx
    · have hd : detect detector_init (b / 2 ^ 7 % 2) = (⟨1, 0, 0, 0, 0⟩, []) := by
        rw [hx]; rfl
      rw [hd]
      have h := (detect_all_bounds xs ⟨1, 0, 0, 0, 0⟩ (by decide)).2.2.2.2 (by decide)
      intro e he
      exact h e (List.mem_of_mem_tail he)
    · have hd : detect detector_init (b / 2 ^ 7 % 2) = (⟨1, 1, 0, 0, 0⟩, [(1, 0)]) := by
        rw [hx]; rfl
      rw [hd]
      have h := (detect_all_bounds xs ⟨1, 1, 0, 0, 0⟩ (by decide)).2.2.2.2 (by decide)
      intro e he
      exact h e he
  · rcases hx01 with hx | hx
    · have hd : detect detector_init (b / 2 ^ 7 % 2) = (⟨1, 0, 0, 0, 0⟩, []) := by
        rw [hx]; rfl
      rw [hd, hx]
      have h := (detect_all_bounds xs ⟨1, 0, 0, 0, 0⟩ (by decide)).2.2.2.2 (by decide)
      intro e he
      have hpos := h e (List.mem_of_mem_head? he)
      simp only [List.head?_cons, Option.some.injEq]
      constructor
      · intro h0; omega
      · intro h0; exact absurd h0 (by decide)
    · have hd : detect detector_init (b / 2 ^ 7 % 2) = (⟨1, 1, 0, 0, 0⟩, [(1, 0)]) := by
        rw [hx]; rfl
      rw [hd, hx]
      intro e he
      simp only [List.singleton_append, List.head?_cons, Option.some.injEq] at he
      subst he
      simp
  · intro h1
    simp only [List.head?_cons, Option.some.injEq] at h1
    have hd : detect detector_init (b / 2 ^ 7 % 2) = (⟨1, 1, 0, 0, 0⟩, [(1, 0)]) := by
      rw [h1]; rfl
    rw [hd]
    rfl
  · have hne : ¬ (b :: bs = []) := by simp
    simp only [hne, iff_false]
    rcases hx01 with hx | hx
    · have hd : detect detector_init (b / 2 ^ 7 % 2) = (⟨1, 0, 0, 0, 0⟩, []) := by
        rw [hx]; rfl
      rw [hd]
      have h := (detect_all_bounds xs ⟨1, 0, 0, 0, 0⟩ (by decide)).2.2.1 (by decide)
      simp only []
      omega
    · have hd : detect detector_init (b / 2 ^ 7 % 2) = (⟨1, 1, 0, 0, 0⟩, [(1, 0)]) := by
        rw [hx]; rfl
      rw [hd]
      have h := (detect_all_bounds xs ⟨1, 1, 0, 0, 0⟩ (by decide)).2.2.1 (by decide)
      simp only []
      omega

theorem lpf_pulse_length (bytes : List Nat) (hlen : 8 * bytes.length < 2 ^ 32) :
    (∀ e ∈ (loop_edges true bytes).map to_unsigned, 0 < e.2) ∧
    ((final_edge true bytes).2 = 0 ↔ bytes = []) ∧
    (∀ e ∈ loop_edges true bytes, to_unsigned e = e) ∧
    final_edge true bytes = main_final_edge (main_loop true detector_init bytes).1 := by
  have hp := lpf_all_positive (msb_first_samples bytes) detector_init
    (Or.inr ⟨rfl, rfl, by simp [detector_init]⟩)
  have hlen2 := msb_first_samples_length bytes
  obtain ⟨h1, h2, h3⟩ := hp
  have hs0 : detector_init.sample = 0 := rfl
  rw [hs0, Nat.zero_add, hlen2] at h1 h3
  have hsame : ∀ e ∈ loop_edges true bytes, to_unsigned e = e := by
    intro e he
    simp only [loop_edges, main_loop_lpf] at he
    have := (h3 e he).2
    simp only [to_unsigned]
    rw [Nat.mod_eq_of_lt (by omega)]
  have hfin : final_edge true bytes =
      main_final_edge (main_loop true detector_init bytes).1 := by
    simp only [final_edge, to_unsigned, main_final_edge, main_loop_lpf]
    rw [Nat.mod_eq_of_lt (by omega)]
  refine ⟨?_, ?_, hsame, hfin⟩
  · intro e he
    obtain ⟨e0, he0, rfl⟩ := List.mem_map.1 he
    rw [hsame e0 he0]
    simp only [loop_edges, main_loop_lpf] at he0
    exact (h3 e0 he0).1
  · rw [hfin]
    simp only [main_final_edge, main_loop_lpf]
    constructor
    · intro h0
      have : bytes.length = 0 := by omega
      exact List.length_eq_zero.1 this
    · intro hb
      subst hb
      rfl

/-! ## Claims -/

/-- C1: the state after `level_change_cb` follows the transition table, for
every current state, level and pulse length (in particular for levels 0 and
1), and is the same for every accumulator content and every option setting:
Idle goes to Preamble iff level = 0 and length in [64,72], else stays Idle;
Preamble goes to Data0 iff level = 0 and length in [127,133], to Preamble iff
length in [64,72], else to Idle; Data0 stays iff length in [30,40], goes to
Data1 iff length in [10,25], else to Idle; Data1 goes to Data0 iff length in
[10,25], else to Idle. -/
theorem C1_transition_table (cfg : config) (data_len data new_level len : Nat) :
    ((level_change_cb cfg ⟨.idle, data_len, data⟩ new_level len).1.state = .preamble
        ↔ new_level = 0 ∧ 64 ≤ len ∧ len ≤ 72) ∧
    ((level_change_cb cfg ⟨.idle, data_len, data⟩ new_level len).1.state = .idle
        ↔ ¬ (new_level = 0 ∧ 64 ≤ len ∧ len ≤ 72)) ∧
    ((level_change_cb cfg ⟨.preamble, data_len, data⟩ new_level len).1.state = .data0
        ↔ new_level = 0 ∧ 127 ≤ len ∧ len ≤ 133) ∧
    ((level_change_cb cfg ⟨.preamble, data_len, data⟩ new_level len).1.state = .preamble
        ↔ 64 ≤ len ∧ len ≤ 72) ∧
    ((level_change_cb cfg ⟨.preamble, data_len, data⟩ new_level len).1.state = .idle
        ↔ ¬ (new_level = 0 ∧ 127 ≤ len ∧ len ≤ 133) ∧ ¬ (64 ≤ len ∧ len ≤ 72)) ∧
    ((level_change_cb cfg ⟨.data0, data_len, data⟩ new_level len).1.state = .data0
        ↔ 30 ≤ len ∧ len ≤ 40) ∧
    ((level_change_cb cfg ⟨.data0, data_len, data⟩ new_level len).1.state = .data1
        ↔ 10 ≤ len ∧ len ≤ 25) ∧
    ((level_change_cb cfg ⟨.data0, data_len, data⟩ new_level len).1.state = .idle
        ↔ ¬ (30 ≤ len ∧ len ≤ 40) ∧ ¬ (10 ≤ len ∧ len ≤ 25)) ∧
    ((level_change_cb cfg ⟨.data1, data_len, data⟩ new_level len).1.state = .data0
        ↔ 10 ≤ len ∧ len ≤ 25) ∧
    ((level_change_cb cfg ⟨.data1, data_len, data⟩ new_level len).1.state = .idle
        ↔ ¬ (10 ≤ len ∧ len ≤ 25)) ∧
    (∀ (s : state_t) (cfg' : config) (data_len' data' : Nat),
      (level_change_cb cfg' ⟨s, data_len', data'⟩ new_level len).1.state =
        (level_change_cb cfg ⟨s, data_len, data⟩ new_level len).1.state) := by
  simp only [level_change_cb_state, next_state]
  refine ⟨?_, ?_, ?_, ?_, ?_, ?_, ?_, ?_, ?_, ?_, ?_⟩
  all_goals first
    | (intro s cfg' dl' dat'; trivial)
    | (split_ifs <;> simp_all <;> omega)

/-- C2: for every frame value (in particular every 56-bit plaintext),
`somfy_calc_checksum` is the XOR `k` of the fourteen nibbles, `k < 16`, and
both print functions report checksum success exactly when `k = 0` and
otherwise report failure with the value `k`; `0x55555555555555` is reported
as success. -/
theorem C2_checksum_report (numeric : Bool) (cache : List somfy_host_cache_entry)
    (f : Nat) :
    somfy_calc_checksum f = nibble_xor f ∧ nibble_xor f < 16 ∧
    print_frame_oneline numeric cache f = .frame_oneline f
      (if nibble_xor f = 0 then
        .checksum_ok (somfy_frame_get_encryption_key f) (somfy_frame_get_control f)
          (if numeric then none else some (somfy_frame_get_control_name f))
          (somfy_frame_get_rolling_code f) (somfy_frame_get_addr f)
          (if numeric then none else somfy_addr_to_name cache (somfy_frame_get_addr f) 1024)
       else .checksum_failed (nibble_xor f)) ∧
    print_frame_long numeric cache f = .frame_long f
      (if nibble_xor f = 0 then
        .checksum_ok (somfy_frame_get_encryption_key f) (somfy_frame_get_control f)
          (if numeric then none else some (somfy_frame_get_control_name f))
          (somfy_frame_get_rolling_code f) (somfy_frame_get_addr f)
          (if numeric then none else somfy_addr_to_name cache (somfy_frame_get_addr f) 1024)
       else .checksum_failed (nibble_xor f)) ∧
    nibble_xor 0x55555555555555 = 0 ∧
    somfy_calc_checksum 0x55555555555555 = 0 ∧
    (∃ key control control_name rolling_code addr addr_name,
      print_frame_oneline numeric cache 0x55555555555555 =
        .frame_oneline 0x55555555555555
          (.checksum_ok key control control_name rolling_code addr addr_name)) := by
  have h5 : somfy_calc_checksum 0x55555555555555 = 0 := by
    rw [somfy_calc_checksum_eq]; decide
  refine ⟨somfy_calc_checksum_eq f, nibble_xor_lt f, ?_, ?_, by decide, h5, ?_⟩
  · simp only [print_frame_oneline, print_frame_body, somfy_calc_checksum_eq]
  · simp only [print_frame_long, print_frame_body, somfy_calc_checksum_eq]
  · refine ⟨somfy_frame_get_encryption_key 0x55555555555555,
      somfy_frame_get_control 0x55555555555555,
      if numeric then none else some (somfy_frame_get_control_name 0x55555555555555),
      somfy_frame_get_rolling_code 0x55555555555555, somfy_frame_get_addr 0x55555555555555,
      if numeric then none
      else somfy_addr_to_name cache (somfy_frame_get_addr 0x55555555555555) 1024, ?_⟩
    simp only [print_frame_oneline, print_frame_body, h5, if_true]

/-- C3: for every 56-bit raw value `c` the six rounds give the plaintext `p`
with `p6 = c6` and `p_i = c_i XOR c_(i+1)` for `i = 0..5`, the XOR source
being the byte of the raw value; and `p = c XOR (c >> 8)`. -/
theorem C3_deobfuscate_raw_source (c : Nat) (hc : c < 2 ^ 56) :
    byte_at (deobfuscate c) 6 = byte_at c 6 ∧
    byte_at (deobfuscate c) 5 = byte_at c 5 ^^^ byte_at c 6 ∧
    byte_at (deobfuscate c) 4 = byte_at c 4 ^^^ byte_at c 5 ∧
    byte_at (deobfuscate c) 3 = byte_at c 3 ^^^ byte_at c 4 ∧
    byte_at (deobfuscate c) 2 = byte_at c 2 ^^^ byte_at c 3 ∧
    byte_at (deobfuscate c) 1 = byte_at c 1 ^^^ byte_at c 2 ∧
    byte_at (deobfuscate c) 0 = byte_at c 0 ^^^ byte_at c 1 ∧
    deobfuscate c = c ^^^ (c >>> 8) :=
  ⟨deobfuscate_byte_top c 6 (le_refl 6), deobfuscate_byte_low c 5 (by norm_num),
    deobfuscate_byte_low c 4 (by norm_num), deobfuscate_byte_low c 3 (by norm_num),
    deobfuscate_byte_low c 2 (by norm_num), deobfuscate_byte_low c 1 (by norm_num),
    deobfuscate_byte_low c 0 (by norm_num), deobfuscate_eq_xor_shift c hc⟩

theorem C3_deobfuscate_raw_source_witness :
    byte_at (deobfuscate 0xA7B3C4D5E6F708) 6 = byte_at 0xA7B3C4D5E6F708 6 ∧
    byte_at (deobfuscate 0xA7B3C4D5E6F708) 5 =
      byte_at 0xA7B3C4D5E6F708 5 ^^^ byte_at 0xA7B3C4D5E6F708 6 ∧
    byte_at (deobfuscate 0xA7B3C4D5E6F708) 4 =
      byte_at 0xA7B3C4D5E6F708 4 ^^^ byte_at 0xA7B3C4D5E6F708 5 ∧
    byte_at (deobfuscate 0xA7B3C4D5E6F708) 3 =
      byte_at 0xA7B3C4D5E6F708 3 ^^^ byte_at 0xA7B3C4D5E6F708 4 ∧
    byte_at (deobfuscate 0xA7B3C4D5E6F708) 2 =
      byte_at 0xA7B3C4D5E6F708 2 ^^^ byte_at 0xA7B3C4D5E6F708 3 ∧
    byte_at (deobfuscate 0xA7B3C4D5E6F708) 1 =
      byte_at 0xA7B3C4D5E6F708 1 ^^^ byte_at 0xA7B3C4D5E6F708 2 ∧
    byte_at (deobfuscate 0xA7B3C4D5E6F708) 0 =
      byte_at 0xA7B3C4D5E6F708 0 ^^^ byte_at 0xA7B3C4D5E6F708 1 ∧
    deobfuscate 0xA7B3C4D5E6F708 = 0xA7B3C4D5E6F708 ^^^ (0xA7B3C4D5E6F708 >>> 8) :=
  C3_deobfuscate_raw_source 0xA7B3C4D5E6F708 (by norm_num)

/-- C4, as the claim states it, fails: for the raw value `0x01010000000000`
(bytes c6 = 1, c5 = 1, c4 = 0) the code gives p5 = 0 and p4 = 1, while the raw
byte 4 XORed with the post-transform byte 5 is 0. -/
theorem C4_counterexample :
    byte_at (deobfuscate 0x01010000000000) 5 = 0 ∧
    byte_at (deobfuscate 0x01010000000000) 4 = 1 ∧
    byte_at 0x01010000000000 4 ^^^ byte_at (deobfuscate 0x01010000000000) 5 = 0 ∧
    byte_at (deobfuscate 0x01010000000000) 4 ≠
      byte_at 0x01010000000000 4 ^^^ byte_at (deobfuscate 0x01010000000000) 5 := by
  decide

/-- C4 (amended): for every 56-bit raw value, de-obfuscation leaves byte 6
unmodified and, for bytes 5 down to 0, sets each byte to its raw value XORed
with the raw (not de-obfuscated) value of the byte immediately above it; for
byte 5 this is also the post-transform value of byte 6, which is not
modified. -/
theorem C4_deobfuscate_bytewise (c : Nat) (hc : c < 2 ^ 56) :
    byte_at (deobfuscate c) 6 = byte_at c 6 ∧
    (∀ i, i < 6 → byte_at (deobfuscate c) i = byte_at c i ^^^ byte_at c (i + 1)) ∧
    byte_at (deobfuscate c) 5 = byte_at c 5 ^^^ byte_at (deobfuscate c) 6 ∧
    (∀ i, i ≤ 6 → byte_at (deobfuscate c) i < 256) ∧
    deobfuscate c < 2 ^ 56 := by
  refine ⟨deobfuscate_byte_top c 6 (le_refl 6), fun i hi => deobfuscate_byte_low c i hi,
    ?_, ?_, deobfuscate_lt c hc⟩
  · rw [deobfuscate_byte_top c 6 (le_refl 6)]
    exact deobfuscate_byte_low c 5 (by norm_num)
  · intro i _
    unfold byte_at
    omega

theorem C4_deobfuscate_bytewise_witness :
    byte_at (deobfuscate 0x01010000000000) 6 = byte_at 0x01010000000000 6 ∧
    (∀ i, i < 6 → byte_at (deobfuscate 0x01010000000000) i =
      byte_at 0x01010000000000 i ^^^ byte_at 0x01010000000000 (i + 1)) ∧
    byte_at (deobfuscate 0x01010000000000) 5 =
      byte_at 0x01010000000000 5 ^^^ byte_at (deobfuscate 0x01010000000000) 6 ∧
    (∀ i, i ≤ 6 → byte_at (deobfuscate 0x01010000000000) i < 256) ∧
    deobfuscate 0x01010000000000 < 2 ^ 56 :=
  C4_deobfuscate_bytewise 0x01010000000000 (by norm_num)

/-- C5: for every 56-bit raw value `c` the de-obfuscated value is again below
`2 ^ 56` and has the same encryption key (byte 6, bits 48-55) as `c`; every
bit from bit 48 upwards is unchanged, so only the lower six bytes can
differ. -/
theorem C5_deobfuscate_frame (c : Nat) (hc : c < 2 ^ 56) :
    deobfuscate c < 2 ^ 56 ∧
    somfy_frame_get_encryption_key (deobfuscate c) = somfy_frame_get_encryption_key c ∧
    deobfuscate c / 2 ^ 48 = c / 2 ^ 48 ∧
    (∀ i, 48 ≤ i → (deobfuscate c).testBit i = c.testBit i) := by
  have hbits : ∀ i, 48 ≤ i → (deobfuscate c).testBit i = c.testBit i := by
    intro i hi
    have h48 : ¬ i < 48 := by omega
    rw [deobfuscate_testBit]
    simp [h48]
  have hdiv : deobfuscate c / 2 ^ 48 = c / 2 ^ 48 := by
    rw [← Nat.shiftRight_eq_div_pow, ← Nat.shiftRight_eq_div_pow]
    apply Nat.eq_of_testBit_eq
    intro i
    rw [Nat.testBit_shiftRight, Nat.testBit_shiftRight]
    exact hbits _ (by omega)
  refine ⟨deobfuscate_lt c hc, ?_, hdiv, hbits⟩
  simp only [somfy_frame_get_encryption_key, Nat.shiftRight_eq_div_pow]
  rw [show 6 * 8 = 48 from rfl, hdiv]

theorem C5_deobfuscate_frame_witness :
    deobfuscate 0xA7B3C4D5E6F708 < 2 ^ 56 ∧
    somfy_frame_get_encryption_key (deobfuscate 0xA7B3C4D5E6F708) =
      somfy_frame_get_encryption_key 0xA7B3C4D5E6F708 ∧
    deobfuscate 0xA7B3C4D5E6F708 / 2 ^ 48 = 0xA7B3C4D5E6F708 / 2 ^ 48 ∧
    (∀ i, 48 ≤ i → (deobfuscate 0xA7B3C4D5E6F708).testBit i =
      (0xA7B3C4D5E6F708 : Nat).testBit i) :=
  C5_deobfuscate_frame 0xA7B3C4D5E6F708 (by norm_num)

/-- C6: for every 56-bit plaintext frame `f` the accessors return: encryption
key = bits 48-55, control = bits 44-47, checksum nibble = bits 40-43, rolling
code = bits 24-39, address = the low 24 bits of `f` with the three bytes in
reversed order; the fields partition the frame without loss,
`f = key<<48 | control<<44 | checksum<<40 | rolling_code<<24 |
byte_reverse24(address)`, and `address < 2 ^ 24`. -/
theorem C6_field_partition (f : Nat) (hf : f < 2 ^ 56) :
    somfy_frame_get_encryption_key f = f / 2 ^ 48 % 2 ^ 8 ∧
    somfy_frame_get_control f = f / 2 ^ 44 % 2 ^ 4 ∧
    somfy_frame_get_chksum f = f / 2 ^ 40 % 2 ^ 4 ∧
    somfy_frame_get_rolling_code f = f / 2 ^ 24 % 2 ^ 16 ∧
    somfy_frame_get_addr f = byte_reverse24 (f % 2 ^ 24) ∧
    f = somfy_frame_get_encryption_key f <<< 48 ||| somfy_frame_get_control f <<< 44 |||
        somfy_frame_get_chksum f <<< 40 ||| somfy_frame_get_rolling_code f <<< 24 |||
        byte_reverse24 (somfy_frame_get_addr f) ∧
    somfy_frame_get_addr f < 2 ^ 24 :=
  ⟨by rw [somfy_frame_get_encryption_key_unfold]; exact field_eq_div_mod f 48 8 8 (by norm_num),
   by rw [somfy_frame_get_control_unfold]; exact field_eq_div_mod f 44 4 8 (by norm_num),
   by rw [somfy_frame_get_chksum_unfold]; exact field_eq_div_mod f 40 4 8 (by norm_num),
   by rw [somfy_frame_get_rolling_code_unfold]; exact field_eq_div_mod f 24 16 16 (by norm_num),
   somfy_frame_get_addr_eq_reverse f, frame_partition f hf, somfy_frame_get_addr_lt f⟩

theorem C6_field_partition_witness :
    somfy_frame_get_encryption_key 0xA7210C5A3C2B1A = 0xA7210C5A3C2B1A / 2 ^ 48 % 2 ^ 8 ∧
    somfy_frame_get_control 0xA7210C5A3C2B1A = 0xA7210C5A3C2B1A / 2 ^ 44 % 2 ^ 4 ∧
    somfy_frame_get_chksum 0xA7210C5A3C2B1A = 0xA7210C5A3C2B1A / 2 ^ 40 % 2 ^ 4 ∧
    somfy_frame_get_rolling_code 0xA7210C5A3C2B1A = 0xA7210C5A3C2B1A / 2 ^ 24 % 2 ^ 16 ∧
    somfy_frame_get_addr 0xA7210C5A3C2B1A = byte_reverse24 (0xA7210C5A3C2B1A % 2 ^ 24) ∧
    0xA7210C5A3C2B1A =
      somfy_frame_get_encryption_key 0xA7210C5A3C2B1A <<< 48 |||
        somfy_frame_get_control 0xA7210C5A3C2B1A <<< 44 |||
        somfy_frame_get_chksum 0xA7210C5A3C2B1A <<< 40 |||
        somfy_frame_get_rolling_code 0xA7210C5A3C2B1A <<< 24 |||
        byte_reverse24 (somfy_frame_get_addr 0xA7210C5A3C2B1A) ∧
    somfy_frame_get_addr 0xA7210C5A3C2B1A < 2 ^ 24 :=
  C6_field_partition 0xA7210C5A3C2B1A (by norm_num)

/-- C7, as the claim states it, fails: in the frame `0xA7210C5A3C2B1A` the
address byte sent first is the one in frame bits 16-23, `0x3C`; the returned
address is `0x1A2B3C`, whose most significant byte is `0x1A`, the byte sent
last, and whose least significant byte is `0x3C`. -/
theorem C7_counterexample :
    byte_at 0xA7210C5A3C2B1A 2 = 0x3C ∧
    somfy_frame_get_addr 0xA7210C5A3C2B1A = 0x1A2B3C ∧
    byte_at (somfy_frame_get_addr 0xA7210C5A3C2B1A) 2 = 0x1A ∧
    byte_at (somfy_frame_get_addr 0xA7210C5A3C2B1A) 2 ≠ byte_at 0xA7210C5A3C2B1A 2 := by
  decide

/-- C7 (amended): for every plaintext frame `f` (accumulated MSB-first, so of
the three address bytes the one in frame bits 16-23 is sent first and the one
in bits 0-7 last), `somfy_frame_get_addr f` places the first-sent address
byte in the least significant byte (bits 0-7) of the returned address, keeps
the middle byte, and places the last-sent byte in the most significant byte
(bits 16-23). -/
theorem C7_addr_byte_order (f : Nat) :
    byte_at (somfy_frame_get_addr f) 0 = byte_at f 2 ∧
    byte_at (somfy_frame_get_addr f) 1 = byte_at f 1 ∧
    byte_at (somfy_frame_get_addr f) 2 = byte_at f 0 := by
  refine ⟨?_, ?_, ?_⟩ <;>
  · apply Nat.eq_of_testBit_eq
    intro j
    simp only [byte_at_testBit, somfy_frame_get_addr_testBit]
    by_cases hj : j < 8
    · have h1 : ¬ 8 * 1 + j < 8 := by omega
      have h2 : 8 * 1 + j < 16 := by omega
      have h3 : ¬ 8 * 2 + j < 8 := by omega
      have h4 : ¬ 8 * 2 + j < 16 := by omega
      have h5 : 8 * 2 + j < 24 := by omega
      have e1 : 8 * 0 + j = j := by omega
      have e2 : 8 * 2 + j - 16 = j := by omega
      have e3 : j + 16 = 8 * 2 + j := by omega
      simp [hj, h1, h2, h3, h4, h5, e1, e2, e3]
    · simp [hj]

/-- C8: for every decoder state, option setting and edge, one call of
`level_change_cb` prints a decoded frame report iff the state before the call
is Data0 or Data1, the state after it is neither, and `data_len = 56`; there
is then exactly one report, and it is the report of the de-obfuscated
accumulator `data`.  With any other `data_len` (0, 1..55, above 56) no report
is printed. -/
theorem C8_frame_handover (cfg : config) (d : decoder) (new_level len : Nat) :
    ((∃ o ∈ (level_change_cb cfg d new_level len).2, is_frame o = true) ↔
      (in_data d.state = true ∧
        in_data (level_change_cb cfg d new_level len).1.state = false ∧
        d.data_len = 56)) ∧
    (level_change_cb cfg d new_level len).2.filter is_frame =
      if in_data d.state = true ∧
          in_data (level_change_cb cfg d new_level len).1.state = false ∧
          d.data_len = 56 then
        [if cfg.one_line then print_frame_oneline cfg.numeric cfg.cache (deobfuscate d.data)
         else print_frame_long cfg.numeric cfg.cache (deobfuscate d.data)]
      else [] := by
  have hfilter : (level_change_cb cfg d new_level len).2.filter is_frame =
      if in_data d.state = true ∧
          in_data (level_change_cb cfg d new_level len).1.state = false ∧
          d.data_len = 56 then
        [if cfg.one_line then print_frame_oneline cfg.numeric cfg.cache (deobfuscate d.data)
         else print_frame_long cfg.numeric cfg.cache (deobfuscate d.data)]
      else [] := by
    rw [level_change_cb_state]
    obtain ⟨st, dl, dat⟩ := d
    generalize hns : next_state st new_level len = ns
    simp only [level_change_cb, frame_end, hns]
    cases st <;> cases ns <;>
      simp [in_data, is_frame, print_frame_oneline, print_frame_long] <;>
      split_ifs <;> simp_all [is_frame]
  refine ⟨?_, hfilter⟩
  have hex : (∃ o ∈ (level_change_cb cfg d new_level len).2, is_frame o = true) ↔
      (level_change_cb cfg d new_level len).2.filter is_frame ≠ [] := by
    rw [Ne, List.filter_eq_nil_iff]
    push_neg
    rfl
  rw [hex, hfilter]
  by_cases h : in_data d.state = true ∧
      in_data (level_change_cb cfg d new_level len).1.state = false ∧ d.data_len = 56
  · rw [if_pos h]
    exact ⟨fun _ => h, fun _ => List.cons_ne_nil _ _⟩
  · rw [if_neg h]
    exact ⟨fun hh => absurd rfl hh, fun hh => absurd hh h⟩

/-- C9: from Idle, whatever the accumulator holds, an edge `(0, L)` with `L`
in [64,72], then any number of edges of either level with lengths in [64,72],
then an edge `(0, S)` with `S` in [127,133], ends in Data0 with the
accumulator reset (`data_len = 0`, `data = 0`).  In particular the sequence
(0,68), (1,68), (0,68), (1,68), (0,68), (1,68), (0,68), (0,130) leaves the
machine in Preamble after each of its first seven edges and in Data0, with the
accumulator reset, after the eighth. -/
theorem C9_preamble_acceptance (cfg : config) (data_len data L S : Nat)
    (mid : List (Nat × Nat)) (hL : 64 ≤ L ∧ L ≤ 72)
    (hmid : ∀ e ∈ mid, 64 ≤ e.2 ∧ e.2 ≤ 72) (hS : 127 ≤ S ∧ S ≤ 133) :
    run_state cfg ⟨.idle, data_len, data⟩ ((0, L) :: mid ++ [(0, S)]) = ⟨.data0, 0, 0⟩ ∧
    (∀ k, 1 ≤ k → k ≤ 7 →
      (run_state cfg ⟨.idle, data_len, data⟩ (acceptance_edges.take k)).state = .preamble) ∧
    run_state cfg ⟨.idle, data_len, data⟩ acceptance_edges = ⟨.data0, 0, 0⟩ := by
  have hidle : ∀ n, 64 ≤ n ∧ n ≤ 72 →
      (level_change_cb cfg ⟨.idle, data_len, data⟩ 0 n).1 = ⟨.preamble, data_len, data⟩ := by
    intro n hn
    simp [level_change_cb, frame_end, next_state, in_data, hn]
  have hsync : ∀ n, 127 ≤ n ∧ n ≤ 133 →
      (level_change_cb cfg ⟨.preamble, data_len, data⟩ 0 n).1 = ⟨.data0, 0, 0⟩ := by
    intro n hn
    simp [level_change_cb, frame_end, next_state, in_data, hn]
  have hgen : ∀ (L S : Nat) (mid : List (Nat × Nat)), 64 ≤ L ∧ L ≤ 72 →
      (∀ e ∈ mid, 64 ≤ e.2 ∧ e.2 ≤ 72) → 127 ≤ S ∧ S ≤ 133 →
      run_state cfg ⟨.idle, data_len, data⟩ ((0, L) :: mid ++ [(0, S)]) = ⟨.data0, 0, 0⟩ := by
    intro L S mid hL hmid hS
    rw [List.cons_append, run_state_cons, hidle L hL, run_state_append,
      run_state_preamble_stay cfg data_len data mid hmid, run_state_cons, hsync S hS,
      run_state_nil]
  refine ⟨hgen L S mid hL hmid hS, ?_, ?_⟩
  · intro k h1 h7
    have hpre : ∀ mid : List (Nat × Nat), (∀ e ∈ mid, 64 ≤ e.2 ∧ e.2 ≤ 72) →
        (run_state cfg ⟨.idle, data_len, data⟩ ((0, 68) :: mid)).state = .preamble := by
      intro mid hmid
      rw [run_state_cons, hidle 68 (by norm_num), run_state_preamble_stay cfg _ _ mid hmid]
    interval_cases k
    · exact hpre [] (by decide)
    · exact hpre [(1, 68)] (by decide)
    · exact hpre [(1, 68), (0, 68)] (by decide)
    · exact hpre [(1, 68), (0, 68), (1, 68)] (by decide)
    · exact hpre [(1, 68), (0, 68), (1, 68), (0, 68)] (by decide)
    · exact hpre [(1, 68), (0, 68), (1, 68), (0, 68), (1, 68)] (by decide)
    · exact hpre [(1, 68), (0, 68), (1, 68), (0, 68), (1, 68), (0, 68)] (by decide)
  · exact hgen 68 130 [(1, 68), (0, 68), (1, 68), (0, 68), (1, 68), (0, 68)]
      (by norm_num) (by decide) (by norm_num)

theorem C9_preamble_acceptance_witness :
    run_state quiet ⟨.idle, 17, 0xABCD⟩
      ((0, 68) :: [(1, 68), (0, 68), (1, 68), (0, 68), (1, 68), (0, 68)] ++ [(0, 130)]) =
        ⟨.data0, 0, 0⟩ ∧
    (∀ k, 1 ≤ k → k ≤ 7 →
      (run_state quiet ⟨.idle, 17, 0xABCD⟩ (acceptance_edges.take k)).state = .preamble) ∧
    run_state quiet ⟨.idle, 17, 0xABCD⟩ acceptance_edges = ⟨.data0, 0, 0⟩ :=
  C9_preamble_acceptance quiet 17 0xABCD 68 130
    [(1, 68), (0, 68), (1, 68), (0, 68), (1, 68), (0, 68)]
    (by decide) (by decide) (by decide)

set_option maxRecDepth 8192 in
/-- C12, as the claim states it, fails: after the preamble of the acceptance
example, 57 edges of 34 samples each (levels alternating from 1) leave the
decoder with `data_len = 57` and `data ≥ 2 ^ 56`. -/
theorem C12_counterexample :
    (run_state quiet initial (acceptance_edges ++ long_pulse_edges)).data_len = 57 ∧
    ¬ (run_state quiet initial (acceptance_edges ++ long_pulse_edges)).data_len ≤ 56 ∧
    ¬ (run_state quiet initial (acceptance_edges ++ long_pulse_edges)).data < 2 ^ 56 := by
  decide

/-- C12 (amended): in every decoder state reached from the initial state
(Idle, empty accumulator) by any sequence of edge events with levels 0 or 1
during which `data_len` stays below `2 ^ 31` (it is a C `int`; every sequence
of fewer than `2 ^ 31` edges qualifies), the counter has not overflowed (the
wrapping counter and the exact one agree, so `0 ≤ data_len < 2 ^ 31`),
`data < 2 ^ 64`, and `data < 2 ^ 56` whenever `data_len ≤ 56`.  `data_len`
itself is not bounded by 56: after the preamble, `n` edges of 34 samples give
`data_len = n`, for every `n < 2 ^ 31`. -/
theorem C12_accumulator_bounds (cfg : config) (es : List (Nat × Nat))
    (hb : ∀ e ∈ es, e.1 ≤ 1) (hr : counter_in_range cfg initial es = true) :
    run_wrap cfg initial es = run cfg initial es ∧
    (run_state cfg initial es).data_len < 2 ^ 31 ∧
    (run_state cfg initial es).data < 2 ^ 64 ∧
    ((run_state cfg initial es).data_len ≤ 56 → (run_state cfg initial es).data < 2 ^ 56) ∧
    (∀ fs : List (Nat × Nat), fs.length < 2 ^ 31 → counter_in_range cfg initial fs = true) ∧
    (∀ n, n < 2 ^ 31 →
      counter_in_range cfg initial (acceptance_edges ++ List.replicate n (0, 34)) = true ∧
      (run_state_wrap cfg initial
        (acceptance_edges ++ List.replicate n (0, 34))).data_len = n) := by
  have hinv : acc_inv (run_state cfg initial es) :=
    run_state_acc_inv cfg es initial hb ⟨by decide, fun _ => by decide⟩
  have h0 : initial.data_len = 0 := rfl
  have hshort : ∀ fs : List (Nat × Nat), fs.length < 2 ^ 31 →
      counter_in_range cfg initial fs = true := by
    intro fs hfs
    exact counter_in_range_of_short cfg fs initial (by rw [h0, Nat.zero_add]; exact hfs)
  refine ⟨counter_in_range_run_wrap cfg es initial hr, counter_in_range_end cfg es initial hr,
    hinv.1, fun h56 => ?_, hshort, fun n hn => ?_⟩
  · exact lt_of_lt_of_le (hinv.2 (by omega)) (Nat.pow_le_pow_right (by norm_num) h56)
  · have hacc : run_state cfg initial acceptance_edges = ⟨.data0, 0, 0⟩ :=
      run_state_acceptance_edges cfg 0 0
    have hr1 : counter_in_range cfg initial acceptance_edges = true :=
      hshort _ (by decide)
    have hr2 : counter_in_range cfg (run_state cfg initial acceptance_edges)
        (List.replicate n (0, 34)) = true := by
      rw [hacc]
      exact counter_in_range_of_short cfg _ _ (by simpa using hn)
    have hr3 := counter_in_range_append cfg _ _ initial hr1 hr2
    refine ⟨hr3, ?_⟩
    rw [run_state_wrap, counter_in_range_run_wrap cfg _ initial hr3]
    show (run_state cfg initial (acceptance_edges ++ List.replicate n (0, 34))).data_len = n
    rw [run_state_append, hacc]
    have h := (run_state_data_len cfg (List.replicate n (0, 34)) ⟨.data0, 0, 0⟩ rfl
      (data_timed_replicate_long n 0).1).1
    rw [h, (data_timed_replicate_long n 0).2]
    simp

set_option maxRecDepth 100000 in
theorem C12_accumulator_bounds_witness :
    counter_in_range quiet initial (acceptance_edges ++ long_pulse_edges) = true ∧
    run_wrap quiet initial (acceptance_edges ++ long_pulse_edges) =
      run quiet initial (acceptance_edges ++ long_pulse_edges) ∧
    (run_state quiet initial (acceptance_edges ++ long_pulse_edges)).data_len < 2 ^ 31 ∧
    (run_state quiet initial (acceptance_edges ++ long_pulse_edges)).data < 2 ^ 64 :=
  ⟨by decide,
    (C12_accumulator_bounds quiet (acceptance_edges ++ long_pulse_edges) (by decide)
      (by decide)).1,
    (C12_accumulator_bounds quiet (acceptance_edges ++ long_pulse_edges) (by decide)
      (by decide)).2.1,
    (C12_accumulator_bounds quiet (acceptance_edges ++ long_pulse_edges) (by decide)
      (by decide)).2.2.1⟩

/-- C13, as the claim states it, fails: for the one-byte input `0x80`, whose
first sample is 1, the first edge handed to `level_change_cb` is `(1, 0)`,
with pulse length 0; for the empty input the closing call has length 0, with
and without the filter; and after `2 ^ 32` low samples the rising edge has the
computed length `2 ^ 32`, which the `unsigned int` parameter receives as 0. -/
theorem C13_counterexample :
    (loop_edges false [0x80]).map to_unsigned = [(1, 0), (0, 1)] ∧
    (∃ e ∈ (loop_edges false [0x80]).map to_unsigned, ¬ 0 < e.2) ∧
    final_edge false [] = (1, 0) ∧
    final_edge true [] = (1, 0) ∧
    loop_edges false wrapped_run_stream = [(1, 2 ^ 32), (0, 1)] ∧
    (loop_edges false wrapped_run_stream).map to_unsigned = [(1, 0), (0, 1)] := by
  have h : loop_edges false wrapped_run_stream = [(1, 2 ^ 32), (0, 1)] := by
    rw [wrapped_run_stream, loop_edges_long_low (2 ^ 29)]
    norm_num
  refine ⟨by decide, by decide, by decide, by decide, h, ?_⟩
  rw [h]
  simp only [List.map_cons, List.map_nil, to_unsigned]
  norm_num

/-- C13 (amended): for every input of fewer than `2 ^ 32` samples, every
edge the edge detector hands to the state machine has pulse length greater
than 0, with one exception in raw mode: an edge at the very first sample,
which occurs exactly when the input starts at level 1 and has pulse length 0.
With the low-pass filter every edge of the reading loop has pulse length
greater than 0.  In both modes the closing synthetic edge has pulse length 0
exactly when the input is empty.  (Below `2 ^ 32` samples the `unsigned int`
the callback receives is the computed length.) -/
theorem C13_pulse_length (bytes : List Nat) (hlen : 8 * bytes.length < 2 ^ 32) :
    ((∀ e ∈ ((loop_edges false bytes).map to_unsigned).tail, 0 < e.2) ∧
    (∀ e, ((loop_edges false bytes).map to_unsigned).head? = some e →
      (e.2 = 0 ↔ (msb_first_samples bytes).head? = some 1)) ∧
    ((msb_first_samples bytes).head? = some 1 →
      ((loop_edges false bytes).map to_unsigned).head? = some (1, 0)) ∧
    ((final_edge false bytes).2 = 0 ↔ bytes = []) ∧
    (∀ e ∈ loop_edges false bytes, to_unsigned e = e) ∧
    final_edge false bytes = main_final_edge (main_loop false detector_init bytes).1) ∧
    ((∀ e ∈ (loop_edges true bytes).map to_unsigned, 0 < e.2) ∧
    ((final_edge true bytes).2 = 0 ↔ bytes = []) ∧
    (∀ e ∈ loop_edges true bytes, to_unsigned e = e) ∧
    final_edge true bytes = main_final_edge (main_loop true detector_init bytes).1) :=
  ⟨raw_pulse_length bytes hlen, lpf_pulse_length bytes hlen⟩

set_option maxRecDepth 100000 in
theorem C13_pulse_length_witness :
    ((loop_edges false [0x80, 0x0F]).map to_unsigned = [(1, 0), (0, 1), (1, 11)] ∧
      final_edge false [0x80, 0x0F] = (0, 4)) ∧
    ((loop_edges true [0xFF, 0x00]).map to_unsigned = [(1, 5), (0, 9)] ∧
      final_edge true [0xFF, 0x00] = (1, 2)) ∧
    (∀ e ∈ ((loop_edges false [0x80, 0x0F]).map to_unsigned).tail, 0 < e.2) ∧
    (∀ e ∈ (loop_edges true [0xFF, 0x00]).map to_unsigned, 0 < e.2) :=
  ⟨by decide, by decide,
    (C13_pulse_length [0x80, 0x0F] (by decide)).1.1,
    (C13_pulse_length [0xFF, 0x00] (by decide)).2.1⟩

/-- C14, as the claim states it, fails: for the input `long_run_stream`
(`2 ^ 32 + 68` samples high, then 4 low) the falling edge ends a run of
`2 ^ 32 + 68` samples, but `level_change_cb` receives the pulse length 68,
because its parameter is `unsigned int`. -/
theorem C14_counterexample :
    (loop_edges false long_run_stream).map to_unsigned = [(1, 0), (0, 68)] ∧
    expected_edges [] (msb_first_samples long_run_stream) = [(1, 0), (0, 2 ^ 32 + 68)] ∧
    (loop_edges false long_run_stream).map to_unsigned ≠
      expected_edges [] (msb_first_samples long_run_stream) := by
  have h1 := long_run_delivered
  have h2 : expected_edges [] (msb_first_samples long_run_stream) =
      [(1, 0), (0, 2 ^ 32 + 68)] := by
    rw [← loop_edges_eq_expected]
    exact h1.1
  refine ⟨h1.2, h2, ?_⟩
  rw [h1.2, h2]
  intro h
  have h3 := congrArg (fun l => (l.getD 1 (0, 0)).2) h
  simp only [List.getD_cons_succ, List.getD_cons_zero] at h3
  norm_num at h3

/-- C14 (amended): in raw mode, for every input, the edges handed to
`level_change_cb` by the reading loop are the expected edge events of the
sample stream unpacked MSB-first, one event at each sample that differs from
the current level (initially 0), carrying that sample as new level and, as
pulse length, the length of the maximal run of equal samples that just ended
reduced modulo `2 ^ 32` (the parameter is `unsigned int`); for inputs of at
most `2 ^ 32` samples the pulse length is the run length itself.  Each sample
gives at most one event. -/
theorem C14_raw_edges (bytes : List Nat) :
    (loop_edges false bytes).map to_unsigned =
      (expected_edges [] (msb_first_samples bytes)).map (fun e => (e.1, e.2 % 2 ^ 32)) ∧
    (8 * bytes.length ≤ 2 ^ 32 →
      (loop_edges false bytes).map to_unsigned =
        expected_edges [] (msb_first_samples bytes)) ∧
    (∀ (st : detector) (byte mask : Nat), (sample_step false st byte mask).2.length ≤ 1) ∧
    ((loop_edges false bytes).map to_unsigned).length ≤ 8 * bytes.length ∧
    (∀ e ∈ expected_edges [] (msb_first_samples bytes), e.2 < 8 * bytes.length) := by
  refine ⟨?_, ?_, ?_, ?_, ?_⟩
  · rw [loop_edges_eq_expected, to_unsigned_eq_mod]
  · intro h
    rw [delivered_eq_of_short bytes h, loop_edges_eq_expected]
  · intro st byte mask
    simp only [sample_step, Bool.false_eq_true, if_false]
    exact detect_length_le_one _ _
  · rw [List.length_map, loop_edges, main_loop_raw, ← msb_first_samples_length]
    exact detect_all_length_le _ _
  · rw [← loop_edges_eq_expected]
    exact loop_edges_lt bytes

/-- C15, as the claim states it, fails: for the one-byte input `0x80`
(samples 1,0,0,0,0,0,0,0) the edge detector of `main` hands `(1,0), (0,1)` to
`level_change_cb`, the counter-based reference that resets
`samples_since_change` to 0 emits `(1,0), (0,0)`.  And for the input
`long_run_stream` the callback receives `(1,0), (0,68)` where the reference
that restarts at 1 emits `(1,0), (0, 2 ^ 32 + 68)`. -/
theorem C15_counterexample :
    (loop_edges false [0x80]).map to_unsigned = [(1, 0), (0, 1)] ∧
    counter_reference 0 ⟨0, 0⟩ (msb_first_samples [0x80]) = [(1, 0), (0, 0)] ∧
    (loop_edges false [0x80]).map to_unsigned ≠
      counter_reference 0 ⟨0, 0⟩ (msb_first_samples [0x80]) ∧
    (loop_edges false long_run_stream).map to_unsigned = [(1, 0), (0, 68)] ∧
    counter_reference 1 ⟨0, 0⟩ (msb_first_samples long_run_stream) =
      [(1, 0), (0, 2 ^ 32 + 68)] := by
  refine ⟨by decide, by decide, by decide, long_run_delivered.2, ?_⟩
  rw [← loop_edges_eq_counter]
  exact long_run_delivered.1

/-- C15 (amended): the raw-mode edge detector of `main` hands to
`level_change_cb`, for every input, the sequence of edge events of the
counter-based reference that keeps `current_level` (initially 0) and
`samples_since_change` (initially 0) and on each bit, if it differs from
`current_level`, emits `(bit, samples_since_change)`, sets
`samples_since_change` to 1 (the sample that changes the level is the first of
the new run) and `current_level` to the bit, and otherwise increments
`samples_since_change`; the pulse length arrives reduced modulo `2 ^ 32` (the
parameter is `unsigned int`), so for inputs of at most `2 ^ 32` samples the
two sequences are equal. -/
theorem C15_counter_reference (bytes : List Nat) :
    (loop_edges false bytes).map to_unsigned =
      (counter_reference 1 ⟨0, 0⟩ (msb_first_samples bytes)).map
        (fun e => (e.1, e.2 % 2 ^ 32)) ∧
    (8 * bytes.length ≤ 2 ^ 32 →
      (loop_edges false bytes).map to_unsigned =
        counter_reference 1 ⟨0, 0⟩ (msb_first_samples bytes)) := by
  refine ⟨?_, ?_⟩
  · rw [loop_edges_eq_counter, to_unsigned_eq_mod]
  · intro h
    rw [delivered_eq_of_short bytes h, loop_edges_eq_counter]

set_option maxRecDepth 100000 in
/-- C16: the program at an input where the closing call does not flush.  The
273-byte input `full_frame_stream` leaves the decoder in Data0 with a complete
pending run (`data_len = 56`); its last pulse is 14 samples long, so the
closing call `(1, 14)` is taken as a short data pulse: the machine moves to
Data1, not to Idle, and the whole run prints no frame.  The 35-byte input
`cut_short_stream` likewise ends in Data1. -/
theorem C16_frame_not_flushed :
    decoder_at_eof false quiet full_frame_stream = ⟨.data0, 56, 0xAAAAAAAAAAAAAA⟩ ∧
    final_edge false full_frame_stream = (1, 14) ∧
    main false quiet full_frame_stream = (⟨.data1, 56, 0xAAAAAAAAAAAAAA⟩, []) ∧
    in_data (decoder_at_eof false quiet cut_short_stream).state = true ∧
    (main false quiet cut_short_stream).1.state = .data1 := by
  decide

/-- The effect of the closing call of `main` on an input that leaves the
decoder in Data0 or Data1: the synthetic edge (`new_level = !level`, pulse
length = samples since the last change) goes through `level_change_cb` like
any other edge.  It moves the machine to Idle and applies the
frame-completion logic (a pending run with `data_len = 56` is decoded and
reported, any other pending run is dropped) exactly when that pulse length is
outside the data windows of the current state; when the length is in [10,25],
or in [30,40] in Data0, the machine stays in Data0 or Data1, nothing is
reported and the pending run is kept. -/
theorem closing_call_effect (with_lpf : Bool) (cfg : config) (bytes : List Nat)
    (hd : in_data (decoder_at_eof with_lpf cfg bytes).state = true) :
    main with_lpf cfg bytes =
      ((level_change_cb cfg (decoder_at_eof with_lpf cfg bytes)
          (final_edge with_lpf bytes).1 (final_edge with_lpf bytes).2).1,
        (run cfg initial ((loop_edges with_lpf bytes).map to_unsigned)).2 ++
          (level_change_cb cfg (decoder_at_eof with_lpf cfg bytes)
            (final_edge with_lpf bytes).1 (final_edge with_lpf bytes).2).2) ∧
    (final_edge with_lpf bytes).1 =
      (if (main_loop with_lpf detector_init bytes).1.level = 0 then 1 else 0) ∧
    (in_data (main with_lpf cfg bytes).1.state = true ↔
      ((10 ≤ (final_edge with_lpf bytes).2 ∧ (final_edge with_lpf bytes).2 ≤ 25) ∨
        ((decoder_at_eof with_lpf cfg bytes).state = .data0 ∧
          30 ≤ (final_edge with_lpf bytes).2 ∧ (final_edge with_lpf bytes).2 ≤ 40))) ∧
    (in_data (main with_lpf cfg bytes).1.state = false →
      (main with_lpf cfg bytes).1.state = .idle ∧
      (level_change_cb cfg (decoder_at_eof with_lpf cfg bytes)
          (final_edge with_lpf bytes).1 (final_edge with_lpf bytes).2).2.filter is_frame =
        if (decoder_at_eof with_lpf cfg bytes).data_len = 56 then
          [if cfg.one_line then
            print_frame_oneline cfg.numeric cfg.cache
              (deobfuscate (decoder_at_eof with_lpf cfg bytes).data)
           else
            print_frame_long cfg.numeric cfg.cache
              (deobfuscate (decoder_at_eof with_lpf cfg bytes).data)]
        else []) ∧
    (in_data (main with_lpf cfg bytes).1.state = true →
      (level_change_cb cfg (decoder_at_eof with_lpf cfg bytes)
          (final_edge with_lpf bytes).1 (final_edge with_lpf bytes).2).2.filter is_frame = [] ∧
      (decoder_at_eof with_lpf cfg bytes).data_len ≤ (main with_lpf cfg bytes).1.data_len) := by
  have hmain : main with_lpf cfg bytes =
      ((level_change_cb cfg (decoder_at_eof with_lpf cfg bytes)
          (final_edge with_lpf bytes).1 (final_edge with_lpf bytes).2).1,
        (run cfg initial ((loop_edges with_lpf bytes).map to_unsigned)).2 ++
          (level_change_cb cfg (decoder_at_eof with_lpf cfg bytes)
            (final_edge with_lpf bytes).1 (final_edge with_lpf bytes).2).2) := by
    simp only [main, List.map_append, List.map_cons, List.map_nil, run_append, run,
      decoder_at_eof, run_state, loop_edges, final_edge, List.append_nil]
  have hstate : (main with_lpf cfg bytes).1.state =
      next_state (decoder_at_eof with_lpf cfg bytes).state (final_edge with_lpf bytes).1
        (final_edge with_lpf bytes).2 := by
    rw [hmain]
    exact level_change_cb_state _ _ _ _
  have hiff := next_state_in_data_iff (decoder_at_eof with_lpf cfg bytes).state
    (final_edge with_lpf bytes).1 (final_edge with_lpf bytes).2 hd
  refine ⟨hmain, rfl, ?_, ?_, ?_⟩
  · rw [hstate]; exact hiff
  · intro hout
    rw [hstate] at hout ⊢
    refine ⟨next_state_not_in_data _ _ _ hd hout, ?_⟩
    rw [level_change_cb_frames]
    simp only [hd, hout, true_and]
  · intro hin
    rw [hstate] at hin
    constructor
    · rw [level_change_cb_frames, if_neg]
      intro h
      rw [hin] at h
      exact absurd h.2.1 (by decide)
    · rw [hmain]
      simp only []
      rw [level_change_cb_effect]
      split_ifs with h1 h2 h3
      · simp
      · exact absurd h2.1 (by
          intro h
          rw [h] at hd
          exact absurd hd (by decide))
      · exact absurd h3.2.1 (by rw [hin]; decide)
      · simp

set_option maxRecDepth 100000 in
theorem closing_call_effect_example :
    (in_data (main false quiet cut_short_stream).1.state = true ↔
      ((10 ≤ (final_edge false cut_short_stream).2 ∧
          (final_edge false cut_short_stream).2 ≤ 25) ∨
        ((decoder_at_eof false quiet cut_short_stream).state = .data0 ∧
          30 ≤ (final_edge false cut_short_stream).2 ∧
          (final_edge false cut_short_stream).2 ≤ 40))) :=
  (closing_call_effect false quiet cut_short_stream (by decide)).2.2.1

set_option maxRecDepth 100000 in
/-- C17, as the claim states it, fails: the table loaded from one line with
address `1a2b3c` and a name of 1024 letters holds that entry, and the lookup
as the program makes it (a buffer of 1024 bytes) succeeds with the first 1023
letters only, not with the name of the entry. -/
theorem C17_counterexample :
    somfy_hosts_cache_init [] (some [long_name_line]) =
      [⟨0x1a2b3c, List.replicate 1024 (Char.ofNat 120)⟩] ∧
    somfy_addr_to_name (somfy_hosts_cache_init [] (some [long_name_line])) 0x1a2b3c 1024 =
      some (List.replicate 1023 (Char.ofNat 120)) ∧
    somfy_addr_to_name (somfy_hosts_cache_init [] (some [long_name_line])) 0x1a2b3c 1024 ≠
      some (List.replicate 1024 (Char.ofNat 120)) := by
  decide

/-- C17 (amended): for every loaded address table, every address `a` and
every buffer length `len > 0`, `somfy_addr_to_name` returns success with the
name of the entry whose address equals `a` exactly and that was loaded last
among all entries with address `a`, cut to its first `len - 1` characters (the
whole name when it is shorter than `len`; the program passes `len = 1024`),
and returns `ESAN_NONAME` iff no loaded entry has address `a`.  With a table
containing exactly `1a2b3c` mapped to `Test Remote`, address `0x1a2b3c`
resolves to `Test Remote` and address `0x000000` is not found. -/
theorem C17_addr_to_name (lines : List (List Char)) (a len : Nat) (hlen : 0 < len) :
    somfy_addr_to_name (somfy_hosts_cache_init [] (some lines)) a len =
      (last_loaded a (loaded_entries lines)).map (fun e => e.name.take (len - 1)) ∧
    (∀ e, last_loaded a (loaded_entries lines) = some e → e.name.length < len →
      somfy_addr_to_name (somfy_hosts_cache_init [] (some lines)) a len = some e.name) ∧
    (somfy_addr_to_name (somfy_hosts_cache_init [] (some lines)) a len = none ↔
      ∀ e ∈ loaded_entries lines, e.addr ≠ a) ∧
    somfy_hosts_cache_init [] (some ["1a2b3c Test Remote\n".toList]) =
      [⟨0x1a2b3c, "Test Remote".toList⟩] ∧
    somfy_addr_to_name (somfy_hosts_cache_init [] (some ["1a2b3c Test Remote\n".toList]))
      0x1a2b3c 1024 = some "Test Remote".toList ∧
    somfy_addr_to_name (somfy_hosts_cache_init [] (some ["1a2b3c Test Remote\n".toList]))
      0x000000 1024 = none := by
  have h := somfy_hosts_cache_init_lookup a len lines [] none rfl
  refine ⟨h, ?_, ?_, by decide, by decide, by decide⟩
  · intro e he hshort
    rw [h]
    simp only [last_loaded, loaded_entries] at he
    rw [he]
    simp only [Option.map_some']
    rw [List.take_of_length_le (by omega)]
  · rw [h, Option.map_eq_none']
    have := last_loaded_eq_none a (lines.filterMap parse_line) none
    simpa [loaded_entries] using this

theorem C17_addr_to_name_witness :
    somfy_addr_to_name
        (somfy_hosts_cache_init []
          (some ["1a2b3c A\n".toList, "junk".toList, "1a2b3c B\n".toList])) 0x1a2b3c 1024 =
      (last_loaded 0x1a2b3c
        (loaded_entries ["1a2b3c A\n".toList, "junk".toList, "1a2b3c B\n".toList])).map
        (fun e => e.name.take (1024 - 1)) :=
  (C17_addr_to_name ["1a2b3c A\n".toList, "junk".toList, "1a2b3c B\n".toList] 0x1a2b3c 1024
    (by decide)).1

set_option maxRecDepth 100000 in
/-- C18: the loader at the lines where it leaves the specified shape.  The
lines `-1a2b3 Remote`, `0x1a2b Remote` and `  1a2b Remote` do not start with
6 hex digits, yet each adds an entry, because `strtol` also consumes a sign, a
`0x` prefix and leading white space and the loader only tests that 6
characters were consumed; the first gets the address `0xFFFE5D4D`.  On lines
of the specified shape (and free of NUL characters) the loader does what the
claim says: it adds the entry with the value of the 6 hex digits and the text
after the white space; lines with 7 hex digits, with no white space after the
digits or with no name add nothing, and loading goes on with the next line. -/
theorem C18_loader_line_shape (line : List Char) (e : somfy_host_cache_entry)
    (ls : List (List Char)) (cache : List somfy_host_cache_entry)
    (hnul : ∀ c ∈ line, c.toNat ≠ 0) (he : expected_entry line = some e) :
    parse_line line = some e ∧
    somfy_hosts_cache_init cache (some (line :: ls)) =
      somfy_hosts_cache_init (e :: cache) (some ls) ∧
    (∀ l, parse_line l = none →
      somfy_hosts_cache_init cache (some (l :: ls)) = somfy_hosts_cache_init cache (some ls)) ∧
    (expected_entry "-1a2b3 Remote\n".toList = none ∧
      parse_line "-1a2b3 Remote\n".toList = some ⟨0xFFFE5D4D, "Remote".toList⟩) ∧
    (expected_entry "0x1a2b Remote\n".toList = none ∧
      parse_line "0x1a2b Remote\n".toList = some ⟨0x1a2b, "Remote".toList⟩) ∧
    (expected_entry "  1a2b Remote\n".toList = none ∧
      parse_line "  1a2b Remote\n".toList = some ⟨0x1a2b, "Remote".toList⟩) ∧
    somfy_hosts_cache_init [] (some ["-1a2b3 Remote\n".toList, "1a2b3c Test Remote\n".toList]) =
      [⟨0x1a2b3c, "Test Remote".toList⟩, ⟨0xFFFE5D4D, "Remote".toList⟩] ∧
    parse_line "1a2b3c7 Remote\n".toList = none ∧
    parse_line "1a2b3cRemote\n".toList = none ∧
    parse_line "1a2b3c   \n".toList = none ∧
    parse_line "1a2b3 Remote\n".toList = none := by
  have hp := parse_line_of_expected line e hnul he
  refine ⟨hp, ?_, ?_, ⟨by decide, by decide⟩, ⟨by decide, by decide⟩, ⟨by decide, by decide⟩,
    by decide, by decide, by decide, by decide, by decide⟩
  · simp only [somfy_hosts_cache_init, List.foldl_cons, hp]
  · intro l hl
    simp only [somfy_hosts_cache_init, List.foldl_cons, hl]

set_option maxRecDepth 100000 in
theorem C18_loader_line_shape_witness :
    parse_line "1a2b3c Test Remote\n".toList = some ⟨0x1a2b3c, "Test Remote".toList⟩ :=
  (C18_loader_line_shape "1a2b3c Test Remote\n".toList ⟨0x1a2b3c, "Test Remote".toList⟩ [] []
    (by decide) (by decide)).1

set_option maxRecDepth 100000 in
/-- C19: the `WITH_LPF` filter at the inputs where it leaves the claimed
window of 8.  `one_cnt` is decremented when bit `FILTER_DEPTH` (bit 8) of
`filter_bits` is set before the shift, that is for the sample seen nine
samples earlier, so after every input `one_cnt` is the number of set samples
among the last 9 raw samples: after sixteen set samples (`0xFF 0xFF`) it is 9,
not 8, and on `0x8F 0x80` (samples 1,0,0,0,1,1,1,1,1,0,...) the filtered level
rises at the ninth sample, edge `(1, 8)`, when only 5 of the last 8 raw
samples are set. -/
theorem C19_lpf_window_nine (bytes : List Nat) :
    (main_loop true detector_init bytes).1.one_cnt =
      (ones_in_last 9 (msb_first_samples bytes).reverse : Int) ∧
    (main_loop true detector_init [0xFF, 0xFF]).1.one_cnt = 9 ∧
    ones_in_last 8 (msb_first_samples [0xFF, 0xFF]).reverse = 8 ∧
    loop_edges true [0x8F, 0x80] = [(1, 8), (0, 7)] ∧
    (msb_first_samples [0x8F, 0x80]).take 9 = [1, 0, 0, 0, 1, 1, 1, 1, 1] ∧
    ones_in_last 8 ((msb_first_samples [0x8F, 0x80]).take 9).reverse = 5 ∧
    ones_in_last 9 ((msb_first_samples [0x8F, 0x80]).take 9).reverse = 6 := by
  refine ⟨?_, by decide, by decide, by decide, by decide, by decide, by decide⟩
  rw [main_loop_lpf]
  have h := lpf_all_window (msb_first_samples bytes) [] detector_init
    (by intro k _; simp [detector_init]) (by simp [detector_init, ones_in_last])
  simpa using h

/-- C20: the de-obfuscation is reversible on 56-bit values.  The chained
obfuscation `e` with `e6 = p6` and `e_i = p_i XOR e_(i+1)` for `i = 5` down to
0 maps 56-bit values to 56-bit values and is a two-sided inverse:
`deobfuscate (e p) = p` and `e (deobfuscate c) = c`; so two different 56-bit
raw values never de-obfuscate to the same plaintext. -/
theorem C20_deobfuscate_reversible (c p : Nat) (hc : c < 2 ^ 56) (hp : p < 2 ^ 56) :
    byte_at (obfuscate p) 6 = byte_at p 6 ∧
    (∀ i, i < 6 → byte_at (obfuscate p) i = byte_at p i ^^^ byte_at (obfuscate p) (i + 1)) ∧
    obfuscate p < 2 ^ 56 ∧
    deobfuscate (obfuscate p) = p ∧
    obfuscate (deobfuscate c) = c ∧
    (∀ c', c' < 2 ^ 56 → deobfuscate c = deobfuscate c' → c = c') := by
  refine ⟨byte_at_obfuscate p 6 (le_refl 6), ?_, obfuscate_lt p, deobfuscate_obfuscate p hp,
    obfuscate_deobfuscate c hc, ?_⟩
  · intro i hi
    rw [byte_at_obfuscate p i (by omega), byte_at_obfuscate p (i + 1) (by omega)]
    have e1 : 6 - i = (6 - (i + 1)) + 1 := by omega
    rw [e1, obfuscate_byte]
    have e2 : 6 - (6 - (i + 1) + 1) = i := by omega
    rw [e2]
  · intro c' hc' h
    rw [← obfuscate_deobfuscate c hc, ← obfuscate_deobfuscate c' hc', h]

theorem C20_deobfuscate_reversible_witness :
    byte_at (obfuscate 0xA7210C5A3C2B1A) 6 = byte_at 0xA7210C5A3C2B1A 6 ∧
    (∀ i, i < 6 → byte_at (obfuscate 0xA7210C5A3C2B1A) i =
      byte_at 0xA7210C5A3C2B1A i ^^^ byte_at (obfuscate 0xA7210C5A3C2B1A) (i + 1)) ∧
    obfuscate 0xA7210C5A3C2B1A < 2 ^ 56 ∧
    deobfuscate (obfuscate 0xA7210C5A3C2B1A) = 0xA7210C5A3C2B1A ∧
    obfuscate (deobfuscate 0xA7B3C4D5E6F708) = 0xA7B3C4D5E6F708 ∧
    (∀ c', c' < 2 ^ 56 → deobfuscate 0xA7B3C4D5E6F708 = deobfuscate c' →
      0xA7B3C4D5E6F708 = c') :=
  C20_deobfuscate_reversible 0xA7B3C4D5E6F708 0xA7210C5A3C2B1A (by norm_num) (by norm_num)

/-- C21: for every 56-bit plaintext frame `f`,
`somfy_calc_checksum f = somfy_frame_get_chksum f XOR (XOR of the other
thirteen nibbles of f)`; and keeping the other 52 bits fixed there is exactly
one value of the checksum nibble (bits 40-43) for which `somfy_calc_checksum`
returns 0, namely the XOR of the other thirteen nibbles. -/
theorem C21_checksum_nibble_unique (f : Nat) (hf : f < 2 ^ 56) :
    somfy_calc_checksum f = somfy_frame_get_chksum f ^^^ other_nibbles_xor f ∧
    other_nibbles_xor f < 16 ∧
    with_chksum f (somfy_frame_get_chksum f) = f ∧
    (∀ v, v < 16 →
      with_chksum f v < 2 ^ 56 ∧
      somfy_frame_get_chksum (with_chksum f v) = v ∧
      (∀ i, i < 14 → i ≠ 10 → nibble (with_chksum f v) i = nibble f i) ∧
      (somfy_calc_checksum (with_chksum f v) = 0 ↔ v = other_nibbles_xor f)) ∧
    (∃! v, v < 16 ∧ somfy_calc_checksum (with_chksum f v) = 0) := by
  have hsplit : ∀ g, somfy_calc_checksum g = somfy_frame_get_chksum g ^^^ other_nibbles_xor g := by
    intro g
    rw [somfy_calc_checksum_eq, nibble_xor_split, somfy_frame_get_chksum_eq_nibble]
  have hother : ∀ v, v < 16 → ∀ i, i < 14 → i ≠ 10 →
      nibble (with_chksum f v) i = nibble f i := by
    intro v hv i hi h10
    rw [nibble_with_chksum f v i hv hi, if_neg h10]
  have hget : ∀ v, v < 16 → somfy_frame_get_chksum (with_chksum f v) = v := by
    intro v hv
    rw [somfy_frame_get_chksum_eq_nibble, nibble_with_chksum f v 10 hv (by norm_num), if_pos rfl]
  have hzero : ∀ v, v < 16 →
      (somfy_calc_checksum (with_chksum f v) = 0 ↔ v = other_nibbles_xor f) := by
    intro v hv
    rw [hsplit, hget v hv, other_nibbles_xor_congr f (with_chksum f v) (hother v hv)]
    exact Nat.xor_eq_zero
  refine ⟨hsplit f, other_nibbles_xor_lt f, ?_, ?_, ?_⟩
  · rw [somfy_frame_get_chksum_eq_nibble]
    exact with_chksum_self f
  · intro v hv
    exact ⟨with_chksum_lt f v hf hv, hget v hv, hother v hv, hzero v hv⟩
  · refine ⟨other_nibbles_xor f,
      ⟨other_nibbles_xor_lt f, (hzero _ (other_nibbles_xor_lt f)).2 rfl⟩, ?_⟩
    intro v hv
    exact (hzero v hv.1).1 hv.2

theorem C21_checksum_nibble_unique_witness :
    somfy_calc_checksum 0xA7210C5A3C2B1A =
      somfy_frame_get_chksum 0xA7210C5A3C2B1A ^^^ other_nibbles_xor 0xA7210C5A3C2B1A ∧
    other_nibbles_xor 0xA7210C5A3C2B1A < 16 ∧
    with_chksum 0xA7210C5A3C2B1A (somfy_frame_get_chksum 0xA7210C5A3C2B1A) =
      0xA7210C5A3C2B1A ∧
    (∀ v, v < 16 →
      with_chksum 0xA7210C5A3C2B1A v < 2 ^ 56 ∧
      somfy_frame_get_chksum (with_chksum 0xA7210C5A3C2B1A v) = v ∧
      (∀ i, i < 14 → i ≠ 10 →
        nibble (with_chksum 0xA7210C5A3C2B1A v) i = nibble 0xA7210C5A3C2B1A i) ∧
      (somfy_calc_checksum (with_chksum 0xA7210C5A3C2B1A v) = 0 ↔
        v = other_nibbles_xor 0xA7210C5A3C2B1A)) ∧
    (∃! v, v < 16 ∧ somfy_calc_checksum (with_chksum 0xA7210C5A3C2B1A v) = 0) :=
  C21_checksum_nibble_unique 0xA7210C5A3C2B1A (by norm_num)

/-- C23, as the claim states it, fails once the `int` counter overflows: with
the wrapping counter, the preamble followed by `2 ^ 32 + 56` data edges of 34
samples leaves the decoder in Data0 with `data_len = 56` and a 64-bit value in
`data`, and the edge that ends the run hands a value of more than 56 bits to
the frame decoder. -/
theorem C23_counterexample :
    run_state_wrap quiet initial overflow_edges = ⟨.data0, 56, 0xAAAAAAAAAAAAAAAA⟩ ∧
    (run_state_wrap quiet initial overflow_edges).data_len ≤ 56 ∧
    ¬ (run_state_wrap quiet initial overflow_edges).data <
      2 ^ (run_state_wrap quiet initial overflow_edges).data_len ∧
    (level_change_cb_wrap quiet (run_state_wrap quiet initial overflow_edges) 1 500).2.map
      frame_of = [some 0xAAAA000000000000] ∧
    ¬ (0xAAAA000000000000 : Nat) < 2 ^ 56 := by
  rw [overflow_edges_state]
  decide

/-- C23 (amended): in every decoder state reached from the initial state
(Idle, `data_len = 0`, `data = 0`) by any sequence of edge events with levels
0 or 1 during which `data_len` stays below `2 ^ 31` (it is a C `int`; every
sequence of fewer than `2 ^ 31` edges qualifies), the counter has not
overflowed (the wrapping counter and the exact one agree), and `data <
2 ^ data_len` as long as `data_len ≤ 56`.  So whenever a call hands a frame to
the frame decoder, the accumulated value and the de-obfuscated value are below
`2 ^ 56`: bits 56-63 are zero, and the 14 hex digits that `%.14jx` prints are
the whole value; this holds for every frame report of the run. -/
theorem C23_bits_below_bit_count (cfg : config) (es : List (Nat × Nat))
    (new_level len : Nat) (hb : ∀ e ∈ es, e.1 ≤ 1)
    (hr : counter_in_range cfg initial es = true) :
    run_wrap cfg initial es = run cfg initial es ∧
    level_change_cb_wrap cfg (run_state cfg initial es) new_level len =
      level_change_cb cfg (run_state cfg initial es) new_level len ∧
    (∀ fs : List (Nat × Nat), fs.length < 2 ^ 31 → counter_in_range cfg initial fs = true) ∧
    ((run_state cfg initial es).data_len ≤ 56 →
      (run_state cfg initial es).data < 2 ^ (run_state cfg initial es).data_len) ∧
    (∀ o ∈ (level_change_cb cfg (run_state cfg initial es) new_level len).2,
      ∀ f, frame_of o = some f →
        f = deobfuscate (run_state cfg initial es).data ∧
        (run_state cfg initial es).data_len = 56 ∧
        (run_state cfg initial es).data < 2 ^ 56 ∧
        (run_state cfg initial es).data / 2 ^ 56 = 0 ∧
        f < 2 ^ 56) ∧
    (∀ o ∈ (run cfg initial es).2, ∀ f, frame_of o = some f →
      f < 2 ^ 56 ∧ f / 2 ^ 56 = 0 ∧ (Nat.digits 16 f).length ≤ 14) := by
  have hinit : acc_inv initial := ⟨by decide, fun _ => by decide⟩
  have hinv : acc_inv (run_state cfg initial es) := run_state_acc_inv cfg es initial hb hinit
  have hend := counter_in_range_end cfg es initial hr
  have h31 : (2 : Nat) ^ 31 < 2 ^ 32 := by norm_num
  have h0 : initial.data_len = 0 := rfl
  refine ⟨counter_in_range_run_wrap cfg es initial hr,
    level_change_cb_wrap_eq cfg _ new_level len (by omega),
    fun fs hfs => counter_in_range_of_short cfg fs initial (by rw [h0, Nat.zero_add]; exact hfs),
    fun h56 => hinv.2 (by omega), ?_, ?_⟩
  · intro o ho f hf
    obtain ⟨h1, h2, h3, h4⟩ := level_change_cb_frame_lt cfg _ new_level len hinv o ho f hf
    exact ⟨h1, h2, h3, Nat.div_eq_of_lt h3, h4⟩
  · intro o ho f hf
    have hlt := run_frame_lt cfg es initial hinit hb o ho f hf
    exact ⟨hlt, Nat.div_eq_of_lt hlt, hex_digits_length_le f hlt⟩

set_option maxRecDepth 100000 in
theorem C23_bits_below_bit_count_witness :
    counter_in_range quiet initial (acceptance_edges ++ short_pulse_edges) = true ∧
    (run_state quiet initial (acceptance_edges ++ short_pulse_edges)).data_len ≤ 56 ∧
    (run_state quiet initial (acceptance_edges ++ short_pulse_edges)).data <
      2 ^ (run_state quiet initial (acceptance_edges ++ short_pulse_edges)).data_len :=
  ⟨by decide, by decide,
    (C23_bits_below_bit_count quiet (acceptance_edges ++ short_pulse_edges) 1 500
      (by decide) (by decide)).2.2.2.1 (by decide)⟩

/-- C22: the packer writes the samples (low bits of the bytes read) eight per
byte, first sample in the most significant bit, and then always one more byte
holding the pending samples padded on the right with zero bits, because the
guard `j < 8` of the tail also holds for `j = 0`.  Unpacked MSB-first the
output is the input samples followed by `8 - n % 8` zero samples (between 1
and 8), and it has `n / 8 + 1` bytes: one more than `ceil(n/8)` exactly when
`n` is a multiple of 8.  Eight samples of 1 give the two bytes `0xFF 0x00`, and
the empty input gives the single byte `0x00`. -/
theorem C22_extra_zero_byte (reads : List (List Nat)) :
    msb_first_samples (pack_bit_stream.main reads) =
      (bytes_read reads).map sample_of ++
        List.replicate (8 - (bytes_read reads).length % 8) 0 ∧
    (pack_bit_stream.main reads).length =
      ((bytes_read reads).length + 7) / 8 +
        (if (bytes_read reads).length % 8 = 0 then 1 else 0) ∧
    (pack_bit_stream.main reads).all (fun byte => decide (byte < 256)) = true ∧
    bytes_read [[1, 1, 1, 1, 1, 1, 1, 1]] = [1, 1, 1, 1, 1, 1, 1, 1] ∧
    pack_bit_stream.main [[1, 1, 1, 1, 1, 1, 1, 1]] = [0xFF, 0x00] ∧
    (8 + 7) / 8 = 1 ∧
    pack_bit_stream.main [] = [0x00] := by
  obtain ⟨h1, h2, h3⟩ := main_unpacked reads
  refine ⟨h1, ?_, h3, by decide, by decide, by decide, by decide⟩
  rw [h2]
  split_ifs with h <;> omega

end Somfy
